import Mathlib

set_option linter.unusedVariables false
set_option linter.unusedSectionVars false

/-!
A shallow embedding of `src/math/grobner/pdd_solver.cpp` (the pdd-based
Groebner saturation core of z3) and a verification of the frozen claims
about it.

The polynomial algebra (`dd::pdd`, `pdd_manager`) is out of scope of the
source file; following the specification it is treated as an opaque algebra
(`Ctx` below) providing `is_val`, `is_zero`, `var`, `hi`, `reduce`,
`try_spoly`, `different_leading_term`, `tree_size`, `degree`, the
too-complex heuristic, the `is_simpler` order and the global variable
order `level2var`.  Memory exhaustion raised by the algebra
(`pdd_manager::mem_out`) is modelled by `reduce`/`try_spoly` returning
`Except.error`; solver functions propagate it as an `Except.error`
carrying the solver state as it stands when the exception passes out of
the corresponding C++ scope (so each C++ scope guard / destructor is
applied to the carried state, exactly as the stack unwinds).

Equations are heap records addressed by numeric ids (modelling
`equation*`); the three queues and the watch lists store ids.
-/

deriving instance DecidableEq for Except

namespace PddSolver

/-- Queue membership state of an equation (`solver::eq_state`). -/
inductive EqState where
  | to_simplify : EqState
  | processed : EqState
  | solved : EqState
deriving DecidableEq, Repr

/-- An equation record: polynomial, dependency token, queue state and the
index of the equation inside its queue (`class equation` in pdd_solver.h:
fields `m_poly`, `m_dep`, `m_state`, `m_idx`). -/
structure EqRec (P D : Type) where
  poly : P
  dep : D
  state : EqState
  idx : Nat
deriving DecidableEq, Repr

/-- Statistics counters (`solver::stats`). -/
structure Stats where
  m_simplified : Nat := 0
  m_superposed : Nat := 0
  m_compute_steps : Nat := 0
  m_max_expr_size : Nat := 0
  m_max_expr_degree : Nat := 0
deriving DecidableEq, Repr

/-- Configuration (`solver::config`): the equation-count and step-count
bounds read by `done()`. -/
structure Config where
  m_eqs_threshold : Nat
  m_max_steps : Nat
deriving DecidableEq, Repr

/-- The opaque polynomial algebra and all external collaborators consumed
by the solver core: pdd accessors, reduction, superposition, the
too-complex heuristic, the `is_simpler` order, the dependency-join monoid,
the variable order, the cancellation flag and the configuration.
`reduce`/`trySpoly` return `Except.error ()` to model
`pdd_manager::mem_out`. -/
structure Ctx (P D : Type) where
  isVal : P → Bool
  isZero : P → Bool
  pvar : P → Nat
  hiIsVal : P → Bool
  reduce : P → P → Except Unit P
  trySpoly : P → P → Except Unit (Option P)
  differentLeadingTerm : P → P → Bool
  treeSize : P → Nat
  degree : P → Nat
  tooComplex : P → Bool
  isSimpler : P → P → Bool
  join : D → D → D
  level2var : List Nat
  cancel : Bool
  config : Config

/-- The solver state: equation heap (association list id ↦ record, with a
fresh-id counter), the three queues (`m_solved`, `m_processed`,
`m_to_simplify`), the watch index `m_watch`, the variable order copies
`m_level2var`/`m_var2level`, the scan bound `m_levelp1`, the conflict
witness `m_conflict`, the `m_too_complex` flag and statistics. -/
structure St (P D : Type) where
  eqs : List (Nat × EqRec P D) := []
  next : Nat := 0
  solvedQ : List Nat := []
  processedQ : List Nat := []
  toSimplifyQ : List Nat := []
  watch : List (List Nat) := []
  level2var : List Nat := []
  var2level : List Nat := []
  levelp1 : Nat := 0
  conflict : Option Nat := none
  tooComplexFlag : Bool := false
  stats : Stats := {}
deriving DecidableEq, Repr

variable {P D : Type} [DecidableEq P] [DecidableEq D]

/-- Heap lookup: dereference an equation id. -/
def St.find? (st : St P D) (i : Nat) : Option (EqRec P D) :=
  (st.eqs.find? (fun p => p.1 = i)).map (fun p => p.2)

/-- Heap update: overwrite the record at id `i` (mutation of `*eq`). -/
def St.setEq (st : St P D) (i : Nat) (r : EqRec P D) : St P D :=
  { st with eqs := st.eqs.map (fun p => if p.1 = i then (i, r) else p) }

/-- `retire(eq)`: deallocate the equation. -/
def retire (st : St P D) (i : Nat) : St P D :=
  { st with eqs := st.eqs.filter (fun p => ¬ p.1 = i) }

/-- `solver::get_queue`: the queue vector an equation state names. -/
def St.getQueue (st : St P D) : EqState → List Nat
  | .to_simplify => st.toSimplifyQ
  | .processed => st.processedQ
  | .solved => st.solvedQ

/-- Replace the queue named by a state. -/
def St.setQueue (st : St P D) : EqState → List Nat → St P D
  | .to_simplify, q => { st with toSimplifyQ := q }
  | .processed, q => { st with processedQ := q }
  | .solved, q => { st with solvedQ := q }

/-- The state of an equation id, when live. -/
def stOf (st : St P D) (i : Nat) : Option EqState :=
  (st.find? i).map (fun r => r.state)

/-- The queue index stored in an equation (0 when dead). -/
def ixOf (st : St P D) (i : Nat) : Nat :=
  ((st.find? i).map (fun r => r.idx)).getD 0

/-- `eq.poly().is_val()` of an equation id (`true` when dead). -/
def valOf (ctx : Ctx P D) (st : St P D) (i : Nat) : Bool :=
  ((st.find? i).map (fun r => ctx.isVal r.poly)).getD true

/-- `eq.poly().is_zero()` of an equation id (`false` when dead). -/
def zeroOf (ctx : Ctx P D) (st : St P D) (i : Nat) : Bool :=
  ((st.find? i).map (fun r => ctx.isZero r.poly)).getD false

/-- `eq.poly().var()` of an equation id (0 when dead). -/
def pvOf (ctx : Ctx P D) (st : St P D) (i : Nat) : Nat :=
  ((st.find? i).map (fun r => ctx.pvar r.poly)).getD 0

/-- `eq.poly().hi().is_val()` of an equation id (`false` when dead). -/
def hiValOf (ctx : Ctx P D) (st : St P D) (i : Nat) : Bool :=
  ((st.find? i).map (fun r => ctx.hiIsVal r.poly)).getD false

/-- Overwrite only the stored queue index of an equation
(`eq->set_index(j)`). -/
def setIdx (st : St P D) (i : Nat) (k : Nat) : St P D :=
  match st.find? i with
  | none => st
  | some r => st.setEq i { r with idx := k }

/-- `solver::push_equation(st, eq)`: set the state, append to the queue the
new state names, record the position as the equation's index. -/
def push_equation (st : St P D) (s : EqState) (i : Nat) : St P D :=
  match st.find? i with
  | none => st
  | some r =>
    let st' := st.setEq i { r with state := s, idx := (st.getQueue s).length }
    st'.setQueue s ((st'.getQueue s) ++ [i])

/-- `solver::pop_equation(eq)`: remove the equation from its queue by
swap-with-last at its stored index, updating the swapped-in equation's
index. -/
def pop_equation (st : St P D) (i : Nat) : St P D :=
  match st.find? i with
  | none => st
  | some r =>
    let q := st.getQueue r.state
    if r.idx + 1 = q.length then
      st.setQueue r.state q.dropLast
    else
      match q.getLast? with
      | none => st.setQueue r.state q.dropLast
      | some lastId =>
        let st' := setIdx st lastId r.idx
        st'.setQueue r.state ((q.set r.idx lastId).dropLast)

/-- `solver::is_trivial(eq)`: the polynomial reduced to zero.
Modelled from the spec: `is_trivial` lives in pdd_solver.h (not under
src/); §4.5 calls an equation trivial when its polynomial is zero. -/
def is_trivial (ctx : Ctx P D) (st : St P D) (i : Nat) : Bool :=
  zeroOf ctx st i

/-- `solver::is_conflict(eq)`: constant non-zero polynomial.
Modelled from the spec: `is_conflict` lives in pdd_solver.h (not under
src/); §4.8 and §7 describe a conflict as a constant non-zero
polynomial. -/
def is_conflict (ctx : Ctx P D) (st : St P D) (i : Nat) : Bool :=
  valOf ctx st i && !zeroOf ctx st i

/-- `solver::set_conflict(eq)`: record the conflict witness and push the
equation to *solved*.
Modelled from the spec: `set_conflict` lives in pdd_solver.h (not under
src/); §4.5 says a conflicting target is "set as conflict, push to
*solved*", and §3 says the engine retains queues once a conflict is
set. -/
def set_conflict (ctx : Ctx P D) (st : St P D) (i : Nat) : St P D :=
  push_equation { st with conflict := some i } .solved i

/-- `solver::check_conflict(eq)`: if the equation is a conflict, record it
and report `true`.
Modelled from the spec: `check_conflict` lives in pdd_solver.h (not under
src/); §4.8: "check for immediate conflict (constant non-zero)" and, if
so, record it. -/
def check_conflict (ctx : Ctx P D) (st : St P D) (i : Nat) : St P D × Bool :=
  if is_conflict ctx st i then (set_conflict ctx st i, true) else (st, false)

/-- `solver::update_stats_max_degree_and_size`. -/
def update_stats_max (ctx : Ctx P D) (st : St P D) (i : Nat) : St P D :=
  match st.find? i with
  | none => st
  | some r =>
    { st with stats := { st.stats with
        m_max_expr_size := max st.stats.m_max_expr_size (ctx.treeSize r.poly),
        m_max_expr_degree := max st.stats.m_max_expr_degree (ctx.degree r.poly) } }

/-- `solver::add_to_watch(eq)`: append the equation to the watch list of
its leading variable (only non-constant polynomials are watched). -/
def add_to_watch (ctx : Ctx P D) (st : St P D) (i : Nat) : St P D :=
  match st.find? i with
  | none => st
  | some r =>
    if ctx.isVal r.poly then st
    else
      let v := ctx.pvar r.poly
      { st with watch := st.watch.set v ((st.watch.getD v []) ++ [i]) }

/-- `alloc(equation, p, dep)`: a fresh equation appended to the heap. -/
def add_fresh (st : St P D) (p : P) (dep : D) : St P D :=
  { st with eqs := st.eqs ++ [(st.next, ⟨p, dep, .to_simplify, 0⟩)], next := st.next + 1 }

/-- The watch maintenance of `add`: when the watch index is initialized,
raise `m_levelp1` and watch the fresh equation. -/
def add_watch (ctx : Ctx P D) (st : St P D) (p : P) (i : Nat) : St P D :=
  if st.watch.isEmpty then st
  else
    add_to_watch ctx
      { st with levelp1 := max (st.var2level.getD (ctx.pvar p) 0 + 1) st.levelp1 } i

/-- `solver::add(p, dep)`: ignore zero; allocate a fresh equation; an
immediate conflict is recorded (and pushed to *solved*) without entering
*to-simplify*; otherwise push to *to-simplify* and, when the watch index
has been initialized, raise `m_levelp1` and watch the leading variable. -/
def add (ctx : Ctx P D) (st : St P D) (p : P) (dep : D) : St P D :=
  if ctx.isZero p then st
  else
    let res := check_conflict ctx (add_fresh st p dep) st.next
    if res.2 then res.1
    else update_stats_max ctx (add_watch ctx (push_equation res.1 .to_simplify st.next) p st.next) st.next

/-- `solver::canceled()`: the externally owned cancellation flag. -/
def canceled (ctx : Ctx P D) : Bool := ctx.cancel

/-- `solver::done()`: equation-count threshold reached, cancellation,
step-count cap exceeded, or a conflict recorded. -/
def done (ctx : Ctx P D) (st : St P D) : Bool :=
  decide (ctx.config.m_eqs_threshold ≤ st.toSimplifyQ.length + st.processedQ.length) ||
  canceled ctx ||
  decide (ctx.config.m_max_steps < st.stats.m_compute_steps) ||
  st.conflict.isSome

/-- `solver::try_simplify_using(dst, src, changed_leading_term)`: simplify
`dst` with `src`; bump the `simplified` statistic as soon as the equations
are distinct; abandon the reduction when the result is unchanged or too
complex (the latter setting `m_too_complex`); otherwise overwrite the
target's polynomial and dependency and report whether a processed target's
leading term changed.  The `clt` argument models the caller-owned
`changed_leading_term` variable, returned unassigned on the early exits.
An `Except.error` models `pdd_manager::mem_out` escaping from `reduce`. -/
def bump_simplified (st : St P D) : St P D :=
  { st with stats := { st.stats with m_simplified := st.stats.m_simplified + 1 } }

/-- The body of `try_simplify_using` after the statistics bump. -/
def tsu_core (ctx : Ctx P D) (st : St P D) (dst src : Nat) (clt : Bool) :
    Except (St P D) (St P D × Bool × Bool) :=
  match st.find? dst, st.find? src with
  | some d, some s =>
    match ctx.reduce d.poly s.poly with
    | .error _ => .error st
    | .ok r =>
      if r = d.poly then .ok (st, false, clt)
      else if ctx.tooComplex r then .ok ({ st with tooComplexFlag := true }, false, clt)
      else
        .ok (update_stats_max ctx
               (st.setEq dst { d with poly := r, dep := ctx.join d.dep s.dep }) dst,
             true, decide (d.state = .processed) && ctx.differentLeadingTerm r d.poly)
  | _, _ => .ok (st, false, clt)

def try_simplify_using (ctx : Ctx P D) (st : St P D) (dst src : Nat) (clt : Bool) :
    Except (St P D) (St P D × Bool × Bool) :=
  if dst = src then .ok (st, false, clt)
  else tsu_core ctx (bump_simplified st) dst src clt

/-- One pass of `solver::simplify_using(eq, eqs)` over the list `eqs`,
accumulating whether any reduction succeeded and breaking on cancellation
or when the target's polynomial became constant. -/
def simplify_using_pass (ctx : Ctx P D) (e : Nat) :
    List Nat → St P D → Bool → Except (St P D) (St P D × Bool)
  | [], st, simplified => .ok (st, simplified)
  | p :: ps, st, simplified =>
    match try_simplify_using ctx st e p false with
    | .error s => .error s
    | .ok (st, b, _) =>
      if canceled ctx || valOf ctx st e then .ok (st, simplified || b)
      else simplify_using_pass ctx e ps st (simplified || b)

/-- `solver::simplify_using(eq, eqs)`: repeat passes while some reduction
succeeded and the polynomial is still non-constant.  The C++ do-while has
no structural bound (termination is owed to the algebra's reduction
order), so the number of passes is bounded by explicit fuel; exhausted
fuel exits the loop with the state as it stands. -/
def simplify_using_eq (ctx : Ctx P D) (e : Nat) (eqs : List Nat) :
    Nat → St P D → Except (St P D) (St P D)
  | 0, st => .ok st
  | fuel + 1, st =>
    match simplify_using_pass ctx e eqs st false with
    | .error s => .error s
    | .ok (st, simplified) =>
      if simplified && !(valOf ctx st e) then simplify_using_eq ctx e eqs fuel st
      else .ok st

/-- The `scoped_update` destructor of `solver::simplify_using(set, eq)`:
append the not-yet-visited targets to the kept prefix, renumbering their
stored indices (`nextj` for the remaining `i < sz`). -/
def append_fix (st : St P D) (kept : List Nat) : List Nat → St P D × List Nat
  | [] => (st, kept)
  | r :: rs => append_fix (setIdx st r kept.length) (kept ++ [r]) rs

/-- The traversal of `solver::simplify_using(set, eq)` with `set` the
processed queue: reduce each target with `eq`; a target reduced to zero is
retired, a conflicting target is recorded and moved to *solved*, a target
whose leading term changed migrates back to *to-simplify* (raising
`m_levelp1` and watching it) and is dropped from the processed vector, any
other target is kept and renumbered (`nextj`).  `st.processedQ` keeps the
original vector during the pass (the in-place compaction only commits at
scope exit); `kept` accumulates the surviving prefix.  On `mem_out` the
`scoped_update` destructor still compacts, keeping the unvisited tail. -/
def simplify_set_loop (ctx : Ctx P D) (e : Nat) :
    List Nat → St P D → List Nat → Except (St P D) (St P D × List Nat)
  | [], st, kept => .ok (st, kept)
  | t :: ts, st, kept =>
    if done ctx st then
      simplify_set_loop ctx e ts (setIdx st t kept.length) (kept ++ [t])
    else
      match try_simplify_using ctx st t e false with
      | .error s =>
        let (s2, ks) := append_fix s kept (t :: ts)
        .error { s2 with processedQ := ks }
      | .ok (st, simplified, clt) =>
        if simplified && is_trivial ctx st t then
          simplify_set_loop ctx e ts (retire st t) kept
        else
          let (st, confl) := if simplified then check_conflict ctx st t else (st, false)
          if confl then
            simplify_set_loop ctx e ts st kept
          else if simplified && clt then
            let st := push_equation st .to_simplify t
            let st :=
              if st.watch.isEmpty then st
              else
                let lp := max (st.var2level.getD (pvOf ctx st t) 0 + 1) st.levelp1
                add_to_watch ctx { st with levelp1 := lp } t
            simplify_set_loop ctx e ts st kept
          else
            simplify_set_loop ctx e ts (setIdx st t kept.length) (kept ++ [t])

/-- `solver::simplify_using(m_processed, eq)`: run the traversal over the
processed queue and commit the compacted vector at scope exit. -/
def simplify_using_set (ctx : Ctx P D) (st : St P D) (e : Nat) :
    Except (St P D) (St P D) :=
  match simplify_set_loop ctx e st.processedQ st [] with
  | .error s => .error s
  | .ok (st, kept) => .ok { st with processedQ := kept }

/-- `solver::superpose(eq1, eq2)`: ask the algebra for an S-polynomial;
discard zero results; a too-complex result only sets `m_too_complex`;
otherwise count it and `add` it with the joined dependency. -/
def superpose2 (ctx : Ctx P D) (st : St P D) (e1 e2 : Nat) :
    Except (St P D) (St P D) :=
  match st.find? e1, st.find? e2 with
  | some r1, some r2 =>
    match ctx.trySpoly r1.poly r2.poly with
    | .error _ => .error st
    | .ok none => .ok st
    | .ok (some r) =>
      if ctx.isZero r then .ok st
      else if ctx.tooComplex r then .ok { st with tooComplexFlag := true }
      else
        let st := { st with stats := { st.stats with m_superposed := st.stats.m_superposed + 1 } }
        .ok (add ctx st r (ctx.join r1.dep r2.dep))
  | _, _ => .ok st

/-- `solver::superpose(eq)`: superpose the equation against every element
of the processed queue (which `add` never touches during the walk). -/
def superpose_all (ctx : Ctx P D) (e : Nat) :
    List Nat → St P D → Except (St P D) (St P D)
  | [], st => .ok st
  | t :: ts, st =>
    match superpose2 ctx st e t with
    | .error s => .error s
    | .ok st => superpose_all ctx e ts st

/-- The traversal of `solver::simplify_watch(eq)` over the watch list of
`eq`'s leading variable `v`: reduce each target with `eq` unless `done()`;
a trivial target is popped and retired, a conflicting target popped and
recorded, a target whose leading variable moved is appended to the other
variable's watch list, and any other target is kept.  `st.watch` keeps the
original list at `v` during the pass; on `mem_out` no `shrink` runs, so
the list at `v` keeps its original length with the kept prefix written
over it (`orig` is the original list). -/
def simplify_watch_loop (ctx : Ctx P D) (e : Nat) (v : Nat) (orig : List Nat) :
    List Nat → St P D → List Nat → Except (St P D) (St P D × List Nat)
  | [], st, kept => .ok (st, kept)
  | t :: ts, st, kept =>
    match (if done ctx st then .ok (st, false, false)
           else try_simplify_using ctx st t e false : Except (St P D) (St P D × Bool × Bool)) with
    | .error s =>
      .error { s with watch := s.watch.set v (kept ++ orig.drop kept.length) }
    | .ok (st, _, _) =>
      if is_trivial ctx st t then
        simplify_watch_loop ctx e v orig ts (retire (pop_equation st t) t) kept
      else if is_conflict ctx st t then
        simplify_watch_loop ctx e v orig ts (set_conflict ctx (pop_equation st t) t) kept
      else if ¬ pvOf ctx st t = v then
        let w := pvOf ctx st t
        simplify_watch_loop ctx e v orig ts
          { st with watch := st.watch.set w ((st.watch.getD w []) ++ [t]) } kept
      else
        simplify_watch_loop ctx e v orig ts st (kept ++ [t])

/-- `solver::simplify_watch(eq)`: walk the watch list of `eq`'s leading
variable and shrink it to the kept entries. -/
def simplify_watch (ctx : Ctx P D) (st : St P D) (e : Nat) :
    Except (St P D) (St P D) :=
  let v := pvOf ctx st e
  let orig := st.watch.getD v []
  match simplify_watch_loop ctx e v orig orig st [] with
  | .error s => .error s
  | .ok (st, kept) => .ok { st with watch := st.watch.set v kept }

/-- The scan of one watch list in `solver::pick_next`: among entries still
in state *to-simplify* whose leading variable is still `v`, keep the
`is_simpler`-preferred one. -/
def pick_min (ctx : Ctx P D) (st : St P D) (v : Nat) :
    List Nat → Option Nat → Option Nat
  | [], best => best
  | c :: cs, best =>
    match st.find? c with
    | none => pick_min ctx st v cs best
    | some rc =>
      if rc.state = .to_simplify ∧ ctx.pvar rc.poly = v then
        match best with
        | none => pick_min ctx st v cs (some c)
        | some b =>
          match st.find? b with
          | none => pick_min ctx st v cs (some c)
          | some rb =>
            if ctx.isSimpler rc.poly rb.poly then pick_min ctx st v cs (some c)
            else pick_min ctx st v cs best
      else pick_min ctx st v cs best

/-- The descent of `solver::pick_next` over variable levels: at level
`n` (`m_levelp1 - 1`) scan the watch list of `m_level2var[n]`; on a hit,
pop the chosen equation from its queue and erase it from the watch list of
its leading variable and return it (without decrementing `m_levelp1`); on
a miss decrement `m_levelp1` and continue; return none at level 0. -/
def watch_erase (ctx : Ctx P D) (st : St P D) (e : Nat) : St P D :=
  let w := pvOf ctx st e
  { st with watch := st.watch.set w ((st.watch.getD w []).erase e) }

def pick_next_go (ctx : Ctx P D) : Nat → St P D → St P D × Option Nat
  | 0, st => (st, none)
  | n + 1, st =>
    match pick_min ctx st (st.level2var.getD n 0)
        (st.watch.getD (st.level2var.getD n 0) []) none with
    | some e => (watch_erase ctx (pop_equation st e) e, some e)
    | none => pick_next_go ctx n { st with levelp1 := n }

/-- `solver::pick_next()`. -/
def pick_next (ctx : Ctx P D) (st : St P D) : St P D × Option Nat :=
  pick_next_go ctx st.levelp1 st

/-- The `scoped_process` commit guard.  `guard_push` is the destructor
path (abrupt exit, or a normal exit that never called `done()`): the
equation defaults to *processed*. -/
def guard_push (st : St P D) (e : Nat) : St P D :=
  push_equation st .processed e

/-- `scoped_process::done()`: commit the equation to *solved* when its
polynomial is in solved form (constant `hi()`), else to *processed*. -/
def commit_done (ctx : Ctx P D) (st : St P D) (e : Nat) : St P D :=
  if hiValOf ctx st e then push_equation st .solved e else push_equation st .processed e

/-- `solver::step()`: count the step; pick the next equation (none means
saturated, return false); open the commit guard; simplify the picked
equation by the processed set (a trivial result retires it, a conflict
records it, both disarming the guard); clear `m_too_complex`; simplify the
processed set by it (early false return when `done()`); superpose; walk
the watch list; commit through the guard (`done()` only when
`m_too_complex` stayed clear).  An `Except.error` carries the state after
the guard's destructor pushed the picked equation to *processed*. -/
def step (ctx : Ctx P D) (fuel : Nat) (st : St P D) :
    Except (St P D) (St P D × Bool) :=
  let st := { st with stats := { st.stats with
      m_compute_steps := st.stats.m_compute_steps + 1 } }
  match pick_next ctx st with
  | (st, none) => .ok (st, false)
  | (st, some e) =>
    match simplify_using_eq ctx e st.processedQ fuel st with
    | .error s => .error (guard_push s e)
    | .ok st =>
      if is_trivial ctx st e then .ok (retire st e, true)
      else
        match check_conflict ctx st e with
        | (st, true) => .ok (st, false)
        | (st, false) =>
          let st := { st with tooComplexFlag := false }
          match simplify_using_set ctx st e with
          | .error s => .error (guard_push s e)
          | .ok st =>
            if done ctx st then .ok (guard_push st e, false)
            else
              match superpose_all ctx e st.processedQ st with
              | .error s => .error (guard_push s e)
              | .ok st =>
                match simplify_watch ctx st e with
                | .error s => .error (guard_push s e)
                | .ok st =>
                  if done ctx st then .ok (guard_push st e, false)
                  else if !st.tooComplexFlag then .ok (commit_done ctx st e, true)
                  else .ok (guard_push st e, true)

/-- The assignments `m_var2level[l2v[i]] = i` of `solver::init_saturate`,
over a vector resized to `n` (new slots zero-initialized). -/
def mk_var2level (l2v : List Nat) (old : List Nat) : List Nat :=
  (List.range l2v.length).foldl (fun a i => a.set (l2v.getD i 0) i)
    (old.take l2v.length ++ List.replicate (l2v.length - old.length) 0)

/-- `solver::init_saturate()`: copy the algebra's variable order into
`m_level2var`/`m_var2level`, reset and size the watch index, set
`m_levelp1` to the number of variables, and watch every *to-simplify*
equation. -/
def init_saturate (ctx : Ctx P D) (st : St P D) : St P D :=
  let st :=
    { st with
      level2var := ctx.level2var,
      var2level := mk_var2level ctx.level2var st.var2level,
      watch := List.replicate ctx.level2var.length [],
      levelp1 := ctx.level2var.length }
  st.toSimplifyQ.foldl (fun s i => add_to_watch ctx s i) st

/-- The pre-pass `solver::simplify()`.
Modelled from the spec: the separate pre-pass simplifier
(`pdd_simplifier`, not under src/) is "specified here only by its entry
point" (§1), with no behavior given; it is modelled as having none. -/
def presimplify (st : St P D) : St P D := st

/-- The saturation loop `while (!done() && step())`, with explicit fuel
for the outer loop (the claims about termination bound the fuel needed by
the step counter) and for the inner do-while of each step.  `none` is the
out-of-fuel artifact; `some (.error s)` is `pdd_manager::mem_out`
propagating out of the loop with state `s`. -/
def saturate_loop (ctx : Ctx P D) (ifuel : Nat) :
    Nat → St P D → Option (Except (St P D) (St P D))
  | fuel, st =>
    if done ctx st then some (.ok st)
    else
      match fuel with
      | 0 => none
      | fuel + 1 =>
        match step ctx ifuel st with
        | .error s => some (.error s)
        | .ok (st, true) => saturate_loop ctx ifuel fuel st
        | .ok (st, false) => some (.ok st)

/-- `solver::saturate()`: pre-pass, `init_saturate`, then the loop; on
`mem_out` the watch index is cleared and the function returns normally
with the queues as they stood. -/
def saturate (ctx : Ctx P D) (ifuel ofuel : Nat) (st : St P D) :
    Option (St P D) :=
  match saturate_loop ctx ifuel ofuel (init_saturate ctx (presimplify st)) with
  | none => none
  | some (.ok st) => some st
  | some (.error s) => some { s with watch := [] }

/-- `solver::collect_statistics`: the counters written to the statistics
sink. -/
def collect_statistics (st : St P D) : List (String × Nat) :=
  [("dd.solver.steps", st.stats.m_compute_steps),
   ("dd.solver.simplified", st.stats.m_simplified),
   ("dd.solver.superposed", st.stats.m_superposed),
   ("dd.solver.processed", st.processedQ.length),
   ("dd.solver.solved", st.solvedQ.length),
   ("dd.solver.to_simplify", st.toSimplifyQ.length),
   ("dd.solver.degree", st.stats.m_max_expr_degree),
   ("dd.solver.size", st.stats.m_max_expr_size)]

/-! ### A small concrete polynomial algebra for witnesses and counterexamples

Variables: `0` (level 0, "y") and `1` (level 1, "x"); `level2var = [0, 1]`.
`pX`, `pXone`, `pXY` have leading variable 1; `pY`, `pYone` leading
variable 0; `pzero`, `pone` are constants. -/

inductive TP where
  | pzero : TP
  | pone : TP
  | pX : TP
  | pXone : TP
  | pXY : TP
  | pY : TP
  | pYone : TP
deriving DecidableEq, Repr, Fintype

/-- Rank used by the concrete strict `is_simpler` order. -/
def TP.rank : TP → Nat
  | .pzero => 0
  | .pone => 1
  | .pY => 2
  | .pYone => 3
  | .pX => 4
  | .pXone => 5
  | .pXY => 6

def TP.isVal : TP → Bool
  | .pzero => true
  | .pone => true
  | _ => false

def TP.isZero : TP → Bool
  | .pzero => true
  | _ => false

def TP.pvar : TP → Nat
  | .pY => 0
  | .pYone => 0
  | _ => 1

/-- A benign algebra: reduction is a no-op except `pXY / pX = pY` (the
leading variable drops a level) and `pXone / pX = pone` (reduction to a
non-zero constant, i.e. a conflict); no S-polynomials; nothing is too
complex; `hi()` is constant everywhere except on `pXY`. -/
def ctxW : Ctx TP Unit :=
  { isVal := TP.isVal
    isZero := TP.isZero
    pvar := TP.pvar
    hiIsVal := fun p => decide (p ≠ .pXY)
    reduce := fun p q =>
      if p = .pXY ∧ q = .pX then .ok .pY
      else if p = .pXone ∧ q = .pX then .ok .pone
      else .ok p
    trySpoly := fun _ _ => .ok none
    differentLeadingTerm := fun p q => decide (p.pvar ≠ q.pvar)
    treeSize := fun _ => 1
    degree := fun _ => 1
    tooComplex := fun _ => false
    isSimpler := fun p q => decide (p.rank < q.rank)
    join := fun _ _ => ()
    level2var := [0, 1]
    cancel := false
    config := { m_eqs_threshold := 10, m_max_steps := 10 } }

/-- The same algebra with a reduction that always signals memory
exhaustion (`pdd_manager::mem_out`). -/
def ctxMem : Ctx TP Unit :=
  { ctxW with reduce := fun _ _ => .error () }

/-- The empty solver state. -/
def st0 : St TP Unit := {}

/-- `ctxW` with a heuristic that rejects the constant 1 as too complex
(used to exercise the too-complex path of `try_simplify_using`). -/
def ctxTC : Ctx TP Unit :=
  { ctxW with tooComplex := fun p => decide (p = TP.pone) }

/-- The state holding the two equations `x + 1 = 0` (id 0) and `x = 0`
(id 1), both still in *to-simplify*. -/
def stAB : St TP Unit := add ctxW (add ctxW st0 .pXone ()) .pX ()

/-! ### Basic lemmas about the heap and the statistics fields -/

theorem lfind_set_self (i : Nat) (r : EqRec P D) :
    ∀ l : List (Nat × EqRec P D), (l.find? (fun p => p.1 = i)).isSome →
      (l.map (fun p => if p.1 = i then (i, r) else p)).find? (fun p => p.1 = i) = some (i, r)
  | [], h => by simp at h
  | p :: ps, h => by
    by_cases hp : p.1 = i
    · simp [List.find?_cons, hp]
    · rw [List.find?_cons_of_neg _ (by simpa using hp)] at h
      simpa [List.find?_cons, hp] using lfind_set_self i r ps h

theorem lfind_set_ne (i j : Nat) (r : EqRec P D) (h : ¬ j = i) :
    ∀ l : List (Nat × EqRec P D),
      (l.map (fun p => if p.1 = i then (i, r) else p)).find? (fun p => p.1 = j) =
        l.find? (fun p => p.1 = j)
  | [] => by simp
  | p :: ps => by
    by_cases hp : p.1 = i
    · have hj : ¬ p.1 = j := by
        intro hh
        exact h (hh ▸ hp.symm ▸ rfl)
      rw [List.map_cons, if_pos hp, List.find?_cons_of_neg _ (by simpa using fun hh => h hh.symm),
        List.find?_cons_of_neg _ (by simpa using hj)]
      exact lfind_set_ne i j r h ps
    · by_cases hj : p.1 = j
      · rw [List.map_cons, if_neg hp, List.find?_cons_of_pos _ (by simpa using hj),
          List.find?_cons_of_pos _ (by simpa using hj)]
      · rw [List.map_cons, if_neg hp, List.find?_cons_of_neg _ (by simpa using hj),
          List.find?_cons_of_neg _ (by simpa using hj)]
        exact lfind_set_ne i j r h ps

theorem find?_eqs_congr (s1 s2 : St P D) (h : s1.eqs = s2.eqs) (i : Nat) :
    s1.find? i = s2.find? i := by
  unfold St.find?
  rw [h]

theorem getQueue_setEq (st : St P D) (i : Nat) (r : EqRec P D) (s : EqState) :
    (st.setEq i r).getQueue s = st.getQueue s := by
  cases s <;> rfl

/-- Unfolding of `push_equation` at a live equation. -/
theorem push_equation_eq (st : St P D) (s : EqState) (i : Nat) (r : EqRec P D)
    (h : st.find? i = some r) :
    push_equation st s i =
      (st.setEq i { r with state := s, idx := (st.getQueue s).length }).setQueue s
        ((st.getQueue s) ++ [i]) := by
  unfold push_equation
  rw [h]
  show (st.setEq i { r with state := s, idx := (st.getQueue s).length }).setQueue s
      ((st.setEq i { r with state := s, idx := (st.getQueue s).length }).getQueue s ++ [i]) = _
  rw [getQueue_setEq]

theorem find?_setEq_self (st : St P D) (i : Nat) (r : EqRec P D)
    (h : (st.find? i).isSome) : (st.setEq i r).find? i = some r := by
  unfold St.find? St.setEq at *
  rw [lfind_set_self i r st.eqs (by simpa using h)]
  rfl

theorem find?_setEq_ne (st : St P D) (i j : Nat) (r : EqRec P D)
    (h : ¬ j = i) : (st.setEq i r).find? j = st.find? j := by
  unfold St.find? St.setEq
  rw [lfind_set_ne i j r h st.eqs]

theorem setEq_eqs_stats (st : St P D) (i : Nat) (r : EqRec P D) :
    (st.setEq i r).stats = st.stats := rfl

theorem update_stats_max_find? (ctx : Ctx P D) (st : St P D) (i j : Nat) :
    (update_stats_max ctx st i).find? j = st.find? j := by
  unfold update_stats_max
  cases st.find? i <;> rfl

theorem update_stats_max_simplified (ctx : Ctx P D) (st : St P D) (i : Nat) :
    (update_stats_max ctx st i).stats.m_simplified = st.stats.m_simplified := by
  unfold update_stats_max
  cases st.find? i <;> rfl

theorem update_stats_max_toSimplifyQ (ctx : Ctx P D) (st : St P D) (i : Nat) :
    (update_stats_max ctx st i).toSimplifyQ = st.toSimplifyQ := by
  unfold update_stats_max
  cases st.find? i <;> rfl

theorem update_stats_max_processedQ (ctx : Ctx P D) (st : St P D) (i : Nat) :
    (update_stats_max ctx st i).processedQ = st.processedQ := by
  unfold update_stats_max
  cases st.find? i <;> rfl

theorem update_stats_max_solvedQ (ctx : Ctx P D) (st : St P D) (i : Nat) :
    (update_stats_max ctx st i).solvedQ = st.solvedQ := by
  unfold update_stats_max
  cases st.find? i <;> rfl

theorem update_stats_max_watch (ctx : Ctx P D) (st : St P D) (i : Nat) :
    (update_stats_max ctx st i).watch = st.watch := by
  unfold update_stats_max
  cases st.find? i <;> rfl

theorem update_stats_max_levelp1 (ctx : Ctx P D) (st : St P D) (i : Nat) :
    (update_stats_max ctx st i).levelp1 = st.levelp1 := by
  unfold update_stats_max
  cases st.find? i <;> rfl

theorem update_stats_max_conflict (ctx : Ctx P D) (st : St P D) (i : Nat) :
    (update_stats_max ctx st i).conflict = st.conflict := by
  unfold update_stats_max
  cases st.find? i <;> rfl

/-- The solver state carried by either outcome of `try_simplify_using`. -/
def tsuState : Except (St P D) (St P D × Bool × Bool) → St P D
  | .ok (s, _, _) => s
  | .error s => s

/-! ### Claim C7 -/

/-- Claim C7: for every call to `try_simplify_using(dst, src)` in which
the reduced polynomial `r = reduce(dst.poly, src.poly)` differs from
`dst.poly` but is judged too complex, the function sets the engine's
`too_complex` flag and returns `false`, and `dst.poly` and `dst.dep` (the
whole equation heap) are left unchanged: the abandoned reduction has no
observable effect on the target equation. -/
theorem claim_C7 (ctx : Ctx P D) (st : St P D) (dst src : Nat) (clt : Bool)
    (d s : EqRec P D) (r : P)
    (hne : ¬ dst = src) (hd : st.find? dst = some d) (hs : st.find? src = some s)
    (hr : ctx.reduce d.poly s.poly = .ok r) (hch : ¬ r = d.poly)
    (htc : ctx.tooComplex r = true) :
    try_simplify_using ctx st dst src clt =
      .ok ({ st with
             stats := { st.stats with m_simplified := st.stats.m_simplified + 1 },
             tooComplexFlag := true }, false, clt) ∧
    ({ st with
       stats := { st.stats with m_simplified := st.stats.m_simplified + 1 },
       tooComplexFlag := true } : St P D).find? dst = some d := by
  have hd1 : (bump_simplified st).find? dst = some d := hd
  have hs1 : (bump_simplified st).find? src = some s := hs
  refine ⟨?_, hd⟩
  simp only [try_simplify_using, if_neg hne, tsu_core]
  rw [hd1, hs1]
  simp only [hr]
  rw [if_neg hch, if_pos htc]
  rfl

/-! ### Claim C10 -/

/-- Claim C10: every call to `try_simplify_using(dst, src, _)` with `src`
distinct from `dst` increments the `simplified` statistic — also when the
reduction leaves the target unchanged, is abandoned as too complex, or
aborts with `mem_out` — and `collect_statistics` reports exactly this
counter under `dd.solver.simplified`, so the reported number counts
attempted reductions between distinct equations, not successful
simplifications. -/
theorem claim_C10 (ctx : Ctx P D) (st : St P D) (dst src : Nat) (clt : Bool)
    (hne : ¬ dst = src) :
    (tsuState (try_simplify_using ctx st dst src clt)).stats.m_simplified =
      st.stats.m_simplified + 1 ∧
    ("dd.solver.simplified", st.stats.m_simplified + 1) ∈
      collect_statistics (tsuState (try_simplify_using ctx st dst src clt)) := by
  have hcore : ∀ s1 : St P D, (tsuState (tsu_core ctx s1 dst src clt)).stats.m_simplified =
      s1.stats.m_simplified := by
    intro s1
    unfold tsu_core
    split
    · next d s hd hs =>
      cases hred : ctx.reduce d.poly s.poly with
      | error u => simp [tsuState]
      | ok r =>
        by_cases hru : r = d.poly
        · simp [hru, tsuState]
        · by_cases htc : ctx.tooComplex r = true
          · simp [hru, htc, tsuState]
          · simp only [hru, htc, ite_false, Bool.false_eq_true, tsuState]
            rw [update_stats_max_simplified]
            rfl
    · next hmiss => simp [tsuState]
  have h1 : (tsuState (try_simplify_using ctx st dst src clt)).stats.m_simplified =
      st.stats.m_simplified + 1 := by
    unfold try_simplify_using
    rw [if_neg hne, hcore (bump_simplified st)]
    rfl
  refine ⟨h1, ?_⟩
  rw [← h1]
  simp [collect_statistics]

/-- Witness for claim C7 at a concrete input: reducing `x + 1` by `x`
yields the constant `1`, which `ctxTC` rejects as too complex. -/
theorem claim_C7_witness :
    try_simplify_using ctxTC stAB 0 1 false =
      .ok ({ stAB with
             stats := { stAB.stats with m_simplified := stAB.stats.m_simplified + 1 },
             tooComplexFlag := true }, false, false) ∧
    ({ stAB with
       stats := { stAB.stats with m_simplified := stAB.stats.m_simplified + 1 },
       tooComplexFlag := true } : St TP Unit).find? 0 =
      some ⟨.pXone, (), .to_simplify, 0⟩ :=
  claim_C7 ctxTC stAB 0 1 false ⟨.pXone, (), .to_simplify, 0⟩ ⟨.pX, (), .to_simplify, 1⟩
    .pone (by decide) (by decide) (by decide) rfl (by decide) rfl

/-- Witness for claim C10 at a concrete input. -/
theorem claim_C10_witness :
    (tsuState (try_simplify_using ctxW stAB 0 1 false)).stats.m_simplified =
      stAB.stats.m_simplified + 1 ∧
    ("dd.solver.simplified", stAB.stats.m_simplified + 1) ∈
      collect_statistics (tsuState (try_simplify_using ctxW stAB 0 1 false)) :=
  claim_C10 ctxW stAB 0 1 false (by decide)

/-! ### Claim C6 -/

theorem find?_append_fresh (st : St P D) (i : Nat) (r : EqRec P D) (x : Nat)
    (h : st.find? i = none) :
    (({ st with eqs := st.eqs ++ [(i, r)], next := x } : St P D)).find? i = some r := by
  unfold St.find? at *
  rw [List.find?_append]
  simp only [Option.map_eq_none'] at h
  rw [h]
  simp

theorem find?_append_other (st : St P D) (i : Nat) (r : EqRec P D) (x j : Nat)
    (h : ¬ j = i) :
    (({ st with eqs := st.eqs ++ [(i, r)], next := x } : St P D)).find? j = st.find? j := by
  unfold St.find?
  rw [List.find?_append]
  cases hfind : List.find? (fun p => decide (p.1 = j)) st.eqs with
  | some q => simp [hfind]
  | none =>
    rw [List.find?_cons_of_neg _ (by simpa using fun hh => h hh.symm)]
    simp

/-- Claim C6: `add(p, dep)` ignores a zero polynomial; a non-zero
constant records the conflict without entering *to-simplify* or the watch
index; otherwise the fresh equation is pushed into *to-simplify* and, when
the watch index is initialized, watched under its leading variable with
`m_levelp1` raised to at least `var2level[var(p)] + 1`. -/
theorem claim_C6 (ctx : Ctx P D) (st : St P D) (p : P) (dep : D)
    (hf : st.find? st.next = none) :
    (ctx.isZero p = true → add ctx st p dep = st) ∧
    (ctx.isZero p = false → ctx.isVal p = true →
      (add ctx st p dep).conflict = some st.next ∧
      (add ctx st p dep).toSimplifyQ = st.toSimplifyQ ∧
      (add ctx st p dep).watch = st.watch ∧
      stOf (add ctx st p dep) st.next = some .solved) ∧
    (ctx.isZero p = false → ctx.isVal p = false →
      (add ctx st p dep).toSimplifyQ = st.toSimplifyQ ++ [st.next] ∧
      stOf (add ctx st p dep) st.next = some .to_simplify ∧
      (st.watch.isEmpty = true → (add ctx st p dep).watch = st.watch) ∧
      (st.watch.isEmpty = false → ctx.pvar p < st.watch.length →
        st.next ∈ (add ctx st p dep).watch.getD (ctx.pvar p) [] ∧
        st.var2level.getD (ctx.pvar p) 0 + 1 ≤ (add ctx st p dep).levelp1)) := by
  have hfr : (add_fresh st p dep).find? st.next = some ⟨p, dep, .to_simplify, 0⟩ :=
    find?_append_fresh st st.next ⟨p, dep, .to_simplify, 0⟩ (st.next + 1) hf
  refine ⟨fun hz => by simp [add, hz], fun hz hv => ?_, fun hz hv => ?_⟩
  · -- non-zero constant: immediate conflict
    have hconf : is_conflict ctx (add_fresh st p dep) st.next = true := by
      unfold is_conflict valOf zeroOf
      rw [hfr]
      simp [hv, hz]
    have hcc : check_conflict ctx (add_fresh st p dep) st.next =
        (set_conflict ctx (add_fresh st p dep) st.next, true) := by
      unfold check_conflict
      rw [if_pos hconf]
    have hadd : add ctx st p dep = set_conflict ctx (add_fresh st p dep) st.next := by
      simp [add, hz, hcc]
    have hfr2 : ({ add_fresh st p dep with conflict := some st.next } : St P D).find? st.next =
        some ⟨p, dep, .to_simplify, 0⟩ := hfr
    have hsc : set_conflict ctx (add_fresh st p dep) st.next =
        (({ add_fresh st p dep with conflict := some st.next } : St P D).setEq st.next
            ⟨p, dep, .solved, st.solvedQ.length⟩).setQueue .solved (st.solvedQ ++ [st.next]) := by
      unfold set_conflict
      exact push_equation_eq _ .solved st.next ⟨p, dep, .to_simplify, 0⟩ hfr2
    have hfind : (set_conflict ctx (add_fresh st p dep) st.next).find? st.next =
        some ⟨p, dep, .solved, st.solvedQ.length⟩ := by
      rw [hsc]
      refine (find?_eqs_congr _
        (({ add_fresh st p dep with conflict := some st.next } : St P D).setEq st.next
          ⟨p, dep, .solved, st.solvedQ.length⟩) rfl st.next).trans ?_
      exact find?_setEq_self _ _ _ (by rw [hfr2]; rfl)
    refine ⟨?_, ?_, ?_, ?_⟩
    · rw [hadd, hsc]
      rfl
    · rw [hadd, hsc]
      rfl
    · rw [hadd, hsc]
      rfl
    · unfold stOf
      rw [hadd, hfind]
      rfl
  · -- generic polynomial: into to-simplify and the watch index
    have hconf : is_conflict ctx (add_fresh st p dep) st.next = false := by
      unfold is_conflict valOf zeroOf
      rw [hfr]
      simp [hv]
    have hcc : check_conflict ctx (add_fresh st p dep) st.next =
        (add_fresh st p dep, false) := by
      unfold check_conflict
      rw [if_neg (by simp [hconf])]
    have hadd : add ctx st p dep =
        update_stats_max ctx
          (add_watch ctx (push_equation (add_fresh st p dep) .to_simplify st.next) p st.next)
          st.next := by
      simp [add, hz, hcc]
    have hpq : push_equation (add_fresh st p dep) .to_simplify st.next =
        ((add_fresh st p dep).setEq st.next
            ⟨p, dep, .to_simplify, st.toSimplifyQ.length⟩).setQueue .to_simplify
          (st.toSimplifyQ ++ [st.next]) :=
      push_equation_eq _ .to_simplify st.next ⟨p, dep, .to_simplify, 0⟩ hfr
    have hpsfind : (push_equation (add_fresh st p dep) .to_simplify st.next).find? st.next =
        some ⟨p, dep, .to_simplify, st.toSimplifyQ.length⟩ := by
      rw [hpq]
      refine (find?_eqs_congr _
        ((add_fresh st p dep).setEq st.next ⟨p, dep, .to_simplify, st.toSimplifyQ.length⟩)
        rfl st.next).trans ?_
      exact find?_setEq_self _ _ _ (by rw [hfr]; rfl)
    have hpsT : (push_equation (add_fresh st p dep) .to_simplify st.next).toSimplifyQ =
        st.toSimplifyQ ++ [st.next] := by
      rw [hpq]
      rfl
    have hpsW : (push_equation (add_fresh st p dep) .to_simplify st.next).watch = st.watch := by
      rw [hpq]
      rfl
    have hpsL : (push_equation (add_fresh st p dep) .to_simplify st.next).levelp1 =
        st.levelp1 := by
      rw [hpq]
      rfl
    have hpsV : (push_equation (add_fresh st p dep) .to_simplify st.next).var2level =
        st.var2level := by
      rw [hpq]
      rfl
    by_cases hw : st.watch.isEmpty = true
    · have haw : add_watch ctx (push_equation (add_fresh st p dep) .to_simplify st.next) p
          st.next = push_equation (add_fresh st p dep) .to_simplify st.next := by
        unfold add_watch
        rw [if_pos (by rw [hpsW]; exact hw)]
      refine ⟨?_, ?_, fun _ => ?_, fun hwf _ => ?_⟩
      · rw [hadd, update_stats_max_toSimplifyQ, haw, hpsT]
      · unfold stOf
        rw [hadd, update_stats_max_find?, haw, hpsfind]
        rfl
      · rw [hadd, update_stats_max_watch, haw, hpsW]
      · rw [hwf] at hw
        exact Bool.noConfusion hw
    · have hw' : st.watch.isEmpty = false := by
        cases hb : st.watch.isEmpty
        · rfl
        · exact absurd hb hw
      have hawfind : ({ push_equation (add_fresh st p dep) .to_simplify st.next with
          levelp1 := max ((push_equation (add_fresh st p dep) .to_simplify
              st.next).var2level.getD (ctx.pvar p) 0 + 1)
            (push_equation (add_fresh st p dep) .to_simplify st.next).levelp1 } : St P D).find?
          st.next = some ⟨p, dep, .to_simplify, st.toSimplifyQ.length⟩ := hpsfind
    -- the watch branch of `add`
      have haw : add_watch ctx (push_equation (add_fresh st p dep) .to_simplify st.next) p
          st.next =
          { push_equation (add_fresh st p dep) .to_simplify st.next with
            levelp1 := max ((push_equation (add_fresh st p dep) .to_simplify
                st.next).var2level.getD (ctx.pvar p) 0 + 1)
              (push_equation (add_fresh st p dep) .to_simplify st.next).levelp1,
            watch := (push_equation (add_fresh st p dep) .to_simplify
                st.next).watch.set (ctx.pvar p)
              (((push_equation (add_fresh st p dep) .to_simplify st.next).watch.getD
                  (ctx.pvar p) []) ++ [st.next]) } := by
        unfold add_watch
        rw [if_neg (by rw [hpsW]; simp [hw'])]
        unfold add_to_watch
        rw [hawfind]
        simp only [hv]
        rw [if_neg (by simp)]
      refine ⟨?_, ?_, fun hwe => ?_, fun _ hlt => ⟨?_, ?_⟩⟩
      · rw [hadd, update_stats_max_toSimplifyQ, haw]
        exact hpsT
      · unfold stOf
        rw [hadd, update_stats_max_find?, haw]
        have hcg : ({ push_equation (add_fresh st p dep) .to_simplify st.next with
            levelp1 := max ((push_equation (add_fresh st p dep) .to_simplify
                st.next).var2level.getD (ctx.pvar p) 0 + 1)
              (push_equation (add_fresh st p dep) .to_simplify st.next).levelp1,
            watch := (push_equation (add_fresh st p dep) .to_simplify
                st.next).watch.set (ctx.pvar p)
              (((push_equation (add_fresh st p dep) .to_simplify st.next).watch.getD
                  (ctx.pvar p) []) ++ [st.next]) } : St P D).find? st.next =
            some ⟨p, dep, .to_simplify, st.toSimplifyQ.length⟩ := hpsfind
        rw [hcg]
        rfl
      · rw [hwe] at hw'
        exact Bool.noConfusion hw'
      · rw [hadd, update_stats_max_watch, haw]
        show st.next ∈ ((push_equation (add_fresh st p dep) .to_simplify
            st.next).watch.set (ctx.pvar p)
          (((push_equation (add_fresh st p dep) .to_simplify st.next).watch.getD
              (ctx.pvar p) []) ++ [st.next])).getD (ctx.pvar p) []
        rw [hpsW]
        rw [List.getD_eq_getElem?_getD, List.getElem?_set_self (by simpa using hlt)]
        simp
      · rw [hadd, update_stats_max_levelp1, haw]
        show st.var2level.getD (ctx.pvar p) 0 + 1 ≤
          max ((push_equation (add_fresh st p dep) .to_simplify
              st.next).var2level.getD (ctx.pvar p) 0 + 1)
            (push_equation (add_fresh st p dep) .to_simplify st.next).levelp1
        rw [hpsV]
        exact le_max_left _ _

/-- `stAB` after `init_saturate` (watch index initialized). -/
def stInit : St TP Unit := init_saturate ctxW stAB

/-- Witness for claim C6 at a concrete input (`y + 1` added to a state
with an initialized watch index). -/
theorem claim_C6_witness :
    (ctxW.isZero TP.pYone = true → add ctxW stInit .pYone () = stInit) ∧
    (ctxW.isZero TP.pYone = false → ctxW.isVal TP.pYone = true →
      (add ctxW stInit .pYone ()).conflict = some stInit.next ∧
      (add ctxW stInit .pYone ()).toSimplifyQ = stInit.toSimplifyQ ∧
      (add ctxW stInit .pYone ()).watch = stInit.watch ∧
      stOf (add ctxW stInit .pYone ()) stInit.next = some .solved) ∧
    (ctxW.isZero TP.pYone = false → ctxW.isVal TP.pYone = false →
      (add ctxW stInit .pYone ()).toSimplifyQ = stInit.toSimplifyQ ++ [stInit.next] ∧
      stOf (add ctxW stInit .pYone ()) stInit.next = some .to_simplify ∧
      (stInit.watch.isEmpty = true → (add ctxW stInit .pYone ()).watch = stInit.watch) ∧
      (stInit.watch.isEmpty = false → ctxW.pvar TP.pYone < stInit.watch.length →
        stInit.next ∈ (add ctxW stInit .pYone ()).watch.getD (ctxW.pvar TP.pYone) [] ∧
        stInit.var2level.getD (ctxW.pvar TP.pYone) 0 + 1 ≤ (add ctxW stInit .pYone ()).levelp1)) :=
  claim_C6 ctxW stInit .pYone () (by decide)

/-! ### Counterexamples: the mem-out return path (C1, C9) and the solved
queue after a conflict (C4) -/

/-- The state returned by `saturate` on `{x + 1, x}` when the algebra
signals `mem_out` at the first reduction. -/
def stMemOut : St TP Unit := (saturate ctxMem 4 8 stAB).getD st0

/-- The state returned by a second `saturate` call after `stMemOut`. -/
def stMem2 : St TP Unit := (saturate ctxMem 4 8 stMemOut).getD st0

/-- Counterexample to claim C1 as stated: on the return path taken when
the algebra signals memory exhaustion, `saturate` returns with `done()`
false and the to-simplify queue non-empty (the picked equation was pushed
to *processed* by the commit guard; its watched partner stayed in
*to-simplify*). -/
theorem claim_C1_counterexample :
    saturate ctxMem 4 8 stAB = some stMemOut ∧
    done ctxMem stMemOut = false ∧
    stMemOut.toSimplifyQ = [0] ∧
    stMemOut.processedQ = [1] := by decide

/-- Counterexample to claim C9 as stated: when the first `saturate` call
returns through the mem-out handler, a second call with no intervening
`add` resumes work and changes the queues. -/
theorem claim_C9_counterexample :
    saturate ctxMem 4 8 stAB = some stMemOut ∧
    saturate ctxMem 4 8 stMemOut = some stMem2 ∧
    stMemOut.toSimplifyQ = [0] ∧ stMem2.toSimplifyQ = [] ∧
    stMemOut.processedQ = [1] ∧ stMem2.processedQ = [1, 0] := by decide

/-- `ctxW` with an algebra in which no polynomial has a constant `hi()`
(the spec constrains `hi` only on internal nodes `var·hi + lo`, so this is
a legal algebra). -/
def ctxH : Ctx TP Unit := { ctxW with hiIsVal := fun _ => false }

/-- The state after one `step` on `{x + 1, x}` under `ctxH`: the target
`x + 1` reduces to the constant `1` and is recorded as the conflict,
pushed to *solved*. -/
def stC4 : St TP Unit :=
  match step ctxH 4 stInit with
  | .ok (s, _) => s
  | .error s => s

/-- Counterexample to claim C4 as stated: after a `step`, the solved queue
may hold a conflict equation whose polynomial is a non-zero constant and
whose `hi()` is not constant; the solved-form property `hi()` constant
does not extend to conflict equations. -/
theorem claim_C4_counterexample :
    step ctxH 4 stInit = .ok (stC4, false) ∧
    stC4.solvedQ = [0] ∧
    stOf stC4 0 = some .solved ∧
    stC4.conflict = some 0 ∧
    valOf ctxH stC4 0 = true ∧
    zeroOf ctxH stC4 0 = false ∧
    hiValOf ctxH stC4 0 = false := by decide

/-! ### Pure list lemmas for the swap-with-last removal -/

/-- The queue part of `pop_equation`: remove the entry at `idx` by
swap-with-last. -/
def popAt (q : List Nat) (idx : Nat) : List Nat :=
  if idx + 1 = q.length then q.dropLast
  else
    match q.getLast? with
    | none => q.dropLast
    | some lastId => (q.set idx lastId).dropLast

theorem nodup_pos_inj (l : List Nat) (hNd : l.Nodup) (k k' : Nat) (a : Nat)
    (h : l[k]? = some a) (h' : l[k']? = some a) : k = k' := by
  rw [List.getElem?_eq_some_iff] at h h'
  obtain ⟨hk2, hv⟩ := h
  obtain ⟨hk2', hv'⟩ := h'
  have := List.nodup_iff_injective_get.mp hNd
    (show l.get ⟨k, hk2⟩ = l.get ⟨k', hk2'⟩ by simp [hv, hv'])
  exact congrArg Fin.val this

theorem nodup_of_pos_inj (l : List Nat)
    (h : ∀ (k k' a : Nat), l[k]? = some a → l[k']? = some a → k = k') : l.Nodup := by
  rw [List.nodup_iff_injective_get]
  intro i j hij
  have hi : l[i.1]? = some (l.get i) := by
    rw [List.getElem?_eq_getElem i.2]
    rfl
  have hj : l[j.1]? = some (l.get i) := by
    rw [List.getElem?_eq_getElem j.2, hij]
    rfl
  exact Fin.ext (h i.1 j.1 (l.get i) hi hj)

theorem popAt_length (q : List Nat) (idx : Nat) :
    (popAt q idx).length = q.length - 1 := by
  unfold popAt
  split
  · exact List.length_dropLast q
  · cases q.getLast? <;> simp

theorem popAt_getElem? (q : List Nat) (idx : Nat) (e : Nat) (hq : q[idx]? = some e) :
    ∀ k, k + 1 < q.length →
      (popAt q idx)[k]? = if k = idx ∧ idx + 1 < q.length then q[q.length - 1]? else q[k]? := by
  intro k hk
  have hidx : idx < q.length := by
    by_contra hc
    rw [List.getElem?_eq_none (by omega)] at hq
    cases hq
  unfold popAt
  by_cases hcase : idx + 1 = q.length
  · rw [if_pos hcase, List.getElem?_dropLast, if_pos (by omega),
      if_neg (by omega)]
  · rw [if_neg hcase]
    have hne : q ≠ [] := by
      intro hnil
      rw [hnil] at hidx
      simp at hidx
    rw [List.getLast?_eq_getLast q hne]
    rw [List.getElem?_dropLast]
    rw [List.length_set, if_pos (by omega)]
    by_cases hki : k = idx
    · subst hki
      rw [if_pos ⟨rfl, by omega⟩]
      rw [List.getElem?_set_self (by omega)]
      rw [List.getElem?_eq_getElem (by omega)]
      simp [List.getLast_eq_getElem]
    · rw [if_neg (by simp [hki])]
      exact List.getElem?_set_ne (Ne.symm hki)

theorem popAt_mem_iff (q : List Nat) (idx : Nat) (e : Nat) (hNd : q.Nodup)
    (hq : q[idx]? = some e) :
    ∀ j, j ∈ popAt q idx ↔ (j ∈ q ∧ ¬ j = e) := by
  intro j
  have hidx : idx < q.length := by
    by_contra hc
    rw [List.getElem?_eq_none (by omega)] at hq
    cases hq
  constructor
  · intro hmem
    obtain ⟨k, hk⟩ := List.mem_iff_getElem?.mp hmem
    have hklen : k < (popAt q idx).length := by
      by_contra hc
      rw [List.getElem?_eq_none (by omega)] at hk
      cases hk
    rw [popAt_length] at hklen
    rw [popAt_getElem? q idx e hq k (by omega)] at hk
    by_cases hcond : k = idx ∧ idx + 1 < q.length
    · rw [if_pos hcond] at hk
      refine ⟨List.mem_iff_getElem?.mpr ⟨q.length - 1, hk⟩, ?_⟩
      intro hje
      subst hje
      have := nodup_pos_inj q hNd (q.length - 1) idx j hk hq
      omega
    · rw [if_neg hcond] at hk
      refine ⟨List.mem_iff_getElem?.mpr ⟨k, hk⟩, ?_⟩
      intro hje
      subst hje
      have hki := nodup_pos_inj q hNd k idx j hk hq
      subst hki
      exact hcond ⟨rfl, by omega⟩
  · rintro ⟨hmem, hne⟩
    obtain ⟨k, hk⟩ := List.mem_iff_getElem?.mp hmem
    have hklen : k < q.length := by
      by_contra hc
      rw [List.getElem?_eq_none (by omega)] at hk
      cases hk
    have hkne : ¬ k = idx := by
      intro hki
      subst hki
      rw [hk] at hq
      cases hq
      exact hne rfl
    rw [List.mem_iff_getElem?]
    by_cases hklast : k + 1 = q.length
    · -- j is the last entry; it moves to position idx
      have hswap : idx + 1 < q.length := by omega
      refine ⟨idx, ?_⟩
      rw [popAt_getElem? q idx e hq idx (by omega), if_pos ⟨rfl, hswap⟩]
      rw [show q.length - 1 = k by omega]
      exact hk
    · refine ⟨k, ?_⟩
      rw [popAt_getElem? q idx e hq k (by omega), if_neg (by simp [hkne])]
      exact hk

theorem popAt_nodup (q : List Nat) (idx : Nat) (e : Nat) (hNd : q.Nodup)
    (hq : q[idx]? = some e) : (popAt q idx).Nodup := by
  have hidx : idx < q.length := by
    by_contra hc
    rw [List.getElem?_eq_none (by omega)] at hq
    cases hq
  refine nodup_of_pos_inj _ ?_
  intro k k' a hk hk'
  have hklen : k < (popAt q idx).length := by
    by_contra hc
    rw [List.getElem?_eq_none (by omega)] at hk
    cases hk
  have hklen' : k' < (popAt q idx).length := by
    by_contra hc
    rw [List.getElem?_eq_none (by omega)] at hk'
    cases hk'
  rw [popAt_length] at hklen hklen'
  rw [popAt_getElem? q idx e hq k (by omega)] at hk
  rw [popAt_getElem? q idx e hq k' (by omega)] at hk'
  by_cases h1 : k = idx ∧ idx + 1 < q.length
  · rw [if_pos h1] at hk
    by_cases h2 : k' = idx ∧ idx + 1 < q.length
    · omega
    · rw [if_neg h2] at hk'
      have := nodup_pos_inj q hNd (q.length - 1) k' a hk hk'
      omega
  · rw [if_neg h1] at hk
    by_cases h2 : k' = idx ∧ idx + 1 < q.length
    · rw [if_pos h2] at hk'
      have := nodup_pos_inj q hNd k (q.length - 1) a hk hk'
      omega
    · rw [if_neg h2] at hk'
      exact nodup_pos_inj q hNd k k' a hk hk'

/-! ### Heap-operation lemmas -/

theorem find?_retire_self (st : St P D) (e : Nat) : (retire st e).find? e = none := by
  unfold retire St.find?
  rw [Option.map_eq_none']
  rw [List.find?_eq_none]
  intro x hx
  have := List.of_mem_filter hx
  simp at this
  simp [this]

theorem lfind_filter_ne (e j : Nat) (h : ¬ j = e) :
    ∀ l : List (Nat × EqRec P D),
      (l.filter (fun p => ¬ p.1 = e)).find? (fun p => p.1 = j) =
        l.find? (fun p => p.1 = j)
  | [] => rfl
  | p :: ps => by
    by_cases hp : p.1 = e
    · rw [List.filter_cons_of_neg (by simp [hp])]
      rw [List.find?_cons_of_neg _ (by simp [hp]; exact fun hh => h hh.symm)]
      exact lfind_filter_ne e j h ps
    · rw [List.filter_cons_of_pos (by simp [hp])]
      by_cases hj : p.1 = j
      · rw [List.find?_cons_of_pos _ (by simp [hj]), List.find?_cons_of_pos _ (by simp [hj])]
      · rw [List.find?_cons_of_neg _ (by simp [hj]), List.find?_cons_of_neg _ (by simp [hj])]
        exact lfind_filter_ne e j h ps

theorem find?_retire_ne (st : St P D) (e j : Nat) (h : ¬ j = e) :
    (retire st e).find? j = st.find? j := by
  unfold retire St.find?
  rw [lfind_filter_ne e j h st.eqs]

theorem setIdx_none (st : St P D) (i k : Nat) (h : st.find? i = none) :
    setIdx st i k = st := by
  unfold setIdx
  rw [h]

theorem find?_setIdx_ne (st : St P D) (i k j : Nat) (h : ¬ j = i) :
    (setIdx st i k).find? j = st.find? j := by
  unfold setIdx
  cases hf : st.find? i with
  | none => rfl
  | some r => exact find?_setEq_ne st i j { r with idx := k } h

theorem find?_setIdx_self (st : St P D) (i k : Nat) (r : EqRec P D)
    (h : st.find? i = some r) : (setIdx st i k).find? i = some { r with idx := k } := by
  unfold setIdx
  rw [h]
  exact find?_setEq_self st i _ (by rw [h]; rfl)

theorem getQueue_setIdx (st : St P D) (i k : Nat) (s : EqState) :
    (setIdx st i k).getQueue s = st.getQueue s := by
  unfold setIdx
  cases st.find? i with
  | none => rfl
  | some r => exact getQueue_setEq st i _ s

theorem getQueue_retire (st : St P D) (e : Nat) (s : EqState) :
    (retire st e).getQueue s = st.getQueue s := by
  cases s <;> rfl

theorem stOf_setIdx (st : St P D) (i k j : Nat) :
    stOf (setIdx st i k) j = stOf st j := by
  unfold stOf
  by_cases hj : j = i
  · subst hj
    cases hf : st.find? j with
    | none =>
      rw [setIdx_none st j k hf, hf]
    | some r =>
      rw [find?_setIdx_self st j k r hf]
      rfl
  · rw [find?_setIdx_ne st i k j hj]

theorem pvOf_setIdx (ctx : Ctx P D) (st : St P D) (i k j : Nat) :
    pvOf ctx (setIdx st i k) j = pvOf ctx st j := by
  unfold pvOf
  by_cases hj : j = i
  · subst hj
    cases hf : st.find? j with
    | none =>
      rw [setIdx_none st j k hf, hf]
    | some r =>
      rw [find?_setIdx_self st j k r hf]
      rfl
  · rw [find?_setIdx_ne st i k j hj]

theorem valOf_setIdx (ctx : Ctx P D) (st : St P D) (i k j : Nat) :
    valOf ctx (setIdx st i k) j = valOf ctx st j := by
  unfold valOf
  by_cases hj : j = i
  · subst hj
    cases hf : st.find? j with
    | none =>
      rw [setIdx_none st j k hf, hf]
    | some r =>
      rw [find?_setIdx_self st j k r hf]
      rfl
  · rw [find?_setIdx_ne st i k j hj]

theorem zeroOf_setIdx (ctx : Ctx P D) (st : St P D) (i k j : Nat) :
    zeroOf ctx (setIdx st i k) j = zeroOf ctx st j := by
  unfold zeroOf
  by_cases hj : j = i
  · subst hj
    cases hf : st.find? j with
    | none =>
      rw [setIdx_none st j k hf, hf]
    | some r =>
      rw [find?_setIdx_self st j k r hf]
      rfl
  · rw [find?_setIdx_ne st i k j hj]

theorem hiValOf_setIdx (ctx : Ctx P D) (st : St P D) (i k j : Nat) :
    hiValOf ctx (setIdx st i k) j = hiValOf ctx st j := by
  unfold hiValOf
  by_cases hj : j = i
  · subst hj
    cases hf : st.find? j with
    | none =>
      rw [setIdx_none st j k hf, hf]
    | some r =>
      rw [find?_setIdx_self st j k r hf]
      rfl
  · rw [find?_setIdx_ne st i k j hj]

/-! ### The solver invariants (the formalization of `solver::invariant`
and the spec's §8 invariant list) and the algebra contract -/

/-- The level of a variable in the algebra's order (the canonical
`var2level`). -/
@[reducible] def lvl (ctx : Ctx P D) (v : Nat) : Nat := ctx.level2var.indexOf v

/-- Queue well-formedness: the ids in the queue named by `s` are distinct,
live, labeled with `s`, and each stored index names the id's position. -/
@[reducible] def queueOk (st : St P D) (s : EqState) : Prop :=
  (st.getQueue s).Nodup ∧
  ∀ i ∈ st.getQueue s, stOf st i = some s ∧ (st.getQueue s)[ixOf st i]? = some i

/-- All heap ids are below the allocation counter. -/
@[reducible] def heapFresh (st : St P D) : Prop := ∀ p ∈ st.eqs, p.1 < st.next

/-- No equation of the list has a constant polynomial. -/
@[reducible] def nonValQ (ctx : Ctx P D) (st : St P D) (q : List Nat) : Prop :=
  ∀ i ∈ q, valOf ctx st i = false

/-- Every solved equation is in solved form (non-constant with constant
`hi()`) or is a constant non-zero conflict equation. -/
@[reducible] def solvedOk (ctx : Ctx P D) (st : St P D) : Prop :=
  ∀ i ∈ st.solvedQ,
    (valOf ctx st i = false ∧ hiValOf ctx st i = true) ∨
    (valOf ctx st i = true ∧ zeroOf ctx st i = false)

/-- The queue/heap part of the invariant (meaningful also while the watch
index holds no entries). -/
@[reducible] def inv0 (ctx : Ctx P D) (st : St P D) : Prop :=
  queueOk st .to_simplify ∧ queueOk st .processed ∧ queueOk st .solved ∧
  nonValQ ctx st st.toSimplifyQ ∧ nonValQ ctx st st.processedQ ∧
  solvedOk ctx st ∧ heapFresh st

/-- The watch-index invariant: watch entries are *to-simplify* equations
watching their leading variable, and every *to-simplify* equation is
watched exactly once (under its leading variable). -/
@[reducible] def watchOk (ctx : Ctx P D) (st : St P D) : Prop :=
  (∀ v, v < st.watch.length → ∀ i ∈ st.watch.getD v [],
      stOf st i = some .to_simplify ∧ pvOf ctx st i = v ∧ i ∈ st.toSimplifyQ) ∧
  (∀ i ∈ st.toSimplifyQ, (st.watch.getD (pvOf ctx st i) []).count i = 1)

/-- Scheduler invariant: every *to-simplify* equation lives at a level
below `m_levelp1`. -/
@[reducible] def levelOk (ctx : Ctx P D) (st : St P D) : Prop :=
  ∀ i ∈ st.toSimplifyQ, st.var2level.getD (pvOf ctx st i) 0 < st.levelp1

/-- The variable-order geometry established by `init_saturate`. -/
@[reducible] def geomOk (ctx : Ctx P D) (st : St P D) : Prop :=
  st.level2var = ctx.level2var ∧
  st.var2level.length = ctx.level2var.length ∧
  (∀ v, v < ctx.level2var.length → st.var2level.getD v 0 = lvl ctx v) ∧
  st.watch.length = ctx.level2var.length ∧
  st.levelp1 ≤ ctx.level2var.length

/-- The full saturation-loop invariant. -/
@[reducible] def inv (ctx : Ctx P D) (st : St P D) : Prop :=
  inv0 ctx st ∧ watchOk ctx st ∧ levelOk ctx st ∧ geomOk ctx st

/-- The algebra contract the solver relies on (spec §6): the variable
order is a permutation of the variable indices; zero is a constant;
leading variables of non-constant polynomials are in range; reduction
never raises the leading variable's level. -/
structure CtxOk (ctx : Ctx P D) : Prop where
  l2v_nodup : ctx.level2var.Nodup
  l2v_mem : ∀ v ∈ ctx.level2var, v < ctx.level2var.length
  l2v_onto : ∀ v, v < ctx.level2var.length → v ∈ ctx.level2var
  zero_val : ∀ p : P, ctx.isZero p = true → ctx.isVal p = true
  var_lt : ∀ p : P, ctx.isVal p = false → ctx.pvar p < ctx.level2var.length
  reduce_lvl : ∀ p q r : P, ctx.reduce p q = Except.ok r → ctx.isVal p = false →
    ctx.isVal r = false → lvl ctx (ctx.pvar r) ≤ lvl ctx (ctx.pvar p)

/-- The `is_simpler` order delegated to the algebra is a strict order:
asymmetric and transitive. -/
structure SimplerOk (ctx : Ctx P D) : Prop where
  asymm : ∀ p q : P, ctx.isSimpler p q = true → ctx.isSimpler q p = false
  simpler_trans : ∀ p q r : P, ctx.isSimpler p q = true → ctx.isSimpler q r = true →
    ctx.isSimpler p r = true

/-! ### Projection lemmas for the state operations -/

theorem getQueue_setQueue_self (st : St P D) (s : EqState) (q : List Nat) :
    (st.setQueue s q).getQueue s = q := by
  cases s <;> rfl

theorem getQueue_setQueue_ne (st : St P D) (s s' : EqState) (q : List Nat)
    (h : ¬ s' = s) : (st.setQueue s q).getQueue s' = st.getQueue s' := by
  cases s <;> cases s' <;> first | rfl | exact absurd rfl h

theorem find?_setQueue (st : St P D) (s : EqState) (q : List Nat) (j : Nat) :
    (st.setQueue s q).find? j = st.find? j := by
  cases s <;> rfl

theorem watch_setQueue (st : St P D) (s : EqState) (q : List Nat) :
    (st.setQueue s q).watch = st.watch := by
  cases s <;> rfl

theorem levelp1_setQueue (st : St P D) (s : EqState) (q : List Nat) :
    (st.setQueue s q).levelp1 = st.levelp1 := by
  cases s <;> rfl

theorem conflict_setQueue (st : St P D) (s : EqState) (q : List Nat) :
    (st.setQueue s q).conflict = st.conflict := by
  cases s <;> rfl

theorem stats_setQueue (st : St P D) (s : EqState) (q : List Nat) :
    (st.setQueue s q).stats = st.stats := by
  cases s <;> rfl

theorem next_setQueue (st : St P D) (s : EqState) (q : List Nat) :
    (st.setQueue s q).next = st.next := by
  cases s <;> rfl

theorem var2level_setQueue (st : St P D) (s : EqState) (q : List Nat) :
    (st.setQueue s q).var2level = st.var2level := by
  cases s <;> rfl

theorem level2var_setQueue (st : St P D) (s : EqState) (q : List Nat) :
    (st.setQueue s q).level2var = st.level2var := by
  cases s <;> rfl

theorem tooComplexFlag_setQueue (st : St P D) (s : EqState) (q : List Nat) :
    (st.setQueue s q).tooComplexFlag = st.tooComplexFlag := by
  cases s <;> rfl

theorem eqs_setQueue (st : St P D) (s : EqState) (q : List Nat) :
    (st.setQueue s q).eqs = st.eqs := by
  cases s <;> rfl

theorem setIdx_proj (st : St P D) (i k : Nat) :
    (setIdx st i k).watch = st.watch ∧ (setIdx st i k).levelp1 = st.levelp1 ∧
    (setIdx st i k).conflict = st.conflict ∧ (setIdx st i k).stats = st.stats ∧
    (setIdx st i k).next = st.next ∧ (setIdx st i k).var2level = st.var2level ∧
    (setIdx st i k).level2var = st.level2var ∧
    (setIdx st i k).tooComplexFlag = st.tooComplexFlag := by
  unfold setIdx
  cases st.find? i <;> exact ⟨rfl, rfl, rfl, rfl, rfl, rfl, rfl, rfl⟩

/-- The heap part of `pop_equation`: the swapped-in last entry gets the
vacated index. -/
def popHeapFix (st : St P D) (q : List Nat) (idx : Nat) : St P D :=
  if idx + 1 = q.length then st
  else
    match q.getLast? with
    | none => st
    | some lastId => setIdx st lastId idx

theorem pop_equation_eq (st : St P D) (e : Nat) (r : EqRec P D)
    (h : st.find? e = some r) :
    pop_equation st e =
      (popHeapFix st (st.getQueue r.state) r.idx).setQueue r.state
        (popAt (st.getQueue r.state) r.idx) := by
  unfold pop_equation popHeapFix popAt
  rw [h]
  by_cases hc : r.idx + 1 = (st.getQueue r.state).length
  · simp only [if_pos hc]
  · simp only [if_neg hc]
    cases hL : (st.getQueue r.state).getLast? with
    | none => rfl
    | some lastId => rfl

theorem pop_equation_none (st : St P D) (e : Nat) (h : st.find? e = none) :
    pop_equation st e = st := by
  unfold pop_equation
  rw [h]

theorem getQueue_popHeapFix (st : St P D) (q : List Nat) (idx : Nat) (s : EqState) :
    (popHeapFix st q idx).getQueue s = st.getQueue s := by
  unfold popHeapFix
  split
  · rfl
  · cases q.getLast? with
    | none => rfl
    | some lastId => exact getQueue_setIdx st lastId idx s

theorem stOf_popHeapFix (st : St P D) (q : List Nat) (idx : Nat) (j : Nat) :
    stOf (popHeapFix st q idx) j = stOf st j := by
  unfold popHeapFix
  split
  · rfl
  · cases q.getLast? with
    | none => rfl
    | some lastId => exact stOf_setIdx st lastId idx j

theorem pvOf_popHeapFix (ctx : Ctx P D) (st : St P D) (q : List Nat) (idx : Nat) (j : Nat) :
    pvOf ctx (popHeapFix st q idx) j = pvOf ctx st j := by
  unfold popHeapFix
  split
  · rfl
  · cases q.getLast? with
    | none => rfl
    | some lastId => exact pvOf_setIdx ctx st lastId idx j

theorem valOf_popHeapFix (ctx : Ctx P D) (st : St P D) (q : List Nat) (idx : Nat) (j : Nat) :
    valOf ctx (popHeapFix st q idx) j = valOf ctx st j := by
  unfold popHeapFix
  split
  · rfl
  · cases q.getLast? with
    | none => rfl
    | some lastId => exact valOf_setIdx ctx st lastId idx j

theorem stOf_pop (st : St P D) (e j : Nat) :
    stOf (pop_equation st e) j = stOf st j := by
  cases h : st.find? e with
  | none => rw [pop_equation_none st e h]
  | some r =>
    rw [pop_equation_eq st e r h]
    unfold stOf
    rw [find?_setQueue]
    exact stOf_popHeapFix st _ _ j

theorem pvOf_pop (ctx : Ctx P D) (st : St P D) (e j : Nat) :
    pvOf ctx (pop_equation st e) j = pvOf ctx st j := by
  cases h : st.find? e with
  | none => rw [pop_equation_none st e h]
  | some r =>
    rw [pop_equation_eq st e r h]
    unfold pvOf
    rw [find?_setQueue]
    exact pvOf_popHeapFix ctx st _ _ j

theorem valOf_pop (ctx : Ctx P D) (st : St P D) (e j : Nat) :
    valOf ctx (pop_equation st e) j = valOf ctx st j := by
  cases h : st.find? e with
  | none => rw [pop_equation_none st e h]
  | some r =>
    rw [pop_equation_eq st e r h]
    unfold valOf
    rw [find?_setQueue]
    exact valOf_popHeapFix ctx st _ _ j

theorem pop_proj (st : St P D) (e : Nat) :
    (pop_equation st e).watch = st.watch ∧ (pop_equation st e).levelp1 = st.levelp1 ∧
    (pop_equation st e).conflict = st.conflict ∧ (pop_equation st e).stats = st.stats ∧
    (pop_equation st e).next = st.next ∧ (pop_equation st e).var2level = st.var2level ∧
    (pop_equation st e).level2var = st.level2var ∧
    (pop_equation st e).tooComplexFlag = st.tooComplexFlag := by
  cases h : st.find? e with
  | none =>
    rw [pop_equation_none st e h]
    exact ⟨rfl, rfl, rfl, rfl, rfl, rfl, rfl, rfl⟩
  | some r =>
    rw [pop_equation_eq st e r h]
    have hp := setIdx_proj (P := P) (D := D)
    unfold popHeapFix
    split
    · rw [watch_setQueue, levelp1_setQueue, conflict_setQueue, stats_setQueue,
        next_setQueue, var2level_setQueue, level2var_setQueue, tooComplexFlag_setQueue]
      exact ⟨rfl, rfl, rfl, rfl, rfl, rfl, rfl, rfl⟩
    · cases (st.getQueue r.state).getLast? with
      | none =>
        rw [watch_setQueue, levelp1_setQueue, conflict_setQueue, stats_setQueue,
          next_setQueue, var2level_setQueue, level2var_setQueue, tooComplexFlag_setQueue]
        exact ⟨rfl, rfl, rfl, rfl, rfl, rfl, rfl, rfl⟩
      | some lastId =>
        rw [watch_setQueue, levelp1_setQueue, conflict_setQueue, stats_setQueue,
          next_setQueue, var2level_setQueue, level2var_setQueue, tooComplexFlag_setQueue]
        exact setIdx_proj st lastId r.idx

theorem ixOf_eq (st : St P D) (e : Nat) (r : EqRec P D) (h : st.find? e = some r) :
    ixOf st e = r.idx := by
  unfold ixOf
  rw [h]
  rfl

theorem stOf_some_elim (st : St P D) (i : Nat) (s : EqState)
    (h : stOf st i = some s) : ∃ rr, st.find? i = some rr ∧ rr.state = s := by
  unfold stOf at h
  cases hf : st.find? i with
  | none => rw [hf] at h; cases h
  | some rr =>
    rw [hf] at h
    exact ⟨rr, rfl, by cases h; rfl⟩

theorem getElem?_some_lt (l : List Nat) (k a : Nat) (h : l[k]? = some a) :
    k < l.length := by
  by_contra hc
  rw [List.getElem?_eq_none (by omega)] at h
  cases h

/-- Full specification of `pop_equation` at a live equation whose queue is
well-formed: the equation leaves its queue, everything else stays, other
queues are untouched, and queue well-formedness is restored. -/
theorem pop_spec (st : St P D) (e : Nat) (r : EqRec P D)
    (h : st.find? e = some r) (hQ : queueOk st r.state)
    (hmem : e ∈ st.getQueue r.state) :
    e ∉ (pop_equation st e).getQueue r.state ∧
    (∀ j, ¬ j = e → (j ∈ (pop_equation st e).getQueue r.state ↔ j ∈ st.getQueue r.state)) ∧
    (∀ s', ¬ s' = r.state → (pop_equation st e).getQueue s' = st.getQueue s') ∧
    queueOk (pop_equation st e) r.state ∧
    (∀ s', ¬ s' = r.state → queueOk st s' → queueOk (pop_equation st e) s') ∧
    ((pop_equation st e).getQueue r.state).length = (st.getQueue r.state).length - 1 := by
  obtain ⟨hNd, hPos⟩ := hQ
  have hq : (st.getQueue r.state)[r.idx]? = some e := by
    have := (hPos e hmem).2
    rwa [ixOf_eq st e r h] at this
  have hidxlt : r.idx < (st.getQueue r.state).length := getElem?_some_lt _ _ _ hq
  have hrw := pop_equation_eq st e r h
  have hQself : (pop_equation st e).getQueue r.state =
      popAt (st.getQueue r.state) r.idx := by
    rw [hrw, getQueue_setQueue_self]
  have hfind_pop : ∀ j, (pop_equation st e).find? j =
      (popHeapFix st (st.getQueue r.state) r.idx).find? j := by
    intro j
    rw [hrw, find?_setQueue]
  refine ⟨?_, ?_, ?_, ?_, ?_, ?_⟩
  · rw [hQself]
    intro hc
    exact ((popAt_mem_iff _ _ _ hNd hq e).mp hc).2 rfl
  · intro j hj
    rw [hQself, popAt_mem_iff _ _ _ hNd hq j]
    exact ⟨fun hh => hh.1, fun hh => ⟨hh, hj⟩⟩
  · intro s' hs
    rw [hrw, getQueue_setQueue_ne _ _ _ _ hs, getQueue_popHeapFix]
  · -- queueOk of the popped queue
    constructor
    · rw [hQself]
      exact popAt_nodup _ _ _ hNd hq
    · intro j hjmem
      rw [hQself] at hjmem
      obtain ⟨hjq, hje⟩ := (popAt_mem_iff _ _ _ hNd hq j).mp hjmem
      obtain ⟨hjst, hjpos⟩ := hPos j hjq
      have hkjlt : ixOf st j < (st.getQueue r.state).length := getElem?_some_lt _ _ _ hjpos
      have hkjne : ¬ ixOf st j = r.idx := by
        intro hc
        rw [hc, hq] at hjpos
        cases hjpos
        exact hje rfl
      refine ⟨by rw [stOf_pop]; exact hjst, ?_⟩
      by_cases hcase : r.idx + 1 = (st.getQueue r.state).length
      · -- the popped entry was last: no swap
        have hfix : popHeapFix st (st.getQueue r.state) r.idx = st := by
          unfold popHeapFix
          rw [if_pos hcase]
        have hixme : ixOf (pop_equation st e) j = ixOf st j := by
          unfold ixOf
          rw [hfind_pop j, hfix]
        rw [hixme, hQself]
        rw [popAt_getElem? _ _ _ hq (ixOf st j) (by omega)]
        rw [if_neg (by intro hc; omega)]
        exact hjpos
      · -- swap-with-last
        have hnil : st.getQueue r.state ≠ [] := by
          intro hc
          rw [hc] at hidxlt
          simp at hidxlt
        have hlastq : (st.getQueue r.state).getLast? =
            some ((st.getQueue r.state).getLast hnil) := List.getLast?_eq_getLast _ hnil
        have hlastpos : (st.getQueue r.state)[(st.getQueue r.state).length - 1]? =
            some ((st.getQueue r.state).getLast hnil) := by
          rw [List.getElem?_eq_getElem (by omega)]
          simp [List.getLast_eq_getElem]
        have hfix : popHeapFix st (st.getQueue r.state) r.idx =
            setIdx st ((st.getQueue r.state).getLast hnil) r.idx := by
          unfold popHeapFix
          rw [if_neg hcase, hlastq]
        by_cases hjlast : j = (st.getQueue r.state).getLast hnil
        · -- j is the swapped-in last entry
          subst hjlast
          obtain ⟨rl, hrl, hrls⟩ := stOf_some_elim st _ _ hjst
          have hixme : ixOf (pop_equation st e) ((st.getQueue r.state).getLast hnil) =
              r.idx := by
            unfold ixOf
            rw [hfind_pop ((st.getQueue r.state).getLast hnil), hfix,
              find?_setIdx_self st _ r.idx rl hrl]
            rfl
          rw [hixme, hQself]
          rw [popAt_getElem? _ _ _ hq r.idx (by omega)]
          rw [if_pos ⟨rfl, by omega⟩]
          exact hlastpos
        · have hkjnelast : ¬ ixOf st j = (st.getQueue r.state).length - 1 := by
            intro hc
            rw [hc, hlastpos] at hjpos
            cases hjpos
            exact hjlast rfl
          have hixme : ixOf (pop_equation st e) j = ixOf st j := by
            unfold ixOf
            rw [hfind_pop j, hfix, find?_setIdx_ne st _ r.idx j hjlast]
          rw [hixme, hQself]
          rw [popAt_getElem? _ _ _ hq (ixOf st j) (by omega)]
          rw [if_neg (by intro hc; exact hkjne hc.1)]
          exact hjpos
  · -- other queues keep their well-formedness
    intro s' hs hQ'
    obtain ⟨hNd', hPos'⟩ := hQ'
    have hQs' : (pop_equation st e).getQueue s' = st.getQueue s' := by
      rw [hrw, getQueue_setQueue_ne _ _ _ _ hs, getQueue_popHeapFix]
    constructor
    · rw [hQs']
      exact hNd'
    · intro j hjmem
      rw [hQs'] at hjmem
      obtain ⟨hjst, hjpos⟩ := hPos' j hjmem
      have hjnelast : ∀ hnil, ¬ j = (st.getQueue r.state).getLast hnil := by
        intro hnil hc
        have hlmem : (st.getQueue r.state).getLast hnil ∈ st.getQueue r.state :=
          List.getLast_mem hnil
        have := (hPos _ hlmem).1
        rw [← hc, hjst] at this
        cases this
        exact hs rfl
      have hfj : (pop_equation st e).find? j = st.find? j := by
        rw [hfind_pop j]
        unfold popHeapFix
        split
        · rfl
        · cases hL : (st.getQueue r.state).getLast? with
          | none => rfl
          | some lastId =>
            have hnil : st.getQueue r.state ≠ [] := by
              intro hc
              rw [hc] at hL
              cases hL
            rw [List.getLast?_eq_getLast _ hnil] at hL
            cases hL
            exact find?_setIdx_ne st _ r.idx j (hjnelast hnil)
      refine ⟨?_, ?_⟩
      · unfold stOf
        rw [hfj]
        exact hjst
      · have : ixOf (pop_equation st e) j = ixOf st j := by
          unfold ixOf
          rw [hfj]
        rw [this, hQs']
        exact hjpos
  · rw [hQself, popAt_length]

/-! ### Specification of the scheduler scan `pick_min` -/

/-- Eligibility of a watch entry during `pick_next`: still in state
*to-simplify* and still watching `v` as its leading variable. -/
@[reducible] def elig (ctx : Ctx P D) (st : St P D) (v c : Nat) : Prop :=
  stOf st c = some .to_simplify ∧ pvOf ctx st c = v

theorem elig_of_rec (ctx : Ctx P D) (st : St P D) (v c : Nat) (rc : EqRec P D)
    (hf : st.find? c = some rc) (hs : rc.state = .to_simplify)
    (hv : ctx.pvar rc.poly = v) : elig ctx st v c := by
  refine ⟨?_, ?_⟩
  · unfold stOf
    rw [hf]
    simp [hs]
  · unfold pvOf
    rw [hf]
    simp [hv]

theorem elig_rec (ctx : Ctx P D) (st : St P D) (v c : Nat) (rc : EqRec P D)
    (hf : st.find? c = some rc) (he : elig ctx st v c) :
    rc.state = .to_simplify ∧ ctx.pvar rc.poly = v := by
  obtain ⟨h1, h2⟩ := he
  unfold stOf at h1
  unfold pvOf at h2
  rw [hf] at h1 h2
  simp at h1 h2
  exact ⟨h1, h2⟩

theorem pick_min_cons (ctx : Ctx P D) (st : St P D) (v c : Nat) (cs : List Nat)
    (b : Option Nat) :
    pick_min ctx st v (c :: cs) b =
      match st.find? c with
      | none => pick_min ctx st v cs b
      | some rc =>
        if rc.state = .to_simplify ∧ ctx.pvar rc.poly = v then
          match b with
          | none => pick_min ctx st v cs (some c)
          | some bb =>
            match st.find? bb with
            | none => pick_min ctx st v cs (some c)
            | some rb =>
              if ctx.isSimpler rc.poly rb.poly then pick_min ctx st v cs (some c)
              else pick_min ctx st v cs b
        else pick_min ctx st v cs b := rfl

theorem pick_min_spec (ctx : Ctx P D) (st : St P D) (v : Nat) (hS : SimplerOk ctx) :
    ∀ (l : List Nat) (b : Option Nat),
      (∀ x, b = some x → elig ctx st v x) →
      (pick_min ctx st v l b = none →
        b = none ∧ ∀ c ∈ l, ¬ elig ctx st v c) ∧
      (∀ e, pick_min ctx st v l b = some e →
        elig ctx st v e ∧
        (e ∈ l ∨ b = some e) ∧
        (∀ x, b = some x → e = x ∨
          (∀ re rx, st.find? e = some re → st.find? x = some rx →
            ctx.isSimpler re.poly rx.poly = true)) ∧
        (∀ c ∈ l, elig ctx st v c → c = e ∨
          (∀ rc re, st.find? c = some rc → st.find? e = some re →
            ctx.isSimpler rc.poly re.poly = false)))
  | [], b, hbElig => by
    constructor
    · intro hnone
      cases hb : b with
      | none => exact ⟨rfl, by intro c hc; cases hc⟩
      | some x =>
        rw [hb] at hnone
        unfold pick_min at hnone
        cases hnone
    · intro e hsome
      unfold pick_min at hsome
      refine ⟨hbElig e hsome, Or.inr hsome, ?_, ?_⟩
      · intro x hx
        rw [hsome] at hx
        cases hx
        exact Or.inl rfl
      · intro c hc
        cases hc
  | c :: cs, b, hbElig => by
    cases hfc : st.find? c with
    | none =>
      have hstep : pick_min ctx st v (c :: cs) b = pick_min ctx st v cs b := by
        rw [pick_min_cons, hfc]
      have IH := pick_min_spec ctx st v hS cs b hbElig
      rw [hstep]
      constructor
      · intro hnone
        obtain ⟨hb, hcs⟩ := IH.1 hnone
        refine ⟨hb, ?_⟩
        intro x hx
        cases hx with
        | head =>
          intro hel
          obtain ⟨h1, _⟩ := hel
          unfold stOf at h1
          rw [hfc] at h1
          cases h1
        | tail _ hmem => exact hcs x hmem
      · intro e hsome
        obtain ⟨h1, h2, h3, h4⟩ := IH.2 e hsome
        refine ⟨h1, ?_, h3, ?_⟩
        · cases h2 with
          | inl hl => exact Or.inl (List.mem_cons_of_mem c hl)
          | inr hr => exact Or.inr hr
        · intro x hx hel
          cases hx with
          | head =>
            obtain ⟨hh1, _⟩ := hel
            unfold stOf at hh1
            rw [hfc] at hh1
            cases hh1
          | tail _ hmem => exact h4 x hmem hel
    | some rc =>
      by_cases helig : rc.state = .to_simplify ∧ ctx.pvar rc.poly = v
      · -- `c` is eligible
        have heligc : elig ctx st v c := elig_of_rec ctx st v c rc hfc helig.1 helig.2
        cases hb : b with
        | none =>
          have hstep : pick_min ctx st v (c :: cs) none = pick_min ctx st v cs (some c) := by
            rw [pick_min_cons, hfc]
            simp only [if_pos helig]
          have hbElig' : ∀ x, some c = some x → elig ctx st v x := by
            intro x hx
            cases hx
            exact heligc
          have IH := pick_min_spec ctx st v hS cs (some c) hbElig'
          rw [hstep]
          constructor
          · intro hnone
            obtain ⟨hcn, _⟩ := IH.1 hnone
            cases hcn
          · intro e hsome
            obtain ⟨h1, h2, h3, h4⟩ := IH.2 e hsome
            refine ⟨h1, ?_, ?_, ?_⟩
            · cases h2 with
              | inl hl => exact Or.inl (List.mem_cons_of_mem c hl)
              | inr hr =>
                cases hr
                exact Or.inl (List.mem_cons_self c cs)
            · intro x hx
              cases hx
            · intro x hx hel
              cases hx with
              | head =>
                cases h3 c rfl with
                | inl hec => exact Or.inl hec.symm
                | inr hsim =>
                  refine Or.inr ?_
                  intro rc' re hrc' hre
                  rw [hfc] at hrc'
                  cases hrc'
                  have := hsim re rc hre hfc
                  exact hS.asymm _ _ this
              | tail _ hmem => exact h4 x hmem hel
        | some bb =>
          obtain ⟨rb, hrb, hrbs⟩ := stOf_some_elim st bb .to_simplify (hbElig bb hb).1
          by_cases hsim : ctx.isSimpler rc.poly rb.poly = true
          · -- the head replaces the champion
            have hstep : pick_min ctx st v (c :: cs) (some bb) =
                pick_min ctx st v cs (some c) := by
              rw [pick_min_cons, hfc]
              simp only [if_pos helig]
              rw [hrb]
              simp only [if_pos hsim]
            have hbElig' : ∀ x, some c = some x → elig ctx st v x := by
              intro x hx
              cases hx
              exact heligc
            have IH := pick_min_spec ctx st v hS cs (some c) hbElig'
            rw [hstep]
            constructor
            · intro hnone
              obtain ⟨hcn, _⟩ := IH.1 hnone
              cases hcn
            · intro e hsome
              obtain ⟨h1, h2, h3, h4⟩ := IH.2 e hsome
              refine ⟨h1, ?_, ?_, ?_⟩
              · cases h2 with
                | inl hl => exact Or.inl (List.mem_cons_of_mem c hl)
                | inr hr =>
                  cases hr
                  exact Or.inl (List.mem_cons_self c cs)
              · intro x hx
                cases hx
                refine Or.inr ?_
                intro re rx hre hrx
                rw [hrb] at hrx
                cases hrx
                cases h3 c rfl with
                | inl hec =>
                  subst hec
                  rw [hfc] at hre
                  cases hre
                  exact hsim
                | inr hsime =>
                  exact hS.simpler_trans _ _ _ (hsime re rc hre hfc) hsim
              · intro x hx hel
                cases hx with
                | head =>
                  cases h3 c rfl with
                  | inl hec => exact Or.inl hec.symm
                  | inr hsime =>
                    refine Or.inr ?_
                    intro rc' re hrc' hre
                    rw [hfc] at hrc'
                    cases hrc'
                    exact hS.asymm _ _ (hsime re rc hre hfc)
                | tail _ hmem => exact h4 x hmem hel
          · -- the champion survives the head
            have hstep : pick_min ctx st v (c :: cs) (some bb) =
                pick_min ctx st v cs (some bb) := by
              rw [pick_min_cons, hfc]
              simp only [if_pos helig]
              rw [hrb]
              simp only [if_neg hsim]
            have IH := pick_min_spec ctx st v hS cs (some bb)
              (fun x hx => by cases hx; exact hbElig bb hb)
            rw [hstep]
            constructor
            · intro hnone
              obtain ⟨hcn, _⟩ := IH.1 hnone
              cases hcn
            · intro e hsome
              obtain ⟨h1, h2, h3, h4⟩ := IH.2 e hsome
              have hsimf : ctx.isSimpler rc.poly rb.poly = false := by
                cases hcc : ctx.isSimpler rc.poly rb.poly with
                | false => rfl
                | true => exact absurd hcc hsim
              refine ⟨h1, ?_, h3, ?_⟩
              · cases h2 with
                | inl hl => exact Or.inl (List.mem_cons_of_mem c hl)
                | inr hr => exact Or.inr hr
              · intro x hx hel
                cases hx with
                | head =>
                  cases h3 bb rfl with
                  | inl hebb =>
                    subst hebb
                    refine Or.inr ?_
                    intro rc' re hrc' hre
                    rw [hfc] at hrc'
                    cases hrc'
                    rw [hrb] at hre
                    cases hre
                    exact hsimf
                  | inr hsime =>
                    refine Or.inr ?_
                    intro rc' re hrc' hre
                    rw [hfc] at hrc'
                    cases hrc'
                    by_contra hcon
                    have hcon' : ctx.isSimpler rc.poly re.poly = true := by
                      cases hcc : ctx.isSimpler rc.poly re.poly with
                      | true => rfl
                      | false => exact absurd hcc hcon
                    have := hS.simpler_trans _ _ _ hcon' (hsime re rb hre hrb)
                    rw [this] at hsimf
                    cases hsimf
                | tail _ hmem => exact h4 x hmem hel
      · -- `c` is not eligible
        have hstep : pick_min ctx st v (c :: cs) b = pick_min ctx st v cs b := by
          rw [pick_min_cons, hfc]
          simp only [if_neg helig]
        have IH := pick_min_spec ctx st v hS cs b hbElig
        rw [hstep]
        constructor
        · intro hnone
          obtain ⟨hbn, hcs⟩ := IH.1 hnone
          refine ⟨hbn, ?_⟩
          intro x hx
          cases hx with
          | head => exact fun hel => helig (elig_rec ctx st v c rc hfc hel)
          | tail _ hmem => exact hcs x hmem
        · intro e hsome
          obtain ⟨h1, h2, h3, h4⟩ := IH.2 e hsome
          refine ⟨h1, ?_, h3, ?_⟩
          · cases h2 with
            | inl hl => exact Or.inl (List.mem_cons_of_mem c hl)
            | inr hr => exact Or.inr hr
          · intro x hx hel
            cases hx with
            | head => exact absurd (elig_rec ctx st v c rc hfc hel) helig
            | tail _ hmem => exact h4 x hmem hel

theorem pick_min_congr (ctx : Ctx P D) (st1 st2 : St P D) (h : st1.eqs = st2.eqs)
    (v : Nat) : ∀ (l : List Nat) (b : Option Nat),
      pick_min ctx st1 v l b = pick_min ctx st2 v l b
  | [], b => rfl
  | c :: cs, b => by
    rw [pick_min_cons, pick_min_cons, find?_eqs_congr st1 st2 h c]
    cases st2.find? c with
    | none => exact pick_min_congr ctx st1 st2 h v cs b
    | some rc =>
      by_cases helig : rc.state = EqState.to_simplify ∧ ctx.pvar rc.poly = v
      · simp only [if_pos helig]
        cases b with
        | none => exact pick_min_congr ctx st1 st2 h v cs (some c)
        | some bb =>
          have hbb := find?_eqs_congr st1 st2 h bb
          simp only [hbb]
          cases st2.find? bb with
          | none => exact pick_min_congr ctx st1 st2 h v cs (some c)
          | some rb =>
            by_cases hsim : ctx.isSimpler rc.poly rb.poly = true
            · simp only [if_pos hsim]
              exact pick_min_congr ctx st1 st2 h v cs (some c)
            · simp only [if_neg hsim]
              exact pick_min_congr ctx st1 st2 h v cs (some bb)
      · simp only [if_neg helig]
        exact pick_min_congr ctx st1 st2 h v cs b

theorem st_eta_levelp1 (st : St P D) (x : Nat) (h : st.levelp1 = x) :
    ({ st with levelp1 := x } : St P D) = st := by
  cases st with
  | mk eqs next solvedQ processedQ toSimplifyQ watch level2var var2level levelp1 conflict tc stats =>
    simp only at h
    rw [h]

/-- Full specification of the level descent of `pick_next`: on a miss,
only `m_levelp1` changed (to 0) and no level below the old `m_levelp1`
held an eligible entry; on a hit at level `k`, all levels above `k` held
no eligible entry, the hit is the `pick_min` of level `k`'s watch list,
`m_levelp1` rests at `k + 1`, and the result state is the popped/erased
state. -/
theorem pick_next_go_spec (ctx : Ctx P D) (hS : SimplerOk ctx) :
    ∀ (n : Nat) (st : St P D), st.levelp1 = n →
      ∀ st' o, pick_next_go ctx n st = (st', o) →
        (o = none → st' = { st with levelp1 := 0 } ∧
          ∀ k, k < n → ∀ c ∈ st.watch.getD (st.level2var.getD k 0) [],
            ¬ elig ctx st (st.level2var.getD k 0) c) ∧
        (∀ e, o = some e → ∃ k, k < n ∧
          pick_min ctx st (st.level2var.getD k 0)
            (st.watch.getD (st.level2var.getD k 0) []) none = some e ∧
          (∀ m, k < m → m < n → ∀ c ∈ st.watch.getD (st.level2var.getD m 0) [],
            ¬ elig ctx st (st.level2var.getD m 0) c) ∧
          st' = watch_erase ctx (pop_equation ({ st with levelp1 := k + 1 }) e) e)
  | 0, st, hsync, st', o, hrun => by
    unfold pick_next_go at hrun
    cases hrun
    constructor
    · intro _
      refine ⟨(st_eta_levelp1 st 0 hsync).symm, ?_⟩
      intro k hk
      omega
    · intro e he
      cases he
  | n + 1, st, hsync, st', o, hrun => by
    unfold pick_next_go at hrun
    cases hpm : pick_min ctx st (st.level2var.getD n 0)
        (st.watch.getD (st.level2var.getD n 0) []) none with
    | some e =>
      rw [hpm] at hrun
      cases hrun
      constructor
      · intro hcon
        cases hcon
      · intro e' he'
        cases he'
        refine ⟨n, by omega, hpm, ?_, ?_⟩
        · intro m hm1 hm2
          omega
        · rw [st_eta_levelp1 st (n + 1) hsync]
    | none =>
      rw [hpm] at hrun
      have hnoelig : ∀ c ∈ st.watch.getD (st.level2var.getD n 0) [],
          ¬ elig ctx st (st.level2var.getD n 0) c := by
        have := (pick_min_spec ctx st (st.level2var.getD n 0) hS
          (st.watch.getD (st.level2var.getD n 0) []) none (by intro x hx; cases hx)).1 hpm
        exact this.2
      have IH := pick_next_go_spec ctx hS n ({ st with levelp1 := n }) rfl st' o hrun
      constructor
      · intro ho
        obtain ⟨h1, h2⟩ := IH.1 ho
        refine ⟨h1, ?_⟩
        intro k hk
        by_cases hkn : k < n
        · exact h2 k hkn
        · have hkn' : k = n := by omega
          subst hkn'
          exact hnoelig
      · intro e he
        obtain ⟨k, hk, hpmk, hbetween, hst'⟩ := IH.2 e he
        have hpmk' : pick_min ctx st (st.level2var.getD k 0)
            (st.watch.getD (st.level2var.getD k 0) []) none = some e := by
          rw [← pick_min_congr ctx ({ st with levelp1 := n }) st rfl]
          exact hpmk
        have hst'' : st' = watch_erase ctx (pop_equation ({ st with levelp1 := k + 1 }) e) e :=
          hst'
        refine ⟨k, by omega, hpmk', ?_, hst''⟩
        intro m hm1 hm2
        by_cases hmn : m < n
        · have := hbetween m hm1 hmn
          exact this
        · have hmn' : m = n := by omega
          subst hmn'
          exact hnoelig

/-! ### Claim C5 -/

/-- Claim C5: `pick_next()` descends variable levels starting from
`m_levelp1`: at the highest level whose watch list still contains an entry
in state *to-simplify* with that leading variable, it returns the
`is_simpler`-minimal such entry after removing it from the to-simplify
queue and from that watch list (leaving `m_levelp1` just above that
level); if no level holds an eligible entry it returns none with
`m_levelp1` equal to 0 (queues and watch lists untouched). -/
theorem claim_C5 (ctx : Ctx P D) (st : St P D) (hC : CtxOk ctx) (hS : SimplerOk ctx)
    (hI : inv ctx st) :
    (∀ st', pick_next ctx st = (st', none) →
      st'.levelp1 = 0 ∧ st'.toSimplifyQ = st.toSimplifyQ ∧ st'.watch = st.watch ∧
      st'.eqs = st.eqs ∧
      ∀ k, k < st.levelp1 → ∀ c ∈ st.watch.getD (st.level2var.getD k 0) [],
        ¬ elig ctx st (st.level2var.getD k 0) c) ∧
    (∀ st' e, pick_next ctx st = (st', some e) → ∃ k, k < st.levelp1 ∧
      elig ctx st (st.level2var.getD k 0) e ∧
      e ∈ st.watch.getD (st.level2var.getD k 0) [] ∧
      (∀ m, k < m → m < st.levelp1 → ∀ c ∈ st.watch.getD (st.level2var.getD m 0) [],
        ¬ elig ctx st (st.level2var.getD m 0) c) ∧
      (∀ c ∈ st.watch.getD (st.level2var.getD k 0) [],
        elig ctx st (st.level2var.getD k 0) c → c = e ∨
        (∀ rc re, st.find? c = some rc → st.find? e = some re →
          ctx.isSimpler rc.poly re.poly = false)) ∧
      st'.levelp1 = k + 1 ∧
      e ∉ st'.toSimplifyQ ∧
      (∀ j, ¬ j = e → (j ∈ st'.toSimplifyQ ↔ j ∈ st.toSimplifyQ)) ∧
      e ∉ st'.watch.getD (pvOf ctx st e) []) := by
  obtain ⟨hI0, hW, hL, hG⟩ := hI
  constructor
  · intro st' hrun
    have hspec := pick_next_go_spec ctx hS st.levelp1 st rfl st' none hrun
    obtain ⟨hst', hnoelig⟩ := hspec.1 rfl
    subst hst'
    exact ⟨rfl, rfl, rfl, rfl, hnoelig⟩
  · intro st' e hrun
    have hspec := pick_next_go_spec ctx hS st.levelp1 st rfl st' (some e) hrun
    obtain ⟨k, hk, hpm, hbetween, hst'⟩ := hspec.2 e rfl
    have hpmspec := (pick_min_spec ctx st (st.level2var.getD k 0) hS
      (st.watch.getD (st.level2var.getD k 0) []) none (by intro x hx; cases hx)).2 e hpm
    obtain ⟨helige, hmeml, _, hminim⟩ := hpmspec
    have hmemw : e ∈ st.watch.getD (st.level2var.getD k 0) [] := by
      cases hmeml with
      | inl hl => exact hl
      | inr hr => cases hr
    -- geometry: the scanned variable is in range
    have hlevbound : st.levelp1 ≤ ctx.level2var.length := hG.2.2.2.2
    have hkn : k < ctx.level2var.length := by omega
    have hveq : st.level2var.getD k 0 = ctx.level2var.getD k 0 := by rw [hG.1]
    have hvmem : ctx.level2var.getD k 0 ∈ ctx.level2var := by
      rw [List.getD_eq_getElem?_getD, List.getElem?_eq_getElem hkn]
      exact List.getElem_mem hkn
    have hvlt : st.level2var.getD k 0 < st.watch.length := by
      rw [hveq, hG.2.2.2.1]
      exact hC.l2v_mem _ hvmem
    -- the picked equation is in the to-simplify queue
    have hintoS : e ∈ st.toSimplifyQ := ((hW.1 _ hvlt e hmemw).2.2)
    have hpve : pvOf ctx st e = st.level2var.getD k 0 := helige.2
    obtain ⟨re, hre, hres⟩ := stOf_some_elim st e .to_simplify helige.1
    -- pop from the (invariant-correct) to-simplify queue
    have hre' : (({ st with levelp1 := k + 1 } : St P D)).find? e = some re := hre
    have hQ1 : queueOk ({ st with levelp1 := k + 1 } : St P D) re.state := by
      rw [hres]
      exact hI0.1
    have hmemq : e ∈ (({ st with levelp1 := k + 1 } : St P D)).getQueue re.state := by
      rw [hres]
      exact hintoS
    have hpop := pop_spec ({ st with levelp1 := k + 1 } : St P D) e re hre' hQ1 hmemq
    have hpopproj := pop_proj ({ st with levelp1 := k + 1 } : St P D) e
    refine ⟨k, hk, helige, hmemw, hbetween, hminim, ?_, ?_, ?_, ?_⟩
    · -- levelp1 of the result
      rw [hst']
      show (pop_equation ({ st with levelp1 := k + 1 }) e).levelp1 = k + 1
      rw [hpopproj.2.1]
    · -- e removed from the to-simplify queue
      rw [hst']
      show e ∉ (pop_equation ({ st with levelp1 := k + 1 }) e).toSimplifyQ
      have := hpop.1
      rw [hres] at this
      exact this
    · -- other ids keep their membership
      intro j hj
      rw [hst']
      show j ∈ (pop_equation ({ st with levelp1 := k + 1 }) e).toSimplifyQ ↔ j ∈ st.toSimplifyQ
      have := hpop.2.1 j hj
      rw [hres] at this
      exact this
    · -- e removed from the watch list of its leading variable
      rw [hst']
      unfold watch_erase
      have hpvpop : pvOf ctx (pop_equation ({ st with levelp1 := k + 1 } : St P D) e) e =
          pvOf ctx st e := pvOf_pop ctx _ e e
      have hwpop : (pop_equation ({ st with levelp1 := k + 1 } : St P D) e).watch =
          st.watch := hpopproj.1
      show e ∉ (((pop_equation ({ st with levelp1 := k + 1 }) e).watch.set
          (pvOf ctx (pop_equation ({ st with levelp1 := k + 1 }) e) e)
          (((pop_equation ({ st with levelp1 := k + 1 }) e).watch.getD
            (pvOf ctx (pop_equation ({ st with levelp1 := k + 1 }) e) e) []).erase e)).getD
          (pvOf ctx st e) [])
      rw [hpvpop, hwpop]
      have hcount : (st.watch.getD (pvOf ctx st e) []).count e = 1 := hW.2 e hintoS
      have hsetget : (st.watch.set (pvOf ctx st e)
          ((st.watch.getD (pvOf ctx st e) []).erase e)).getD (pvOf ctx st e) [] =
          (st.watch.getD (pvOf ctx st e) []).erase e := by
        rw [List.getD_eq_getElem?_getD,
          List.getElem?_set_self (by rw [hpve]; exact hvlt)]
        rfl
      rw [hsetget]
      intro hmem
      have := List.count_erase_self e (st.watch.getD (pvOf ctx st e) [])
      rw [hcount] at this
      have hpos := List.count_pos_iff.mpr hmem
      omega

/-- Witness for claim C5 at a concrete input: on `{x + 1, x}` after
`init_saturate`, `pick_next` picks `x` (the `is_simpler`-minimal entry of
the level-1 watch list), removing it from the to-simplify queue and from
the watch list. -/
theorem claim_C5_witness :
    (pick_next ctxW stInit).2 = some 1 ∧
    1 ∉ (pick_next ctxW stInit).1.toSimplifyQ ∧
    (0 ∈ (pick_next ctxW stInit).1.toSimplifyQ ↔ 0 ∈ stInit.toSimplifyQ) ∧
    1 ∉ (pick_next ctxW stInit).1.watch.getD (pvOf ctxW stInit 1) [] := by
  have hC : CtxOk ctxW := ⟨by decide, by decide, by decide, by decide, by decide, by decide⟩
  have hS : SimplerOk ctxW := ⟨by decide, by decide⟩
  have hI : inv ctxW stInit := by decide
  have h := claim_C5 ctxW stInit hC hS hI
  have hrun : pick_next ctxW stInit = ((pick_next ctxW stInit).1, some 1) := by decide
  obtain ⟨k, hk, helig, hmem, hbet, hmin, hlev, hnotin, hiff, hnw⟩ :=
    h.2 (pick_next ctxW stInit).1 1 hrun
  exact ⟨by rw [hrun], hnotin, hiff 0 (by decide), hnw⟩

/-! ### Specification of `push_equation` -/

theorem push_spec (st : St P D) (s : EqState) (i : Nat) (r : EqRec P D)
    (hf : st.find? i = some r) (hnotin : i ∉ st.getQueue s) :
    (push_equation st s i).getQueue s = st.getQueue s ++ [i] ∧
    (∀ s', ¬ s' = s → (push_equation st s i).getQueue s' = st.getQueue s') ∧
    (∀ j, ¬ j = i → (push_equation st s i).find? j = st.find? j) ∧
    (push_equation st s i).find? i =
      some { r with state := s, idx := (st.getQueue s).length } ∧
    (queueOk st s → queueOk (push_equation st s i) s) ∧
    (∀ s', ¬ s' = s → queueOk st s' → i ∉ st.getQueue s' →
      queueOk (push_equation st s i) s') ∧
    (push_equation st s i).watch = st.watch ∧
    (push_equation st s i).levelp1 = st.levelp1 ∧
    (push_equation st s i).conflict = st.conflict ∧
    (push_equation st s i).stats = st.stats ∧
    (push_equation st s i).next = st.next ∧
    (push_equation st s i).var2level = st.var2level ∧
    (push_equation st s i).level2var = st.level2var ∧
    (push_equation st s i).tooComplexFlag = st.tooComplexFlag := by
  have hpe := push_equation_eq st s i r hf
  have hfind_ne : ∀ j, ¬ j = i → (push_equation st s i).find? j = st.find? j := by
    intro j hj
    rw [hpe, find?_setQueue]
    exact find?_setEq_ne st i j _ hj
  have hfind_self : (push_equation st s i).find? i =
      some { r with state := s, idx := (st.getQueue s).length } := by
    rw [hpe, find?_setQueue]
    exact find?_setEq_self st i _ (by rw [hf]; rfl)
  have hq_self : (push_equation st s i).getQueue s = st.getQueue s ++ [i] := by
    rw [hpe, getQueue_setQueue_self]
  have hq_ne : ∀ s', ¬ s' = s → (push_equation st s i).getQueue s' = st.getQueue s' := by
    intro s' hs
    rw [hpe, getQueue_setQueue_ne _ _ _ _ hs, getQueue_setEq]
  refine ⟨hq_self, hq_ne, hfind_ne, hfind_self, ?_, ?_, ?_, ?_, ?_, ?_, ?_, ?_, ?_, ?_⟩
  · -- queueOk of the receiving queue
    intro hQ
    obtain ⟨hNd, hPos⟩ := hQ
    constructor
    · rw [hq_self]
      exact hNd.append (List.nodup_singleton i)
        (fun a ha hb => absurd ((List.mem_singleton.mp hb) ▸ ha) hnotin)
    · intro j hjmem
      rw [hq_self] at hjmem
      rw [List.mem_append] at hjmem
      cases hjmem with
      | inl hjq =>
        have hji : ¬ j = i := by
          intro hc
          exact hnotin (hc ▸ hjq)
        obtain ⟨hjst, hjpos⟩ := hPos j hjq
        have hixj : ixOf (push_equation st s i) j = ixOf st j := by
          unfold ixOf
          rw [hfind_ne j hji]
        refine ⟨?_, ?_⟩
        · unfold stOf
          rw [hfind_ne j hji]
          exact hjst
        · rw [hixj, hq_self]
          rw [List.getElem?_append_left (getElem?_some_lt _ _ _ hjpos)]
          exact hjpos
      | inr hji0 =>
        have hji : j = i := List.mem_singleton.mp hji0
        have hixj : ixOf (push_equation st s i) j = (st.getQueue s).length := by
          unfold ixOf
          rw [hji, hfind_self]
          rfl
        refine ⟨?_, ?_⟩
        · unfold stOf
          rw [hji, hfind_self]
          rfl
        · rw [hixj, hq_self]
          rw [List.getElem?_append_right (by omega)]
          simp [hji]
  · -- other queues keep their well-formedness
    intro s' hs hQ' hni
    obtain ⟨hNd', hPos'⟩ := hQ'
    constructor
    · rw [hq_ne s' hs]
      exact hNd'
    · intro j hjmem
      rw [hq_ne s' hs] at hjmem
      have hji : ¬ j = i := by
        intro hc
        exact hni (hc ▸ hjmem)
      obtain ⟨hjst, hjpos⟩ := hPos' j hjmem
      have hixj : ixOf (push_equation st s i) j = ixOf st j := by
        unfold ixOf
        rw [hfind_ne j hji]
      refine ⟨?_, ?_⟩
      · unfold stOf
        rw [hfind_ne j hji]
        exact hjst
      · rw [hixj, hq_ne s' hs]
        exact hjpos
  · rw [hpe, watch_setQueue]
    rfl
  · rw [hpe, levelp1_setQueue]
    rfl
  · rw [hpe, conflict_setQueue]
    rfl
  · rw [hpe, stats_setQueue]
    rfl
  · rw [hpe, next_setQueue]
    rfl
  · rw [hpe, var2level_setQueue]
    rfl
  · rw [hpe, level2var_setQueue]
    rfl
  · rw [hpe, tooComplexFlag_setQueue]
    rfl

theorem push_equation_dead (st : St P D) (s : EqState) (i : Nat)
    (h : st.find? i = none) : push_equation st s i = st := by
  unfold push_equation
  rw [h]

/-! ### The floating picked equation and the shape of `try_simplify_using` -/

/-- The picked equation between `pick_next` and its commit: live, still
labeled *to-simplify*, in no queue and in no watch list. -/
@[reducible] def floating (ctx : Ctx P D) (st : St P D) (e : Nat) : Prop :=
  stOf st e = some .to_simplify ∧
  e ∉ st.toSimplifyQ ∧ e ∉ st.processedQ ∧ e ∉ st.solvedQ ∧
  (∀ v, v < st.watch.length → e ∉ st.watch.getD v [])

/-- Exhaustive case shape of `try_simplify_using`: a mem-out error carries
the merely-counted state; a `false` return leaves the state untouched up
to the statistics bump and the `m_too_complex` flag; a `true` return
overwrites exactly the target's polynomial and dependency. -/
theorem tsu_cases (ctx : Ctx P D) (st : St P D) (dst src : Nat) (clt : Bool) :
    (∀ s, try_simplify_using ctx st dst src clt = .error s →
      s = bump_simplified st) ∧
    (∀ s b c, try_simplify_using ctx st dst src clt = .ok (s, b, c) →
      (b = false ∧ (s = st ∨ s = bump_simplified st ∨
        s = { bump_simplified st with tooComplexFlag := true })) ∨
      (b = true ∧ ∃ d sr r, st.find? dst = some d ∧ st.find? src = some sr ∧
        ctx.reduce d.poly sr.poly = .ok r ∧ ¬ r = d.poly ∧ ctx.tooComplex r = false ∧
        ¬ dst = src ∧
        s = update_stats_max ctx
          ((bump_simplified st).setEq dst
            { d with poly := r, dep := ctx.join d.dep sr.dep }) dst)) := by
  by_cases hds : dst = src
  · have heq : try_simplify_using ctx st dst src clt = .ok (st, false, clt) := by
      unfold try_simplify_using
      rw [if_pos hds]
    rw [heq]
    constructor
    · intro s hs
      cases hs
    · intro s b c hs
      cases hs
      exact Or.inl ⟨rfl, Or.inl rfl⟩
  · cases hfd : (bump_simplified st).find? dst with
    | none =>
      have heq : try_simplify_using ctx st dst src clt = .ok (bump_simplified st, false, clt) := by
        unfold try_simplify_using tsu_core
        rw [if_neg hds, hfd]
      rw [heq]
      constructor
      · intro s hs
        cases hs
      · intro s b c hs
        cases hs
        exact Or.inl ⟨rfl, Or.inr (Or.inl rfl)⟩
    | some d =>
      cases hfs : (bump_simplified st).find? src with
      | none =>
        have heq : try_simplify_using ctx st dst src clt =
            .ok (bump_simplified st, false, clt) := by
          unfold try_simplify_using tsu_core
          rw [if_neg hds, hfd, hfs]
        rw [heq]
        constructor
        · intro s hs
          cases hs
        · intro s b c hs
          cases hs
          exact Or.inl ⟨rfl, Or.inr (Or.inl rfl)⟩
      | some sr =>
        cases hred : ctx.reduce d.poly sr.poly with
        | error u =>
          have heq : try_simplify_using ctx st dst src clt =
              .error (bump_simplified st) := by
            unfold try_simplify_using tsu_core
            rw [if_neg hds, hfd, hfs]
            simp only [hred]
          rw [heq]
          constructor
          · intro s hs
            cases hs
            rfl
          · intro s b c hs
            cases hs
        | ok r =>
          by_cases hru : r = d.poly
          · have heq : try_simplify_using ctx st dst src clt =
                .ok (bump_simplified st, false, clt) := by
              unfold try_simplify_using tsu_core
              rw [if_neg hds, hfd, hfs]
              simp only [hred]
              rw [if_pos hru]
            rw [heq]
            constructor
            · intro s hs
              cases hs
            · intro s b c hs
              cases hs
              exact Or.inl ⟨rfl, Or.inr (Or.inl rfl)⟩
          · by_cases htc : ctx.tooComplex r = true
            · have heq : try_simplify_using ctx st dst src clt =
                  .ok ({ bump_simplified st with tooComplexFlag := true }, false, clt) := by
                unfold try_simplify_using tsu_core
                rw [if_neg hds, hfd, hfs]
                simp only [hred]
                rw [if_neg hru, if_pos htc]
              rw [heq]
              constructor
              · intro s hs
                cases hs
              · intro s b c hs
                cases hs
                exact Or.inl ⟨rfl, Or.inr (Or.inr rfl)⟩
            · have heq : try_simplify_using ctx st dst src clt =
                  .ok (update_stats_max ctx
                    ((bump_simplified st).setEq dst
                      { d with poly := r, dep := ctx.join d.dep sr.dep }) dst,
                    true, decide (d.state = .processed) && ctx.differentLeadingTerm r d.poly) := by
                unfold try_simplify_using tsu_core
                rw [if_neg hds, hfd, hfs]
                simp only [hred]
                rw [if_neg hru, if_neg htc]
              rw [heq]
              constructor
              · intro s hs
                cases hs
              · intro s b c hs
                cases hs
                refine Or.inr ⟨rfl, d, sr, r, hfd, hfs, hred, hru, ?_, hds, rfl⟩
                cases hcc : ctx.tooComplex r with
                | false => rfl
                | true => exact absurd hcc htc

theorem update_stats_max_eqs (ctx : Ctx P D) (st : St P D) (i : Nat) :
    (update_stats_max ctx st i).eqs = st.eqs := by
  unfold update_stats_max
  cases st.find? i <;> rfl

theorem heapFresh_setEq (st : St P D) (i : Nat) (r : EqRec P D)
    (h : heapFresh st) : heapFresh (st.setEq i r) := by
  intro p hp
  unfold St.setEq at hp
  simp only [List.mem_map] at hp
  obtain ⟨q, hq, hfq⟩ := hp
  have hkey : p.1 = q.1 := by
    by_cases hqi : q.1 = i
    · rw [← hfq, if_pos hqi, hqi]
    · rw [← hfq, if_neg hqi]
  show p.1 < (st.setEq i r).next
  have : (st.setEq i r).next = st.next := rfl
  rw [this, hkey]
  exact h q hq

/-- All-outcomes frame of `try_simplify_using`: only the target's
polynomial/dependency, the statistics and the `m_too_complex` flag can
change; in particular queues, the watch index, the conflict and every
other equation are untouched, and the target keeps its state and index. -/
theorem tsu_pres (ctx : Ctx P D) (st : St P D) (dst src : Nat) (clt : Bool) :
    (tsuState (try_simplify_using ctx st dst src clt)).toSimplifyQ = st.toSimplifyQ ∧
    (tsuState (try_simplify_using ctx st dst src clt)).processedQ = st.processedQ ∧
    (tsuState (try_simplify_using ctx st dst src clt)).solvedQ = st.solvedQ ∧
    (tsuState (try_simplify_using ctx st dst src clt)).watch = st.watch ∧
    (tsuState (try_simplify_using ctx st dst src clt)).levelp1 = st.levelp1 ∧
    (tsuState (try_simplify_using ctx st dst src clt)).conflict = st.conflict ∧
    (tsuState (try_simplify_using ctx st dst src clt)).next = st.next ∧
    (tsuState (try_simplify_using ctx st dst src clt)).var2level = st.var2level ∧
    (tsuState (try_simplify_using ctx st dst src clt)).level2var = st.level2var ∧
    (tsuState (try_simplify_using ctx st dst src clt)).stats.m_compute_steps =
      st.stats.m_compute_steps ∧
    (∀ j, ¬ j = dst →
      (tsuState (try_simplify_using ctx st dst src clt)).find? j = st.find? j) ∧
    (heapFresh st → heapFresh (tsuState (try_simplify_using ctx st dst src clt))) ∧
    (∀ rr, (tsuState (try_simplify_using ctx st dst src clt)).find? dst = some rr →
      (∃ d, st.find? dst = some d ∧ rr.state = d.state ∧ rr.idx = d.idx ∧
        rr.dep = d.dep) ∨
      (∃ d sr r, st.find? dst = some d ∧ st.find? src = some sr ∧
        ctx.reduce d.poly sr.poly = .ok r ∧ ¬ r = d.poly ∧ ctx.tooComplex r = false ∧
        rr = { d with poly := r, dep := ctx.join d.dep sr.dep })) ∧
    (stOf (tsuState (try_simplify_using ctx st dst src clt)) dst = stOf st dst) ∧
    (ixOf (tsuState (try_simplify_using ctx st dst src clt)) dst = ixOf st dst) := by
  obtain ⟨herr, hok⟩ := tsu_cases ctx st dst src clt
  cases hres : try_simplify_using ctx st dst src clt with
  | error s =>
    have hs := herr s hres
    subst hs
    simp only [tsuState]
    refine ⟨rfl, rfl, rfl, rfl, rfl, rfl, rfl, rfl, rfl, rfl,
      fun j _ => rfl, fun h => h, ?_, rfl, rfl⟩
    intro rr hrr
    exact Or.inl ⟨rr, hrr, rfl, rfl, rfl⟩
  | ok out =>
    obtain ⟨s, b, c⟩ := out
    have hcase := hok s b c hres
    simp only [tsuState]
    cases hcase with
    | inl hfalse =>
      obtain ⟨hb, hshape⟩ := hfalse
      obtain h | h | h := hshape <;> subst h <;>
        exact ⟨rfl, rfl, rfl, rfl, rfl, rfl, rfl, rfl, rfl, rfl,
          fun j _ => rfl, fun hF => hF,
          fun rr hrr => Or.inl ⟨rr, hrr, rfl, rfl, rfl⟩, rfl, rfl⟩
    | inr htrue =>
      obtain ⟨hb, d, sr, r, hfd0, hfs0, hred, hru, htc, hds, hshape⟩ := htrue
      have hfd : st.find? dst = some d := hfd0
      subst hshape
      have hfind_ne : ∀ j, ¬ j = dst →
          (update_stats_max ctx
            ((bump_simplified st).setEq dst
              { d with poly := r, dep := ctx.join d.dep sr.dep }) dst).find? j =
          st.find? j := by
        intro j hj
        rw [update_stats_max_find?]
        exact find?_setEq_ne (bump_simplified st) dst j _ hj
      have hfind_dst :
          (update_stats_max ctx
            ((bump_simplified st).setEq dst
              { d with poly := r, dep := ctx.join d.dep sr.dep }) dst).find? dst =
          some { d with poly := r, dep := ctx.join d.dep sr.dep } := by
        rw [update_stats_max_find?]
        refine find?_setEq_self (bump_simplified st) dst _ ?_
        have hb : (bump_simplified st).find? dst = some d := hfd0
        rw [hb]
        rfl
      refine ⟨?_, ?_, ?_, ?_, ?_, ?_, ?_, ?_, ?_, ?_, hfind_ne, ?_, ?_, ?_, ?_⟩
      · rw [update_stats_max_toSimplifyQ]
        rfl
      · rw [update_stats_max_processedQ]
        rfl
      · rw [update_stats_max_solvedQ]
        rfl
      · rw [update_stats_max_watch]
        rfl
      · rw [update_stats_max_levelp1]
        rfl
      · rw [update_stats_max_conflict]
        rfl
      · show (update_stats_max ctx _ dst).next = st.next
        unfold update_stats_max
        cases ((bump_simplified st).setEq dst
          { d with poly := r, dep := ctx.join d.dep sr.dep }).find? dst <;> rfl
      · show (update_stats_max ctx _ dst).var2level = st.var2level
        unfold update_stats_max
        cases ((bump_simplified st).setEq dst
          { d with poly := r, dep := ctx.join d.dep sr.dep }).find? dst <;> rfl
      · show (update_stats_max ctx _ dst).level2var = st.level2var
        unfold update_stats_max
        cases ((bump_simplified st).setEq dst
          { d with poly := r, dep := ctx.join d.dep sr.dep }).find? dst <;> rfl
      · show (update_stats_max ctx _ dst).stats.m_compute_steps = st.stats.m_compute_steps
        unfold update_stats_max
        cases ((bump_simplified st).setEq dst
          { d with poly := r, dep := ctx.join d.dep sr.dep }).find? dst <;> rfl
      · intro hF
        intro p hp
        rw [update_stats_max_eqs] at hp
        have : heapFresh ((bump_simplified st).setEq dst
            { d with poly := r, dep := ctx.join d.dep sr.dep }) :=
          heapFresh_setEq (bump_simplified st) dst _ hF
        have hb2 := this p hp
        show p.1 < (update_stats_max ctx _ dst).next
        unfold update_stats_max
        cases ((bump_simplified st).setEq dst
          { d with poly := r, dep := ctx.join d.dep sr.dep }).find? dst <;> exact hb2
      · intro rr hrr
        rw [hfind_dst] at hrr
        cases hrr
        exact Or.inr ⟨d, sr, r, hfd, hfs0, hred, hru, htc, rfl⟩
      · unfold stOf
        rw [hfind_dst, hfd]
        rfl
      · unfold ixOf
        rw [hfind_dst, hfd]
        rfl

/-! ### Frame transfer lemmas: invariants survive any operation that leaves
a queue and the records of its members untouched -/

theorem stOf_congr (st st' : St P D) (j : Nat) (h : st'.find? j = st.find? j) :
    stOf st' j = stOf st j := by
  unfold stOf
  rw [h]

theorem ixOf_congr (st st' : St P D) (j : Nat) (h : st'.find? j = st.find? j) :
    ixOf st' j = ixOf st j := by
  unfold ixOf
  rw [h]

theorem valOf_congr (ctx : Ctx P D) (st st' : St P D) (j : Nat)
    (h : st'.find? j = st.find? j) : valOf ctx st' j = valOf ctx st j := by
  unfold valOf
  rw [h]

theorem zeroOf_congr (ctx : Ctx P D) (st st' : St P D) (j : Nat)
    (h : st'.find? j = st.find? j) : zeroOf ctx st' j = zeroOf ctx st j := by
  unfold zeroOf
  rw [h]

theorem pvOf_congr (ctx : Ctx P D) (st st' : St P D) (j : Nat)
    (h : st'.find? j = st.find? j) : pvOf ctx st' j = pvOf ctx st j := by
  unfold pvOf
  rw [h]

theorem hiValOf_congr (ctx : Ctx P D) (st st' : St P D) (j : Nat)
    (h : st'.find? j = st.find? j) : hiValOf ctx st' j = hiValOf ctx st j := by
  unfold hiValOf
  rw [h]

theorem queueOk_frame (st st' : St P D) (s : EqState) (t : Nat)
    (hq : st'.getQueue s = st.getQueue s) (ht : t ∉ st.getQueue s)
    (hf : ∀ j, ¬ j = t → st'.find? j = st.find? j)
    (h : queueOk st s) : queueOk st' s := by
  obtain ⟨hNd, hPos⟩ := h
  refine ⟨by rw [hq]; exact hNd, ?_⟩
  intro i hi
  rw [hq] at hi
  have hit : ¬ i = t := fun hc => ht (hc ▸ hi)
  obtain ⟨h1, h2⟩ := hPos i hi
  exact ⟨by rw [stOf_congr st st' i (hf i hit)]; exact h1,
    by rw [hq, ixOf_congr st st' i (hf i hit)]; exact h2⟩

theorem nonValQ_frame (ctx : Ctx P D) (st st' : St P D) (q : List Nat) (t : Nat)
    (ht : t ∉ q) (hf : ∀ j, ¬ j = t → st'.find? j = st.find? j)
    (h : nonValQ ctx st q) : nonValQ ctx st' q := by
  intro i hi
  have hit : ¬ i = t := fun hc => ht (hc ▸ hi)
  rw [valOf_congr ctx st st' i (hf i hit)]
  exact h i hi

theorem solvedOk_frame (ctx : Ctx P D) (st st' : St P D) (t : Nat)
    (hq : st'.solvedQ = st.solvedQ) (ht : t ∉ st.solvedQ)
    (hf : ∀ j, ¬ j = t → st'.find? j = st.find? j)
    (h : solvedOk ctx st) : solvedOk ctx st' := by
  intro i hi
  rw [hq] at hi
  have hit : ¬ i = t := fun hc => ht (hc ▸ hi)
  rw [valOf_congr ctx st st' i (hf i hit), hiValOf_congr ctx st st' i (hf i hit),
    zeroOf_congr ctx st st' i (hf i hit)]
  exact h i hi

theorem watchOk_frame (ctx : Ctx P D) (st st' : St P D) (t : Nat)
    (hw : st'.watch = st.watch) (hts : st'.toSimplifyQ = st.toSimplifyQ)
    (ht1 : t ∉ st.toSimplifyQ)
    (ht2 : ∀ v, v < st.watch.length → t ∉ st.watch.getD v [])
    (hf : ∀ j, ¬ j = t → st'.find? j = st.find? j)
    (h : watchOk ctx st) : watchOk ctx st' := by
  obtain ⟨h1, h2⟩ := h
  constructor
  · intro v hv i hi
    rw [hw] at hv hi
    have hit : ¬ i = t := fun hc => ht2 v hv (hc ▸ hi)
    obtain ⟨hs, hp, hm⟩ := h1 v hv i hi
    exact ⟨by rw [stOf_congr st st' i (hf i hit)]; exact hs,
      by rw [pvOf_congr ctx st st' i (hf i hit)]; exact hp, by rw [hts]; exact hm⟩
  · intro i hi
    rw [hts] at hi
    have hit : ¬ i = t := fun hc => ht1 (hc ▸ hi)
    rw [pvOf_congr ctx st st' i (hf i hit), hw]
    exact h2 i hi

theorem levelOk_frame (ctx : Ctx P D) (st st' : St P D) (t : Nat)
    (hts : st'.toSimplifyQ = st.toSimplifyQ) (hlp : st'.levelp1 = st.levelp1)
    (hv2l : st'.var2level = st.var2level) (ht1 : t ∉ st.toSimplifyQ)
    (hf : ∀ j, ¬ j = t → st'.find? j = st.find? j)
    (h : levelOk ctx st) : levelOk ctx st' := by
  intro i hi
  rw [hts] at hi
  have hit : ¬ i = t := fun hc => ht1 (hc ▸ hi)
  rw [pvOf_congr ctx st st' i (hf i hit), hlp, hv2l]
  exact h i hi

theorem geomOk_frame (ctx : Ctx P D) (st st' : St P D)
    (hl2v : st'.level2var = st.level2var) (hv2l : st'.var2level = st.var2level)
    (hwl : st'.watch.length = st.watch.length) (hlp : st'.levelp1 = st.levelp1)
    (h : geomOk ctx st) : geomOk ctx st' := by
  obtain ⟨g1, g2, g3, g4, g5⟩ := h
  exact ⟨by rw [hl2v]; exact g1, by rw [hv2l]; exact g2,
    fun v hv => by rw [hv2l]; exact g3 v hv, by rw [hwl]; exact g4,
    by rw [hlp]; exact g5⟩

theorem heapFresh_congr (st st' : St P D) (heqs : st'.eqs = st.eqs)
    (hnext : st'.next = st.next) (h : heapFresh st) : heapFresh st' := by
  intro p hp
  rw [heqs] at hp
  show p.1 < st'.next
  rw [hnext]
  exact h p hp

theorem heapFresh_retire (st : St P D) (e : Nat) (h : heapFresh st) :
    heapFresh (retire st e) := by
  intro p hp
  have hm : p ∈ st.eqs := List.mem_of_mem_filter hp
  exact h p hm

theorem heapFresh_setIdx (st : St P D) (i k : Nat) (h : heapFresh st) :
    heapFresh (setIdx st i k) := by
  unfold setIdx
  cases st.find? i with
  | none => exact h
  | some r => exact heapFresh_setEq st i _ h

theorem heapFresh_push (st : St P D) (s : EqState) (i : Nat) (h : heapFresh st) :
    heapFresh (push_equation st s i) := by
  unfold push_equation
  cases st.find? i with
  | none => exact h
  | some r =>
    refine heapFresh_congr _ _ (eqs_setQueue _ _ _) (next_setQueue _ _ _) ?_
    exact heapFresh_setEq st i _ h

theorem heapFresh_pop (st : St P D) (e : Nat) (h : heapFresh st) :
    heapFresh (pop_equation st e) := by
  cases hf : st.find? e with
  | none => rw [pop_equation_none st e hf]; exact h
  | some r =>
    rw [pop_equation_eq st e r hf]
    refine heapFresh_congr _ _ (eqs_setQueue _ _ _) (next_setQueue _ _ _) ?_
    unfold popHeapFix
    split
    · exact h
    · cases (st.getQueue r.state).getLast? with
      | none => exact h
      | some lastId => exact heapFresh_setIdx st lastId r.idx h

theorem add_to_watch_proj (ctx : Ctx P D) (st : St P D) (i : Nat) :
    (add_to_watch ctx st i).eqs = st.eqs ∧
    (add_to_watch ctx st i).toSimplifyQ = st.toSimplifyQ ∧
    (add_to_watch ctx st i).processedQ = st.processedQ ∧
    (add_to_watch ctx st i).solvedQ = st.solvedQ ∧
    (add_to_watch ctx st i).levelp1 = st.levelp1 ∧
    (add_to_watch ctx st i).conflict = st.conflict ∧
    (add_to_watch ctx st i).stats = st.stats ∧
    (add_to_watch ctx st i).next = st.next ∧
    (add_to_watch ctx st i).var2level = st.var2level ∧
    (add_to_watch ctx st i).level2var = st.level2var ∧
    (add_to_watch ctx st i).watch.length = st.watch.length := by
  unfold add_to_watch
  cases st.find? i with
  | none => exact ⟨rfl, rfl, rfl, rfl, rfl, rfl, rfl, rfl, rfl, rfl, rfl⟩
  | some r =>
    cases hv : ctx.isVal r.poly with
    | true =>
      simp only [hv]
      exact ⟨rfl, rfl, rfl, rfl, rfl, rfl, rfl, rfl, rfl, rfl, rfl⟩
    | false =>
      simp only [hv]
      exact ⟨rfl, rfl, rfl, rfl, rfl, rfl, rfl, rfl, rfl, rfl, List.length_set ..⟩

theorem find?_add_to_watch (ctx : Ctx P D) (st : St P D) (i j : Nat) :
    (add_to_watch ctx st i).find? j = st.find? j :=
  find?_eqs_congr _ _ (add_to_watch_proj ctx st i).1 j

/-- Error-path well-formedness: the structural queue invariants that the
mem-out unwind maintains (the unfinished target of `simplify_using(eq, …)`
may well be constant when it lands in *processed*, so no
non-constancy is claimed for that queue). -/
@[reducible] def invErr (ctx : Ctx P D) (st : St P D) : Prop :=
  queueOk st .to_simplify ∧ queueOk st .processed ∧ queueOk st .solved ∧
  nonValQ ctx st st.toSimplifyQ ∧ solvedOk ctx st ∧ heapFresh st

/-- The invariant with the *processed*-queue clauses carved out: during
the `scoped_update` traversal of `simplify_using(m_processed, eq)` the
stored vector is stale, and only these clauses are maintained. -/
@[reducible] def invS (ctx : Ctx P D) (st : St P D) : Prop :=
  queueOk st .to_simplify ∧ queueOk st .solved ∧
  nonValQ ctx st st.toSimplifyQ ∧ solvedOk ctx st ∧ heapFresh st ∧
  watchOk ctx st ∧ levelOk ctx st ∧ geomOk ctx st

theorem inv_invS (ctx : Ctx P D) (st : St P D) (h : inv ctx st) : invS ctx st :=
  ⟨h.1.1, h.1.2.2.1, h.1.2.2.2.1, h.1.2.2.2.2.2.1, h.1.2.2.2.2.2.2, h.2.1, h.2.2.1, h.2.2.2⟩

theorem invS_inv (ctx : Ctx P D) (st : St P D) (h : invS ctx st)
    (hp : queueOk st .processed) (hnv : nonValQ ctx st st.processedQ) :
    inv ctx st :=
  ⟨⟨h.1, hp, h.2.1, h.2.2.1, hnv, h.2.2.2.1, h.2.2.2.2.1⟩,
   h.2.2.2.2.2.1, h.2.2.2.2.2.2.1, h.2.2.2.2.2.2.2⟩

theorem inv_invErr (ctx : Ctx P D) (st : St P D) (h : inv ctx st) : invErr ctx st :=
  ⟨h.1.1, h.1.2.1, h.1.2.2.1, h.1.2.2.2.1, h.1.2.2.2.2.2.1, h.1.2.2.2.2.2.2⟩

theorem zeroOf_popHeapFix (ctx : Ctx P D) (st : St P D) (q : List Nat) (idx : Nat) (j : Nat) :
    zeroOf ctx (popHeapFix st q idx) j = zeroOf ctx st j := by
  unfold popHeapFix
  split
  · rfl
  · cases q.getLast? with
    | none => rfl
    | some lastId => exact zeroOf_setIdx ctx st lastId idx j

theorem hiValOf_popHeapFix (ctx : Ctx P D) (st : St P D) (q : List Nat) (idx : Nat) (j : Nat) :
    hiValOf ctx (popHeapFix st q idx) j = hiValOf ctx st j := by
  unfold popHeapFix
  split
  · rfl
  · cases q.getLast? with
    | none => rfl
    | some lastId => exact hiValOf_setIdx ctx st lastId idx j

theorem zeroOf_pop (ctx : Ctx P D) (st : St P D) (e j : Nat) :
    zeroOf ctx (pop_equation st e) j = zeroOf ctx st j := by
  cases h : st.find? e with
  | none => rw [pop_equation_none st e h]
  | some r =>
    rw [pop_equation_eq st e r h]
    unfold zeroOf
    rw [find?_setQueue]
    exact zeroOf_popHeapFix ctx st _ _ j

theorem hiValOf_pop (ctx : Ctx P D) (st : St P D) (e j : Nat) :
    hiValOf ctx (pop_equation st e) j = hiValOf ctx st j := by
  cases h : st.find? e with
  | none => rw [pop_equation_none st e h]
  | some r =>
    rw [pop_equation_eq st e r h]
    unfold hiValOf
    rw [find?_setQueue]
    exact hiValOf_popHeapFix ctx st _ _ j

theorem getD_set_self (l : List (List Nat)) (v : Nat) (x : List Nat)
    (h : v < l.length) : (l.set v x).getD v [] = x := by
  rw [List.getD_eq_getElem?_getD, List.getElem?_set_self h]
  rfl

theorem getD_set_ne (l : List (List Nat)) (v w : Nat) (x : List Nat)
    (h : ¬ w = v) : (l.set v x).getD w [] = l.getD w [] := by
  rw [List.getD_eq_getElem?_getD, List.getD_eq_getElem?_getD,
    List.getElem?_set_ne (fun hc => h hc.symm)]

/-- Content of the watch index after `add_to_watch` at a live non-constant
equation: the leading variable's list grows by the equation, every other
list is untouched. -/
theorem add_to_watch_spec (ctx : Ctx P D) (st : St P D) (i : Nat) (r : EqRec P D)
    (hf : st.find? i = some r) (hnv : ctx.isVal r.poly = false)
    (hlt : ctx.pvar r.poly < st.watch.length) :
    (add_to_watch ctx st i).watch.getD (ctx.pvar r.poly) [] =
      (st.watch.getD (ctx.pvar r.poly) []) ++ [i] ∧
    (∀ w, ¬ w = ctx.pvar r.poly →
      (add_to_watch ctx st i).watch.getD w [] = st.watch.getD w []) := by
  unfold add_to_watch
  rw [hf]
  simp only [hnv]
  exact ⟨getD_set_self st.watch _ _ hlt, fun w hw => getD_set_ne st.watch _ w _ hw⟩

/-! ### The scheduler: `pick_next` preserves the invariant -/

theorem pv_lt (ctx : Ctx P D) (hC : CtxOk ctx) (st : St P D) (i : Nat)
    (hnv : valOf ctx st i = false) : pvOf ctx st i < ctx.level2var.length := by
  unfold valOf at hnv
  unfold pvOf
  cases h : st.find? i with
  | none => rw [h] at hnv; cases hnv
  | some r =>
    rw [h] at hnv
    exact hC.var_lt r.poly hnv

theorem zeroOf_of_valOf (ctx : Ctx P D) (hC : CtxOk ctx) (st : St P D) (i : Nat)
    (h : valOf ctx st i = false) : zeroOf ctx st i = false := by
  unfold valOf at h
  unfold zeroOf
  cases hf : st.find? i with
  | none => rfl
  | some r =>
    rw [hf] at h
    have h' : ctx.isVal r.poly = false := h
    show ctx.isZero r.poly = false
    cases hz : ctx.isZero r.poly with
    | false => rfl
    | true =>
      have hv := hC.zero_val r.poly hz
      rw [h'] at hv
      cases hv

theorem lvl_lt (ctx : Ctx P D) (hC : CtxOk ctx) (v : Nat)
    (hv : v < ctx.level2var.length) :
    lvl ctx v < ctx.level2var.length ∧ ctx.level2var.getD (lvl ctx v) 0 = v := by
  have hm : v ∈ ctx.level2var := hC.l2v_onto v hv
  have hlt : ctx.level2var.indexOf v < ctx.level2var.length :=
    List.indexOf_lt_length.mpr hm
  refine ⟨hlt, ?_⟩
  rw [List.getD_eq_getElem?_getD, List.getElem?_eq_getElem hlt]
  simp [List.getElem_indexOf]

/-- When no watch list below `m_levelp1` holds an eligible entry, the
to-simplify queue itself must be empty (each of its members is watched at
its own level, below `m_levelp1`). -/
theorem no_elig_empty (ctx : Ctx P D) (st : St P D) (hC : CtxOk ctx)
    (hI : inv ctx st)
    (hno : ∀ k, k < st.levelp1 → ∀ c ∈ st.watch.getD (st.level2var.getD k 0) [],
      ¬ elig ctx st (st.level2var.getD k 0) c) :
    st.toSimplifyQ = [] := by
  obtain ⟨hI0, hW, hL, hG⟩ := hI
  by_contra hne
  obtain ⟨i, hi⟩ := List.exists_mem_of_ne_nil _ hne
  have hnv : valOf ctx st i = false := hI0.2.2.2.1 i hi
  have hpv : pvOf ctx st i < ctx.level2var.length := pv_lt ctx hC st i hnv
  obtain ⟨hklt, hkval⟩ := lvl_lt ctx hC (pvOf ctx st i) hpv
  have hm : st.var2level.getD (pvOf ctx st i) 0 = lvl ctx (pvOf ctx st i) :=
    hG.2.2.1 (pvOf ctx st i) hpv
  have hklp : lvl ctx (pvOf ctx st i) < st.levelp1 := by
    have := hL i hi
    rw [hm] at this
    exact this
  have hveq : st.level2var.getD (lvl ctx (pvOf ctx st i)) 0 = pvOf ctx st i := by
    rw [hG.1]
    exact hkval
  have hcount : (st.watch.getD (pvOf ctx st i) []).count i = 1 := hW.2 i hi
  have hmemw : i ∈ st.watch.getD (pvOf ctx st i) [] := by
    rw [← List.count_pos_iff]
    omega
  have helig : elig ctx st (pvOf ctx st i) i := by
    refine ⟨(hI0.1.2 i hi).1, rfl⟩
  have := hno (lvl ctx (pvOf ctx st i)) hklp i (by rw [hveq]; exact hmemw)
  rw [hveq] at this
  exact this helig

/-- `pick_next` returning none leaves the state untouched apart from
`m_levelp1 = 0`, the to-simplify queue is empty, and the invariant holds. -/
theorem pick_none_inv (ctx : Ctx P D) (st : St P D) (hC : CtxOk ctx)
    (hS : SimplerOk ctx) (hI : inv ctx st) (st' : St P D)
    (hrun : pick_next ctx st = (st', none)) :
    st' = { st with levelp1 := 0 } ∧ st'.toSimplifyQ = [] ∧ inv ctx st' := by
  have hspec := pick_next_go_spec ctx hS st.levelp1 st rfl st' none hrun
  obtain ⟨hst', hno⟩ := hspec.1 rfl
  have hempty : st.toSimplifyQ = [] := no_elig_empty ctx st hC hI hno
  subst hst'
  refine ⟨rfl, hempty, ?_⟩
  obtain ⟨hI0, hW, hL, hG⟩ := hI
  refine ⟨hI0, hW, ?_, ?_⟩
  · intro i hi
    have : i ∈ st.toSimplifyQ := hi
    rw [hempty] at this
    cases this
  · exact ⟨hG.1, hG.2.1, hG.2.2.1, hG.2.2.2.1, Nat.zero_le _⟩

theorem find?_watch_erase (ctx : Ctx P D) (s : St P D) (i j : Nat) :
    (watch_erase ctx s i).find? j = s.find? j := rfl

theorem watch_erase_watch (ctx : Ctx P D) (s : St P D) (i : Nat) :
    (watch_erase ctx s i).watch =
      s.watch.set (pvOf ctx s i) ((s.watch.getD (pvOf ctx s i) []).erase i) := rfl

/-- `pick_next` returning an equation preserves the invariant, leaves the
picked equation floating (live, labeled *to-simplify*, outside every queue
and watch list), and touches nothing else. -/
theorem pick_some_inv (ctx : Ctx P D) (st : St P D) (hC : CtxOk ctx)
    (hS : SimplerOk ctx) (hI : inv ctx st) (st' : St P D) (e : Nat)
    (hrun : pick_next ctx st = (st', some e)) :
    inv ctx st' ∧ floating ctx st' e ∧
    valOf ctx st' e = false ∧ zeroOf ctx st' e = false ∧
    st'.processedQ = st.processedQ ∧ st'.solvedQ = st.solvedQ ∧
    st'.stats = st.stats ∧ st'.next = st.next ∧ st'.conflict = st.conflict ∧
    st'.tooComplexFlag = st.tooComplexFlag ∧
    (∀ j, ¬ j = e → (j ∈ st'.toSimplifyQ ↔ j ∈ st.toSimplifyQ)) := by
  obtain ⟨hI0, hW, hL, hG⟩ := hI
  have hspec := pick_next_go_spec ctx hS st.levelp1 st rfl st' (some e) hrun
  obtain ⟨k, hk, hpm, hbetween, hst'⟩ := hspec.2 e rfl
  have hpmspec := (pick_min_spec ctx st (st.level2var.getD k 0) hS
    (st.watch.getD (st.level2var.getD k 0) []) none (by intro x hx; cases hx)).2 e hpm
  obtain ⟨helige, hmeml, _, hminim⟩ := hpmspec
  have hmemw : e ∈ st.watch.getD (st.level2var.getD k 0) [] := by
    cases hmeml with
    | inl hl => exact hl
    | inr hr => cases hr
  have hlevbound : st.levelp1 ≤ ctx.level2var.length := hG.2.2.2.2
  have hkn : k < ctx.level2var.length := by omega
  have hveq : st.level2var.getD k 0 = ctx.level2var.getD k 0 := by rw [hG.1]
  have hvmem : ctx.level2var.getD k 0 ∈ ctx.level2var := by
    rw [List.getD_eq_getElem?_getD, List.getElem?_eq_getElem hkn]
    exact List.getElem_mem hkn
  have hvlt : st.level2var.getD k 0 < st.watch.length := by
    rw [hveq, hG.2.2.2.1]
    exact hC.l2v_mem _ hvmem
  have hintoS : e ∈ st.toSimplifyQ := (hW.1 _ hvlt e hmemw).2.2
  have hpve : pvOf ctx st e = st.level2var.getD k 0 := helige.2
  have hstOfe : stOf st e = some .to_simplify := helige.1
  obtain ⟨re, hre, hres⟩ := stOf_some_elim st e .to_simplify hstOfe
  have hre' : (({ st with levelp1 := k + 1 } : St P D)).find? e = some re := hre
  have hQ1 : queueOk ({ st with levelp1 := k + 1 } : St P D) re.state := by
    rw [hres]
    exact hI0.1
  have hmemq : e ∈ (({ st with levelp1 := k + 1 } : St P D)).getQueue re.state := by
    rw [hres]
    exact hintoS
  have hpop := pop_spec ({ st with levelp1 := k + 1 } : St P D) e re hre' hQ1 hmemq
  have hpj := pop_proj ({ st with levelp1 := k + 1 } : St P D) e
  subst hst'
  -- naming the popped state
  have hfind' : ∀ j, (watch_erase ctx
      (pop_equation ({ st with levelp1 := k + 1 }) e) e).find? j =
      (pop_equation ({ st with levelp1 := k + 1 }) e).find? j := fun j => rfl
  have hstOf : ∀ j, stOf (watch_erase ctx
      (pop_equation ({ st with levelp1 := k + 1 }) e) e) j = stOf st j := by
    intro j
    show stOf (pop_equation ({ st with levelp1 := k + 1 }) e) j = stOf st j
    exact stOf_pop _ e j
  have hvalOf : ∀ j, valOf ctx (watch_erase ctx
      (pop_equation ({ st with levelp1 := k + 1 }) e) e) j = valOf ctx st j := by
    intro j
    show valOf ctx (pop_equation ({ st with levelp1 := k + 1 }) e) j = valOf ctx st j
    exact valOf_pop ctx _ e j
  have hzeroOf : ∀ j, zeroOf ctx (watch_erase ctx
      (pop_equation ({ st with levelp1 := k + 1 }) e) e) j = zeroOf ctx st j := by
    intro j
    show zeroOf ctx (pop_equation ({ st with levelp1 := k + 1 }) e) j = zeroOf ctx st j
    exact zeroOf_pop ctx _ e j
  have hhiOf : ∀ j, hiValOf ctx (watch_erase ctx
      (pop_equation ({ st with levelp1 := k + 1 }) e) e) j = hiValOf ctx st j := by
    intro j
    show hiValOf ctx (pop_equation ({ st with levelp1 := k + 1 }) e) j = hiValOf ctx st j
    exact hiValOf_pop ctx _ e j
  have hpvOf : ∀ j, pvOf ctx (watch_erase ctx
      (pop_equation ({ st with levelp1 := k + 1 }) e) e) j = pvOf ctx st j := by
    intro j
    show pvOf ctx (pop_equation ({ st with levelp1 := k + 1 }) e) j = pvOf ctx st j
    exact pvOf_pop ctx _ e j
  have hwatch : (watch_erase ctx
      (pop_equation ({ st with levelp1 := k + 1 }) e) e).watch =
      st.watch.set (st.level2var.getD k 0)
        ((st.watch.getD (st.level2var.getD k 0) []).erase e) := by
    rw [watch_erase_watch]
    have h1 : pvOf ctx (pop_equation ({ st with levelp1 := k + 1 }) e) e =
        pvOf ctx st e := pvOf_pop ctx _ e e
    have h2 : (pop_equation (({ st with levelp1 := k + 1 } : St P D)) e).watch =
        st.watch := hpj.1
    rw [h1, h2, hpve]
  have htsq : (watch_erase ctx
      (pop_equation ({ st with levelp1 := k + 1 }) e) e).toSimplifyQ =
      (pop_equation ({ st with levelp1 := k + 1 }) e).toSimplifyQ := rfl
  have hiffS : ∀ j, ¬ j = e →
      (j ∈ (watch_erase ctx (pop_equation ({ st with levelp1 := k + 1 }) e) e).toSimplifyQ ↔
       j ∈ st.toSimplifyQ) := by
    intro j hj
    rw [htsq]
    have := hpop.2.1 j hj
    rw [hres] at this
    exact this
  have hnotinS : e ∉ (watch_erase ctx
      (pop_equation ({ st with levelp1 := k + 1 }) e) e).toSimplifyQ := by
    rw [htsq]
    have := hpop.1
    rw [hres] at this
    exact this
  have hprocQ : (watch_erase ctx
      (pop_equation ({ st with levelp1 := k + 1 }) e) e).processedQ =
      st.processedQ := by
    show (pop_equation ({ st with levelp1 := k + 1 }) e).processedQ = st.processedQ
    have := hpop.2.2.1 .processed (by rw [hres]; intro hc; cases hc)
    exact this
  have hsolvQ : (watch_erase ctx
      (pop_equation ({ st with levelp1 := k + 1 }) e) e).solvedQ =
      st.solvedQ := by
    show (pop_equation ({ st with levelp1 := k + 1 }) e).solvedQ = st.solvedQ
    have := hpop.2.2.1 .solved (by rw [hres]; intro hc; cases hc)
    exact this
  have hlp1 : (watch_erase ctx
      (pop_equation ({ st with levelp1 := k + 1 }) e) e).levelp1 = k + 1 := by
    show (pop_equation ({ st with levelp1 := k + 1 }) e).levelp1 = k + 1
    rw [hpj.2.1]
  have hv2l : (watch_erase ctx
      (pop_equation ({ st with levelp1 := k + 1 }) e) e).var2level =
      st.var2level := by
    show (pop_equation ({ st with levelp1 := k + 1 }) e).var2level = st.var2level
    rw [hpj.2.2.2.2.2.1]
  have hl2v : (watch_erase ctx
      (pop_equation ({ st with levelp1 := k + 1 }) e) e).level2var =
      st.level2var := by
    show (pop_equation ({ st with levelp1 := k + 1 }) e).level2var = st.level2var
    rw [hpj.2.2.2.2.2.2.1]
  have hcounte : (st.watch.getD (st.level2var.getD k 0) []).count e = 1 := by
    have := hW.2 e hintoS
    rw [hpve] at this
    exact this
  have hnotinerase : e ∉ (st.watch.getD (st.level2var.getD k 0) []).erase e := by
    intro hc
    have h1 := List.count_erase_self e (st.watch.getD (st.level2var.getD k 0) [])
    rw [hcounte] at h1
    have h2 := List.count_pos_iff.mpr hc
    omega
  -- part 1 of the watch invariant
  have hwatchOk1 : ∀ v, v < (watch_erase ctx
      (pop_equation ({ st with levelp1 := k + 1 }) e) e).watch.length →
      ∀ i ∈ (watch_erase ctx
        (pop_equation ({ st with levelp1 := k + 1 }) e) e).watch.getD v [],
        stOf (watch_erase ctx (pop_equation ({ st with levelp1 := k + 1 }) e) e) i =
          some .to_simplify ∧
        pvOf ctx (watch_erase ctx (pop_equation ({ st with levelp1 := k + 1 }) e) e) i = v ∧
        i ∈ (watch_erase ctx
          (pop_equation ({ st with levelp1 := k + 1 }) e) e).toSimplifyQ := by
    intro v hv i hi
    rw [hwatch, List.length_set] at hv
    rw [hwatch] at hi
    by_cases hvk : v = st.level2var.getD k 0
    · subst hvk
      rw [getD_set_self _ _ _ hvlt] at hi
      have hiold : i ∈ st.watch.getD (st.level2var.getD k 0) [] :=
        List.mem_of_mem_erase hi
      have hie : ¬ i = e := by
        intro hc
        exact hnotinerase (hc ▸ hi)
      obtain ⟨hs, hp, hm⟩ := hW.1 (st.level2var.getD k 0) hv i hiold
      exact ⟨by rw [hstOf i]; exact hs, by rw [hpvOf i]; exact hp,
        (hiffS i hie).mpr hm⟩
    · rw [getD_set_ne _ _ _ _ hvk] at hi
      obtain ⟨hs, hp, hm⟩ := hW.1 v hv i hi
      have hie : ¬ i = e := by
        intro hc
        subst hc
        rw [hpve] at hp
        exact hvk hp.symm
      exact ⟨by rw [hstOf i]; exact hs, by rw [hpvOf i]; exact hp,
        (hiffS i hie).mpr hm⟩
  -- part 2 of the watch invariant
  have hwatchOk2 : ∀ i ∈ (watch_erase ctx
      (pop_equation ({ st with levelp1 := k + 1 }) e) e).toSimplifyQ,
      ((watch_erase ctx (pop_equation ({ st with levelp1 := k + 1 }) e) e).watch.getD
        (pvOf ctx (watch_erase ctx (pop_equation ({ st with levelp1 := k + 1 }) e) e) i)
        []).count i = 1 := by
    intro i hi
    have hie : ¬ i = e := by
      intro hc
      exact hnotinS (hc ▸ hi)
    have him : i ∈ st.toSimplifyQ := (hiffS i hie).mp hi
    rw [hpvOf i, hwatch]
    by_cases hvk : pvOf ctx st i = st.level2var.getD k 0
    · rw [hvk, getD_set_self _ _ _ hvlt]
      rw [List.count_erase_of_ne hie]
      have := hW.2 i him
      rw [hvk] at this
      exact this
    · rw [getD_set_ne _ _ _ _ hvk]
      exact hW.2 i him
  -- the level invariant, using that no level between k and the old
  -- m_levelp1 held an eligible entry
  have hlevelOk : ∀ i ∈ (watch_erase ctx
      (pop_equation ({ st with levelp1 := k + 1 }) e) e).toSimplifyQ,
      (watch_erase ctx (pop_equation ({ st with levelp1 := k + 1 }) e) e).var2level.getD
        (pvOf ctx (watch_erase ctx (pop_equation ({ st with levelp1 := k + 1 }) e) e) i) 0 <
      (watch_erase ctx (pop_equation ({ st with levelp1 := k + 1 }) e) e).levelp1 := by
    intro i hi
    have hie : ¬ i = e := by
      intro hc
      exact hnotinS (hc ▸ hi)
    have him : i ∈ st.toSimplifyQ := (hiffS i hie).mp hi
    rw [hpvOf i, hv2l, hlp1]
    have hnv : valOf ctx st i = false := hI0.2.2.2.1 i him
    have hpvi : pvOf ctx st i < ctx.level2var.length := pv_lt ctx hC st i hnv
    obtain ⟨hmlt, hmval⟩ := lvl_lt ctx hC (pvOf ctx st i) hpvi
    have hmeq : st.var2level.getD (pvOf ctx st i) 0 = lvl ctx (pvOf ctx st i) :=
      hG.2.2.1 (pvOf ctx st i) hpvi
    have hold : st.var2level.getD (pvOf ctx st i) 0 < st.levelp1 := hL i him
    rw [hmeq] at hold ⊢
    by_contra hcon
    have hmk : k < lvl ctx (pvOf ctx st i) := by omega
    have hvm : st.level2var.getD (lvl ctx (pvOf ctx st i)) 0 = pvOf ctx st i := by
      rw [hG.1]
      exact hmval
    have hcnt := hW.2 i him
    have hmw : i ∈ st.watch.getD (pvOf ctx st i) [] := by
      rw [← List.count_pos_iff]
      omega
    have := hbetween (lvl ctx (pvOf ctx st i)) hmk hold i (by rw [hvm]; exact hmw)
    rw [hvm] at this
    exact this ⟨(hI0.1.2 i him).1, rfl⟩
  refine ⟨⟨⟨?_, ?_, ?_, ?_, ?_, ?_, ?_⟩, ⟨hwatchOk1, hwatchOk2⟩, hlevelOk, ?_⟩,
    ?_, ?_, ?_, hprocQ, hsolvQ, ?_, ?_, ?_, ?_, hiffS⟩
  · -- queueOk to_simplify
    show queueOk (pop_equation ({ st with levelp1 := k + 1 }) e) .to_simplify
    have := hpop.2.2.2.1
    rw [hres] at this
    exact this
  · -- queueOk processed
    show queueOk (pop_equation ({ st with levelp1 := k + 1 }) e) .processed
    refine hpop.2.2.2.2.1 .processed (by rw [hres]; intro hc; cases hc) ?_
    exact hI0.2.1
  · -- queueOk solved
    show queueOk (pop_equation ({ st with levelp1 := k + 1 }) e) .solved
    refine hpop.2.2.2.2.1 .solved (by rw [hres]; intro hc; cases hc) ?_
    exact hI0.2.2.1
  · -- nonValQ to_simplify
    intro i hi
    have hie : ¬ i = e := by
      intro hc
      exact hnotinS (hc ▸ hi)
    rw [hvalOf i]
    exact hI0.2.2.2.1 i ((hiffS i hie).mp hi)
  · -- nonValQ processed
    intro i hi
    rw [hprocQ] at hi
    rw [hvalOf i]
    exact hI0.2.2.2.2.1 i hi
  · -- solvedOk
    intro i hi
    rw [hsolvQ] at hi
    rw [hvalOf i, hhiOf i, hzeroOf i]
    exact hI0.2.2.2.2.2.1 i hi
  · -- heapFresh
    refine heapFresh_congr _ _ rfl rfl ?_
    exact heapFresh_pop ({ st with levelp1 := k + 1 }) e hI0.2.2.2.2.2.2
  · -- geomOk
    refine ⟨by rw [hl2v]; exact hG.1, by rw [hv2l]; exact hG.2.1,
      fun v hv => by rw [hv2l]; exact hG.2.2.1 v hv, ?_, by rw [hlp1]; omega⟩
    rw [hwatch, List.length_set]
    exact hG.2.2.2.1
  · -- floating
    refine ⟨by rw [hstOf e]; exact hstOfe, hnotinS, ?_, ?_, ?_⟩
    · rw [hprocQ]
      intro hc
      have := (hI0.2.1.2 e hc).1
      rw [hstOfe] at this
      cases this
    · rw [hsolvQ]
      intro hc
      have := (hI0.2.2.1.2 e hc).1
      rw [hstOfe] at this
      cases this
    · intro v hv
      rw [hwatch, List.length_set] at hv
      rw [hwatch]
      by_cases hvk : v = st.level2var.getD k 0
      · subst hvk
        rw [getD_set_self _ _ _ hvlt]
        exact hnotinerase
      · rw [getD_set_ne _ _ _ _ hvk]
        intro hc
        have := (hW.1 v hv e hc).2.1
        rw [hpve] at this
        exact hvk this.symm
  · rw [hvalOf e]
    exact hI0.2.2.2.1 e hintoS
  · refine zeroOf_of_valOf ctx hC _ e ?_
    rw [hvalOf e]
    exact hI0.2.2.2.1 e hintoS
  · -- stats
    show (pop_equation ({ st with levelp1 := k + 1 }) e).stats = st.stats
    rw [hpj.2.2.2.1]
  · -- next
    show (pop_equation ({ st with levelp1 := k + 1 }) e).next = st.next
    rw [hpj.2.2.2.2.1]
  · -- conflict
    show (pop_equation ({ st with levelp1 := k + 1 }) e).conflict = st.conflict
    rw [hpj.2.2.1]
  · -- tooComplexFlag
    show (pop_equation ({ st with levelp1 := k + 1 }) e).tooComplexFlag =
      st.tooComplexFlag
    rw [hpj.2.2.2.2.2.2.2]

/-! ### Commit operations: `push_equation`, `set_conflict`, `check_conflict` -/

theorem find?_push_poly (st : St P D) (s : EqState) (i j : Nat) :
    ((push_equation st s i).find? j).map (fun r => r.poly) =
      (st.find? j).map (fun r => r.poly) := by
  unfold push_equation
  cases hf : st.find? i with
  | none => rfl
  | some r =>
    rw [find?_setQueue]
    by_cases hj : j = i
    · subst hj
      rw [find?_setEq_self st j _ (by rw [hf]; rfl), hf]
      rfl
    · rw [find?_setEq_ne st i j _ hj]

theorem valOf_push (ctx : Ctx P D) (st : St P D) (s : EqState) (i j : Nat) :
    valOf ctx (push_equation st s i) j = valOf ctx st j := by
  unfold valOf
  have h := find?_push_poly st s i j
  cases h1 : (push_equation st s i).find? j with
  | none =>
    cases h2 : st.find? j with
    | none => rfl
    | some r2 => rw [h1, h2] at h; cases h
  | some r1 =>
    cases h2 : st.find? j with
    | none => rw [h1, h2] at h; cases h
    | some r2 =>
      rw [h1, h2] at h
      have hp : r1.poly = r2.poly := Option.some.inj h
      show ctx.isVal r1.poly = ctx.isVal r2.poly
      rw [hp]

theorem zeroOf_push (ctx : Ctx P D) (st : St P D) (s : EqState) (i j : Nat) :
    zeroOf ctx (push_equation st s i) j = zeroOf ctx st j := by
  unfold zeroOf
  have h := find?_push_poly st s i j
  cases h1 : (push_equation st s i).find? j with
  | none =>
    cases h2 : st.find? j with
    | none => rfl
    | some r2 => rw [h1, h2] at h; cases h
  | some r1 =>
    cases h2 : st.find? j with
    | none => rw [h1, h2] at h; cases h
    | some r2 =>
      rw [h1, h2] at h
      have hp : r1.poly = r2.poly := Option.some.inj h
      show ctx.isZero r1.poly = ctx.isZero r2.poly
      rw [hp]

theorem hiValOf_push (ctx : Ctx P D) (st : St P D) (s : EqState) (i j : Nat) :
    hiValOf ctx (push_equation st s i) j = hiValOf ctx st j := by
  unfold hiValOf
  have h := find?_push_poly st s i j
  cases h1 : (push_equation st s i).find? j with
  | none =>
    cases h2 : st.find? j with
    | none => rfl
    | some r2 => rw [h1, h2] at h; cases h
  | some r1 =>
    cases h2 : st.find? j with
    | none => rw [h1, h2] at h; cases h
    | some r2 =>
      rw [h1, h2] at h
      have hp : r1.poly = r2.poly := Option.some.inj h
      show ctx.hiIsVal r1.poly = ctx.hiIsVal r2.poly
      rw [hp]

theorem pvOf_push (ctx : Ctx P D) (st : St P D) (s : EqState) (i j : Nat) :
    pvOf ctx (push_equation st s i) j = pvOf ctx st j := by
  unfold pvOf
  have h := find?_push_poly st s i j
  cases h1 : (push_equation st s i).find? j with
  | none =>
    cases h2 : st.find? j with
    | none => rfl
    | some r2 => rw [h1, h2] at h; cases h
  | some r1 =>
    cases h2 : st.find? j with
    | none => rw [h1, h2] at h; cases h
    | some r2 =>
      rw [h1, h2] at h
      have hp : r1.poly = r2.poly := Option.some.inj h
      show ctx.pvar r1.poly = ctx.pvar r2.poly
      rw [hp]

theorem find?_push_self (st : St P D) (s : EqState) (i : Nat) (r : EqRec P D)
    (hf : st.find? i = some r) : (push_equation st s i).find? i =
      some { r with state := s, idx := (st.getQueue s).length } := by
  rw [push_equation_eq st s i r hf, find?_setQueue]
  exact find?_setEq_self st i _ (by rw [hf]; rfl)

theorem find?_push_ne (st : St P D) (s : EqState) (i j : Nat) (hj : ¬ j = i) :
    (push_equation st s i).find? j = st.find? j := by
  unfold push_equation
  cases hf : st.find? i with
  | none => rfl
  | some r =>
    rw [find?_setQueue]
    exact find?_setEq_ne st i j _ hj

theorem stOf_push_self (st : St P D) (s : EqState) (i : Nat) (r : EqRec P D)
    (hf : st.find? i = some r) : stOf (push_equation st s i) i = some s := by
  unfold stOf
  rw [find?_push_self st s i r hf]
  rfl

theorem mem_push (st : St P D) (s : EqState) (i : Nat) (r : EqRec P D)
    (hf : st.find? i = some r) : i ∈ (push_equation st s i).getQueue s := by
  have hpe := push_equation_eq st s i r hf
  rw [hpe, getQueue_setQueue_self]
  exact List.mem_append_right _ (List.mem_singleton.mpr rfl)

/-- Specification of `set_conflict` at a live equation: the conflict is
recorded, the equation is appended to *solved*, and everything else is
framed (its polynomial in particular is untouched). -/
theorem set_conflict_spec (ctx : Ctx P D) (st : St P D) (t : Nat) (r : EqRec P D)
    (hf : st.find? t = some r) :
    (set_conflict ctx st t).solvedQ = st.solvedQ ++ [t] ∧
    (set_conflict ctx st t).toSimplifyQ = st.toSimplifyQ ∧
    (set_conflict ctx st t).processedQ = st.processedQ ∧
    (∀ j, ¬ j = t → (set_conflict ctx st t).find? j = st.find? j) ∧
    stOf (set_conflict ctx st t) t = some .solved ∧
    valOf ctx (set_conflict ctx st t) t = valOf ctx st t ∧
    zeroOf ctx (set_conflict ctx st t) t = zeroOf ctx st t ∧
    hiValOf ctx (set_conflict ctx st t) t = hiValOf ctx st t ∧
    pvOf ctx (set_conflict ctx st t) t = pvOf ctx st t ∧
    (set_conflict ctx st t).conflict = some t ∧
    (set_conflict ctx st t).watch = st.watch ∧
    (set_conflict ctx st t).levelp1 = st.levelp1 ∧
    (set_conflict ctx st t).stats = st.stats ∧
    (set_conflict ctx st t).next = st.next ∧
    (set_conflict ctx st t).var2level = st.var2level ∧
    (set_conflict ctx st t).level2var = st.level2var ∧
    (t ∉ st.solvedQ → queueOk st .solved → queueOk (set_conflict ctx st t) .solved) ∧
    (∀ s', ¬ s' = .solved → t ∉ st.solvedQ → queueOk st s' → t ∉ st.getQueue s' →
      queueOk (set_conflict ctx st t) s') ∧
    (heapFresh st → heapFresh (set_conflict ctx st t)) := by
  have hfC : (({ st with conflict := some t } : St P D)).find? t = some r := hf
  unfold set_conflict
  refine ⟨?_, ?_, ?_, ?_, stOf_push_self _ _ _ r hfC, valOf_push .., zeroOf_push ..,
    hiValOf_push .., pvOf_push .., ?_, ?_, ?_, ?_, ?_, ?_, ?_, ?_, ?_, ?_⟩
  · show (push_equation _ .solved t).getQueue .solved = st.getQueue .solved ++ [t]
    rw [push_equation_eq _ .solved t r hfC, getQueue_setQueue_self]
    rfl
  · show (push_equation _ .solved t).getQueue .to_simplify = st.getQueue .to_simplify
    rw [push_equation_eq _ .solved t r hfC,
      getQueue_setQueue_ne _ _ _ _ (by intro hc; cases hc), getQueue_setEq]
    rfl
  · show (push_equation _ .solved t).getQueue .processed = st.getQueue .processed
    rw [push_equation_eq _ .solved t r hfC,
      getQueue_setQueue_ne _ _ _ _ (by intro hc; cases hc), getQueue_setEq]
    rfl
  · intro j hj
    rw [find?_push_ne _ .solved t j hj]
    rfl
  · show (push_equation _ .solved t).conflict = some t
    rw [push_equation_eq _ .solved t r hfC, conflict_setQueue]
    rfl
  · show (push_equation _ .solved t).watch = st.watch
    rw [push_equation_eq _ .solved t r hfC, watch_setQueue]
    rfl
  · show (push_equation _ .solved t).levelp1 = st.levelp1
    rw [push_equation_eq _ .solved t r hfC, levelp1_setQueue]
    rfl
  · show (push_equation _ .solved t).stats = st.stats
    rw [push_equation_eq _ .solved t r hfC, stats_setQueue]
    rfl
  · show (push_equation _ .solved t).next = st.next
    rw [push_equation_eq _ .solved t r hfC, next_setQueue]
    rfl
  · show (push_equation _ .solved t).var2level = st.var2level
    rw [push_equation_eq _ .solved t r hfC, var2level_setQueue]
    rfl
  · show (push_equation _ .solved t).level2var = st.level2var
    rw [push_equation_eq _ .solved t r hfC, level2var_setQueue]
    rfl
  · intro hns hQ
    exact (push_spec ({ st with conflict := some t }) .solved t r hfC hns).2.2.2.2.1 hQ
  · intro s' hs hnsolv hQ hni
    exact (push_spec ({ st with conflict := some t }) .solved t r hfC hnsolv).2.2.2.2.2.1
      s' hs hQ hni
  · intro hF
    exact heapFresh_push _ .solved t (fun p hp => hF p hp)

theorem is_conflict_iff (ctx : Ctx P D) (st : St P D) (i : Nat) :
    is_conflict ctx st i = true ↔
      (valOf ctx st i = true ∧ zeroOf ctx st i = false) := by
  unfold is_conflict
  constructor
  · intro h
    have h1 := Bool.and_elim_left h
    have h2 := Bool.and_elim_right h
    exact ⟨h1, by cases hz : zeroOf ctx st i with
      | false => rfl
      | true => rw [hz] at h2; cases h2⟩
  · intro ⟨h1, h2⟩
    rw [h1, h2]
    rfl

theorem check_conflict_true (ctx : Ctx P D) (st : St P D) (i : Nat)
    (h : is_conflict ctx st i = true) :
    check_conflict ctx st i = (set_conflict ctx st i, true) := by
  unfold check_conflict
  simp only [h]
  rfl

theorem check_conflict_false (ctx : Ctx P D) (st : St P D) (i : Nat)
    (h : is_conflict ctx st i = false) :
    check_conflict ctx st i = (st, false) := by
  unfold check_conflict
  simp only [h]
  rfl

/-! ### Phase frames: what every phase of `step` leaves untouched -/

@[reducible] def phFrame (st s : St P D) : Prop :=
  s.toSimplifyQ = st.toSimplifyQ ∧ s.processedQ = st.processedQ ∧
  s.solvedQ = st.solvedQ ∧ s.watch = st.watch ∧ s.levelp1 = st.levelp1 ∧
  s.next = st.next ∧ s.var2level = st.var2level ∧ s.level2var = st.level2var ∧
  s.stats.m_compute_steps = st.stats.m_compute_steps

theorem phFrame_rfl (st : St P D) : phFrame st st :=
  ⟨rfl, rfl, rfl, rfl, rfl, rfl, rfl, rfl, rfl⟩

theorem phFrame_trans (st s1 s2 : St P D) (h1 : phFrame st s1)
    (h2 : phFrame s1 s2) : phFrame st s2 :=
  ⟨h2.1.trans h1.1, h2.2.1.trans h1.2.1, h2.2.2.1.trans h1.2.2.1,
   h2.2.2.2.1.trans h1.2.2.2.1, h2.2.2.2.2.1.trans h1.2.2.2.2.1,
   h2.2.2.2.2.2.1.trans h1.2.2.2.2.2.1,
   h2.2.2.2.2.2.2.1.trans h1.2.2.2.2.2.2.1,
   h2.2.2.2.2.2.2.2.1.trans h1.2.2.2.2.2.2.2.1,
   h2.2.2.2.2.2.2.2.2.trans h1.2.2.2.2.2.2.2.2⟩

/-- Reducing the floating picked equation (`try_simplify_using` with it as
target) keeps the whole invariant and the floating shape: queues, watch
index and every other equation are untouched. -/
theorem tsu_float_inv (ctx : Ctx P D) (st : St P D) (e src : Nat) (clt : Bool)
    (hI : inv ctx st) (hFl : floating ctx st e) :
    inv ctx (tsuState (try_simplify_using ctx st e src clt)) ∧
    floating ctx (tsuState (try_simplify_using ctx st e src clt)) e ∧
    phFrame st (tsuState (try_simplify_using ctx st e src clt)) := by
  obtain ⟨f1, f2, f3, f4, f5, f6, f7, f8, f9, f10, f11, f12, f13, f14, f15⟩ :=
    tsu_pres ctx st e src clt
  obtain ⟨⟨q1, q2, q3, nv1, nv2, sv, hp⟩, hW, hL, hG⟩ := hI
  obtain ⟨fs, fts, fpr, fsv, fw⟩ := hFl
  have hframe : phFrame st (tsuState (try_simplify_using ctx st e src clt)) :=
    ⟨f1, f2, f3, f4, f5, f7, f8, f9, f10⟩
  refine ⟨⟨⟨?_, ?_, ?_, ?_, ?_, ?_, f12 hp⟩, ?_, ?_, ?_⟩, ?_, hframe⟩
  · exact queueOk_frame st _ .to_simplify e f1 fts f11 q1
  · exact queueOk_frame st _ .processed e f2 fpr f11 q2
  · exact queueOk_frame st _ .solved e f3 fsv f11 q3
  · rw [f1]
    exact nonValQ_frame ctx st _ st.toSimplifyQ e fts f11 nv1
  · rw [f2]
    exact nonValQ_frame ctx st _ st.processedQ e fpr f11 nv2
  · exact solvedOk_frame ctx st _ e f3 fsv f11 sv
  · exact watchOk_frame ctx st _ e f4 f1 fts fw f11 hW
  · exact levelOk_frame ctx st _ e f1 f5 f8 fts f11 hL
  · exact geomOk_frame ctx st _ f9 f8 (by rw [f4]) f5 hG
  · refine ⟨by rw [f14]; exact fs, by rw [f1]; exact fts, by rw [f2]; exact fpr,
      by rw [f3]; exact fsv, ?_⟩
    intro v hv
    rw [f4] at hv ⊢
    exact fw v hv

/-- The inner loop of `simplify_using(eq, eqs)` preserves the invariant
and the floating picked equation, on the normal and the mem-out exit
alike. -/
theorem sup_pass_inv (ctx : Ctx P D) (e : Nat) :
    ∀ (l : List Nat) (st : St P D) (b : Bool),
      inv ctx st → floating ctx st e →
      (∀ s, simplify_using_pass ctx e l st b = .error s →
        inv ctx s ∧ floating ctx s e ∧ phFrame st s) ∧
      (∀ s b', simplify_using_pass ctx e l st b = .ok (s, b') →
        inv ctx s ∧ floating ctx s e ∧ phFrame st s)
  | [], st, b, hI, hFl => by
    unfold simplify_using_pass
    refine ⟨?_, ?_⟩
    · intro s hs
      cases hs
    · intro s b' hs
      cases hs
      exact ⟨hI, hFl, phFrame_rfl st⟩
  | p :: ps, st, b, hI, hFl => by
    unfold simplify_using_pass
    cases hres : try_simplify_using ctx st e p false with
    | error s0 =>
      have h := tsu_float_inv ctx st e p false hI hFl
      rw [hres] at h
      refine ⟨?_, ?_⟩
      · intro s hs
        cases hs
        exact h
      · intro s b' hs
        cases hs
    | ok out =>
      obtain ⟨st1, b1, c1⟩ := out
      have h := tsu_float_inv ctx st e p false hI hFl
      rw [hres] at h
      obtain ⟨hI1, hFl1, hFr1⟩ := h
      by_cases hbrk : (canceled ctx || valOf ctx st1 e) = true
      · simp only [hbrk]
        refine ⟨?_, ?_⟩
        · intro s hs
          cases hs
        · intro s b' hs
          cases hs
          exact ⟨hI1, hFl1, hFr1⟩
      · simp only [Bool.not_eq_true] at hbrk
        simp only [hbrk]
        have IH := sup_pass_inv ctx e ps st1 (b || b1) hI1 hFl1
        refine ⟨?_, ?_⟩
        · intro s hs
          obtain ⟨a1, a2, a3⟩ := IH.1 s hs
          exact ⟨a1, a2, phFrame_trans st st1 s hFr1 a3⟩
        · intro s b' hs
          obtain ⟨a1, a2, a3⟩ := IH.2 s b' hs
          exact ⟨a1, a2, phFrame_trans st st1 s hFr1 a3⟩

/-- The do-while of `simplify_using(eq, eqs)` (fuel-bounded) preserves the
invariant and the floating picked equation. -/
theorem sup_eq_inv (ctx : Ctx P D) (e : Nat) (eqs : List Nat) :
    ∀ (fuel : Nat) (st : St P D),
      inv ctx st → floating ctx st e →
      (∀ s, simplify_using_eq ctx e eqs fuel st = .error s →
        inv ctx s ∧ floating ctx s e ∧ phFrame st s) ∧
      (∀ s, simplify_using_eq ctx e eqs fuel st = .ok s →
        inv ctx s ∧ floating ctx s e ∧ phFrame st s)
  | 0, st, hI, hFl => by
    unfold simplify_using_eq
    refine ⟨?_, ?_⟩
    · intro s hs
      cases hs
    · intro s hs
      cases hs
      exact ⟨hI, hFl, phFrame_rfl st⟩
  | fuel + 1, st, hI, hFl => by
    unfold simplify_using_eq
    cases hres : simplify_using_pass ctx e eqs st false with
    | error s0 =>
      have h := (sup_pass_inv ctx e eqs st false hI hFl).1 s0 hres
      refine ⟨?_, ?_⟩
      · intro s hs
        cases hs
        exact h
      · intro s hs
        cases hs
    | ok out =>
      obtain ⟨st1, simplified⟩ := out
      have h := (sup_pass_inv ctx e eqs st false hI hFl).2 st1 simplified hres
      obtain ⟨hI1, hFl1, hFr1⟩ := h
      by_cases hcont : (simplified && !(valOf ctx st1 e)) = true
      · simp only [hcont]
        have IH := sup_eq_inv ctx e eqs fuel st1 hI1 hFl1
        refine ⟨?_, ?_⟩
        · intro s hs
          obtain ⟨a1, a2, a3⟩ := IH.1 s hs
          exact ⟨a1, a2, phFrame_trans st st1 s hFr1 a3⟩
        · intro s hs
          obtain ⟨a1, a2, a3⟩ := IH.2 s hs
          exact ⟨a1, a2, phFrame_trans st st1 s hFr1 a3⟩
      · simp only [Bool.not_eq_true] at hcont
        simp only [hcont]
        refine ⟨?_, ?_⟩
        · intro s hs
          cases hs
        · intro s hs
          cases hs
          exact ⟨hI1, hFl1, hFr1⟩

/-! ### The `add` phase of superposition -/

theorem find?_next_none (st : St P D) (h : heapFresh st) :
    st.find? st.next = none := by
  unfold St.find?
  cases hf : st.eqs.find? (fun p => p.1 = st.next) with
  | none => rfl
  | some q =>
    have hm : q ∈ st.eqs := List.mem_of_find?_eq_some hf
    have hq : q.1 = st.next := by
      have := List.find?_some hf
      exact of_decide_eq_true this
    have := h q hm
    omega

theorem queueOk_congr (st st' : St P D) (s : EqState)
    (hq : st'.getQueue s = st.getQueue s)
    (hf : ∀ j, st'.find? j = st.find? j)
    (h : queueOk st s) : queueOk st' s := by
  obtain ⟨hNd, hPos⟩ := h
  refine ⟨by rw [hq]; exact hNd, ?_⟩
  intro i hi
  rw [hq] at hi
  obtain ⟨h1, h2⟩ := hPos i hi
  exact ⟨by rw [stOf_congr st st' i (hf i)]; exact h1,
    by rw [hq, ixOf_congr st st' i (hf i)]; exact h2⟩

theorem nonValQ_congr (ctx : Ctx P D) (st st' : St P D) (q : List Nat)
    (hf : ∀ j, st'.find? j = st.find? j)
    (h : nonValQ ctx st q) : nonValQ ctx st' q := by
  intro i hi
  rw [valOf_congr ctx st st' i (hf i)]
  exact h i hi

theorem solvedOk_congr (ctx : Ctx P D) (st st' : St P D)
    (hq : st'.solvedQ = st.solvedQ)
    (hf : ∀ j, st'.find? j = st.find? j)
    (h : solvedOk ctx st) : solvedOk ctx st' := by
  intro i hi
  rw [hq] at hi
  rw [valOf_congr ctx st st' i (hf i), hiValOf_congr ctx st st' i (hf i),
    zeroOf_congr ctx st st' i (hf i)]
  exact h i hi

theorem isEmpty_false_of_length_pos (l : List (List Nat)) (h : 0 < l.length) :
    l.isEmpty = false := by
  cases l with
  | nil => cases h
  | cons a as => rfl

theorem update_stats_max_next (ctx : Ctx P D) (st : St P D) (i : Nat) :
    (update_stats_max ctx st i).next = st.next := by
  unfold update_stats_max
  cases st.find? i <;> rfl

theorem update_stats_max_var2level (ctx : Ctx P D) (st : St P D) (i : Nat) :
    (update_stats_max ctx st i).var2level = st.var2level := by
  unfold update_stats_max
  cases st.find? i <;> rfl

theorem update_stats_max_level2var (ctx : Ctx P D) (st : St P D) (i : Nat) :
    (update_stats_max ctx st i).level2var = st.level2var := by
  unfold update_stats_max
  cases st.find? i <;> rfl

theorem update_stats_max_steps (ctx : Ctx P D) (st : St P D) (i : Nat) :
    (update_stats_max ctx st i).stats.m_compute_steps = st.stats.m_compute_steps := by
  unfold update_stats_max
  cases st.find? i <;> rfl

theorem find?_lt_next (st : St P D) (j : Nat) (r : EqRec P D)
    (h : st.find? j = some r) (hF : heapFresh st) : j < st.next := by
  unfold St.find? at h
  cases hf : st.eqs.find? (fun p => p.1 = j) with
  | none => rw [hf] at h; cases h
  | some q =>
    have hm : q ∈ st.eqs := List.mem_of_find?_eq_some hf
    have hq' := List.find?_some hf
    have hq : q.1 = j := of_decide_eq_true hq'
    have := hF q hm
    omega

theorem mem_queue_lt_next (st : St P D) (s : EqState) (hQ : queueOk st s)
    (hF : heapFresh st) (j : Nat) (hj : j ∈ st.getQueue s) : j < st.next := by
  obtain ⟨r, hr, _⟩ := stOf_some_elim st j s (hQ.2 j hj).1
  exact find?_lt_next st j r hr hF

theorem add_to_watch_watch (ctx : Ctx P D) (st : St P D) (i : Nat)
    (r : EqRec P D) (hf : st.find? i = some r) (hnv : ctx.isVal r.poly = false) :
    (add_to_watch ctx st i).watch =
      st.watch.set (ctx.pvar r.poly)
        ((st.watch.getD (ctx.pvar r.poly) []) ++ [i]) := by
  unfold add_to_watch
  rw [hf]
  simp only [hnv]
  rfl

/-- Characterization of `add(p, dep)` for a non-zero, non-constant
polynomial when the watch index is initialized: a fresh *to-simplify*
equation appears, watched under its leading variable, with `m_levelp1`
raised; nothing else changes. -/
theorem add_spec (ctx : Ctx P D) (st : St P D) (p : P) (dep : D)
    (hz : ctx.isZero p = false) (hv : ctx.isVal p = false)
    (hFr : heapFresh st) (hqts : queueOk st .to_simplify)
    (hwlen : 0 < st.watch.length)
    (hplt : ctx.pvar p < st.watch.length) :
    (add ctx st p dep).toSimplifyQ = st.toSimplifyQ ++ [st.next] ∧
    (add ctx st p dep).processedQ = st.processedQ ∧
    (add ctx st p dep).solvedQ = st.solvedQ ∧
    (add ctx st p dep).find? st.next =
      some ⟨p, dep, .to_simplify, st.toSimplifyQ.length⟩ ∧
    (∀ j, ¬ j = st.next → (add ctx st p dep).find? j = st.find? j) ∧
    (add ctx st p dep).watch =
      st.watch.set (ctx.pvar p) (st.watch.getD (ctx.pvar p) [] ++ [st.next]) ∧
    (add ctx st p dep).levelp1 =
      max (st.var2level.getD (ctx.pvar p) 0 + 1) st.levelp1 ∧
    (add ctx st p dep).next = st.next + 1 ∧
    (add ctx st p dep).var2level = st.var2level ∧
    (add ctx st p dep).level2var = st.level2var ∧
    (add ctx st p dep).conflict = st.conflict ∧
    (add ctx st p dep).stats.m_compute_steps = st.stats.m_compute_steps ∧
    heapFresh (add ctx st p dep) := by
  have hfN : st.find? st.next = none := find?_next_none st hFr
  have hfF : (add_fresh st p dep).find? st.next =
      some ⟨p, dep, .to_simplify, 0⟩ := by
    unfold add_fresh
    exact find?_append_fresh st st.next _ (st.next + 1) hfN
  have hfO : ∀ j, ¬ j = st.next → (add_fresh st p dep).find? j = st.find? j := by
    intro j hj
    unfold add_fresh
    exact find?_append_other st st.next _ (st.next + 1) j hj
  have hvalF : valOf ctx (add_fresh st p dep) st.next = false := by
    unfold valOf
    rw [hfF]
    exact hv
  have hic : is_conflict ctx (add_fresh st p dep) st.next = false := by
    unfold is_conflict
    rw [hvalF]
    rfl
  have hcc := check_conflict_false ctx (add_fresh st p dep) st.next hic
  have hadd : add ctx st p dep =
      update_stats_max ctx
        (add_watch ctx (push_equation (add_fresh st p dep) .to_simplify st.next) p st.next)
        st.next := by
    unfold add
    simp only [hz, hcc]
    rfl
  -- the fresh equation is pushed to the to-simplify queue
  have hnotin : st.next ∉ (add_fresh st p dep).getQueue .to_simplify := by
    intro hc
    have hm : st.next ∈ st.getQueue .to_simplify := hc
    have := mem_queue_lt_next st .to_simplify hqts hFr st.next hm
    omega
  have hps := push_spec (add_fresh st p dep) .to_simplify st.next _ hfF hnotin
  obtain ⟨c1, c2, c3, c4, _, _, cw, clp, ccf, cst, cnx, cv2, cl2, _⟩ := hps
  -- the watch step
  have hw2 : (push_equation (add_fresh st p dep) .to_simplify st.next).watch =
      st.watch := cw
  have hwne : (push_equation (add_fresh st p dep) .to_simplify st.next).watch.isEmpty
      = false := by
    rw [hw2]
    exact isEmpty_false_of_length_pos st.watch hwlen
  have hawdef : add_watch ctx (push_equation (add_fresh st p dep) .to_simplify st.next)
      p st.next =
      add_to_watch ctx
        { push_equation (add_fresh st p dep) .to_simplify st.next with
          levelp1 := max
            ((push_equation (add_fresh st p dep) .to_simplify st.next).var2level.getD
              (ctx.pvar p) 0 + 1)
            (push_equation (add_fresh st p dep) .to_simplify st.next).levelp1 }
        st.next := by
    unfold add_watch
    simp only [hwne]
    rfl
  have hfind2 : ({ push_equation (add_fresh st p dep) .to_simplify st.next with
      levelp1 := max
        ((push_equation (add_fresh st p dep) .to_simplify st.next).var2level.getD
          (ctx.pvar p) 0 + 1)
        (push_equation (add_fresh st p dep) .to_simplify st.next).levelp1 } :
      St P D).find? st.next =
      some ⟨p, dep, .to_simplify, st.toSimplifyQ.length⟩ := by
    show (push_equation (add_fresh st p dep) .to_simplify st.next).find? st.next = _
    rw [c4]
    rfl
  have hw3 := add_to_watch_watch ctx
    ({ push_equation (add_fresh st p dep) .to_simplify st.next with
      levelp1 := max
        ((push_equation (add_fresh st p dep) .to_simplify st.next).var2level.getD
          (ctx.pvar p) 0 + 1)
        (push_equation (add_fresh st p dep) .to_simplify st.next).levelp1 })
    st.next ⟨p, dep, .to_simplify, st.toSimplifyQ.length⟩ hfind2 hv
  have hproj3 := add_to_watch_proj ctx
    ({ push_equation (add_fresh st p dep) .to_simplify st.next with
      levelp1 := max
        ((push_equation (add_fresh st p dep) .to_simplify st.next).var2level.getD
          (ctx.pvar p) 0 + 1)
        (push_equation (add_fresh st p dep) .to_simplify st.next).levelp1 })
    st.next
  rw [hadd, hawdef]
  refine ⟨?_, ?_, ?_, ?_, ?_, ?_, ?_, ?_, ?_, ?_, ?_, ?_, ?_⟩
  · rw [update_stats_max_toSimplifyQ, hproj3.2.1]
    show (push_equation (add_fresh st p dep) .to_simplify st.next).getQueue .to_simplify
      = st.toSimplifyQ ++ [st.next]
    rw [c1]
    rfl
  · rw [update_stats_max_processedQ, hproj3.2.2.1]
    show (push_equation (add_fresh st p dep) .to_simplify st.next).getQueue .processed
      = st.processedQ
    rw [c2 .processed (by intro hc; cases hc)]
    rfl
  · rw [update_stats_max_solvedQ, hproj3.2.2.2.1]
    show (push_equation (add_fresh st p dep) .to_simplify st.next).getQueue .solved
      = st.solvedQ
    rw [c2 .solved (by intro hc; cases hc)]
    rfl
  · rw [update_stats_max_find?, find?_add_to_watch]
    exact hfind2
  · intro j hj
    rw [update_stats_max_find?, find?_add_to_watch]
    show (push_equation (add_fresh st p dep) .to_simplify st.next).find? j = st.find? j
    rw [c3 j hj]
    exact hfO j hj
  · rw [update_stats_max_watch, hw3]
    show ((push_equation (add_fresh st p dep) .to_simplify st.next).watch.set
      (ctx.pvar p)
      ((push_equation (add_fresh st p dep) .to_simplify st.next).watch.getD
        (ctx.pvar p) [] ++ [st.next])) = _
    rw [hw2]
  · rw [update_stats_max_levelp1, hproj3.2.2.2.2.1]
    show max ((push_equation (add_fresh st p dep) .to_simplify st.next).var2level.getD
        (ctx.pvar p) 0 + 1)
      (push_equation (add_fresh st p dep) .to_simplify st.next).levelp1 = _
    rw [cv2, clp]
    show max (st.var2level.getD (ctx.pvar p) 0 + 1) st.levelp1 = _
    rfl
  · rw [update_stats_max_next, hproj3.2.2.2.2.2.2.2.1]
    show (push_equation (add_fresh st p dep) .to_simplify st.next).next = st.next + 1
    rw [cnx]
    rfl
  · rw [update_stats_max_var2level, hproj3.2.2.2.2.2.2.2.2.1]
    show (push_equation (add_fresh st p dep) .to_simplify st.next).var2level
      = st.var2level
    rw [cv2]
    rfl
  · rw [update_stats_max_level2var, hproj3.2.2.2.2.2.2.2.2.2.1]
    show (push_equation (add_fresh st p dep) .to_simplify st.next).level2var
      = st.level2var
    rw [cl2]
    rfl
  · rw [update_stats_max_conflict, hproj3.2.2.2.2.2.1]
    show (push_equation (add_fresh st p dep) .to_simplify st.next).conflict
      = st.conflict
    rw [ccf]
    rfl
  · rw [update_stats_max_steps]
    have : (add_to_watch ctx
        ({ push_equation (add_fresh st p dep) .to_simplify st.next with
          levelp1 := max
            ((push_equation (add_fresh st p dep) .to_simplify st.next).var2level.getD
              (ctx.pvar p) 0 + 1)
            (push_equation (add_fresh st p dep) .to_simplify st.next).levelp1 })
        st.next).stats =
        (push_equation (add_fresh st p dep) .to_simplify st.next).stats :=
      hproj3.2.2.2.2.2.2.1
    rw [this, cst]
    rfl
  · refine heapFresh_congr _ _ (update_stats_max_eqs ctx _ st.next)
      (update_stats_max_next ctx _ st.next) ?_
    refine heapFresh_congr _ _ hproj3.1 hproj3.2.2.2.2.2.2.2.1 ?_
    refine heapFresh_congr _ _ rfl rfl ?_
    refine heapFresh_push _ .to_simplify st.next ?_
    intro q hq
    have hq' : q ∈ st.eqs ++
        [(st.next, (⟨p, dep, .to_simplify, 0⟩ : EqRec P D))] := hq
    rw [List.mem_append] at hq'
    cases hq' with
    | inl hq1 =>
      have := hFr q hq1
      show q.1 < st.next + 1
      omega
    | inr hq2 =>
      rw [List.mem_singleton] at hq2
      subst hq2
      show st.next < st.next + 1
      omega

theorem add_zero (ctx : Ctx P D) (st : St P D) (p : P) (dep : D)
    (hz : ctx.isZero p = true) : add ctx st p dep = st := by
  unfold add
  simp only [hz]
  rfl

/-- Characterization of `add(p, dep)` for a non-zero constant polynomial:
the fresh equation is an immediate conflict, recorded and pushed straight
to *solved*. -/
theorem add_conflict_spec (ctx : Ctx P D) (st : St P D) (p : P) (dep : D)
    (hz : ctx.isZero p = false) (hv : ctx.isVal p = true)
    (hFr : heapFresh st) :
    (add ctx st p dep).toSimplifyQ = st.toSimplifyQ ∧
    (add ctx st p dep).processedQ = st.processedQ ∧
    (add ctx st p dep).solvedQ = st.solvedQ ++ [st.next] ∧
    stOf (add ctx st p dep) st.next = some .solved ∧
    valOf ctx (add ctx st p dep) st.next = true ∧
    zeroOf ctx (add ctx st p dep) st.next = false ∧
    (∀ j, ¬ j = st.next → (add ctx st p dep).find? j = st.find? j) ∧
    (add ctx st p dep).watch = st.watch ∧
    (add ctx st p dep).levelp1 = st.levelp1 ∧
    (add ctx st p dep).next = st.next + 1 ∧
    (add ctx st p dep).var2level = st.var2level ∧
    (add ctx st p dep).level2var = st.level2var ∧
    (add ctx st p dep).conflict = some st.next ∧
    (add ctx st p dep).stats.m_compute_steps = st.stats.m_compute_steps ∧
    (st.next ∉ st.solvedQ → queueOk st .solved →
      queueOk (add ctx st p dep) .solved) ∧
    (∀ s', ¬ s' = .solved → st.next ∉ st.solvedQ → queueOk st s' →
      st.next ∉ st.getQueue s' → queueOk (add ctx st p dep) s') ∧
    (heapFresh st → heapFresh (add ctx st p dep)) := by
  have hfN : st.find? st.next = none := find?_next_none st hFr
  have hfF : (add_fresh st p dep).find? st.next =
      some ⟨p, dep, .to_simplify, 0⟩ := by
    unfold add_fresh
    exact find?_append_fresh st st.next _ (st.next + 1) hfN
  have hfO : ∀ j, ¬ j = st.next → (add_fresh st p dep).find? j = st.find? j := by
    intro j hj
    unfold add_fresh
    exact find?_append_other st st.next _ (st.next + 1) j hj
  have hvalF : valOf ctx (add_fresh st p dep) st.next = true := by
    unfold valOf
    rw [hfF]
    exact hv
  have hzeroF : zeroOf ctx (add_fresh st p dep) st.next = false := by
    unfold zeroOf
    rw [hfF]
    exact hz
  have hic : is_conflict ctx (add_fresh st p dep) st.next = true := by
    unfold is_conflict
    rw [hvalF, hzeroF]
    rfl
  have hcc := check_conflict_true ctx (add_fresh st p dep) st.next hic
  have hadd : add ctx st p dep = set_conflict ctx (add_fresh st p dep) st.next := by
    unfold add
    simp only [hz, hcc]
    rfl
  have hsc := set_conflict_spec ctx (add_fresh st p dep) st.next _ hfF
  obtain ⟨s1, s2, s3, s4, s5, s6, s7, s8, s9, s10, s11, s12, s13, s14, s15, s16,
    s17, s18, s19⟩ := hsc
  rw [hadd]
  refine ⟨?_, ?_, ?_, s5, by rw [s6]; exact hvalF, by rw [s7]; exact hzeroF,
    ?_, ?_, ?_, ?_, ?_, ?_, s10, ?_, ?_, ?_, ?_⟩
  · rw [s2]
    rfl
  · rw [s3]
    rfl
  · rw [s1]
    rfl
  · intro j hj
    rw [s4 j hj]
    exact hfO j hj
  · rw [s11]
    rfl
  · rw [s12]
    rfl
  · rw [s14]
    rfl
  · rw [s15]
    rfl
  · rw [s16]
    rfl
  · rw [s13]
    rfl
  · intro hns hQ
    refine s17 (by exact hns) ?_
    exact queueOk_frame st (add_fresh st p dep) .solved st.next rfl hns hfO hQ
  · intro s' hs hns hQ hni
    refine s18 s' hs (by exact hns) ?_ (by cases s' <;> exact hni)
    exact queueOk_frame st (add_fresh st p dep) s' st.next rfl
      (by cases s' <;> exact hni) hfO hQ
  · intro _
    refine s19 ?_
    intro q hq
    have hq' : q ∈ st.eqs ++
        [(st.next, (⟨p, dep, .to_simplify, 0⟩ : EqRec P D))] := hq
    rw [List.mem_append] at hq'
    cases hq' with
    | inl hq1 =>
      have := hFr q hq1
      show q.1 < st.next + 1
      omega
    | inr hq2 =>
      rw [List.mem_singleton] at hq2
      subst hq2
      show st.next < st.next + 1
      omega

/-- `add` preserves the invariant and the floating picked equation (the
fresh equation is either an immediate recorded conflict in *solved* or a
well-watched new *to-simplify* entry). -/
theorem add_inv (ctx : Ctx P D) (hC : CtxOk ctx) (st : St P D) (e : Nat)
    (p : P) (dep : D) (hI : inv ctx st) (hFl : floating ctx st e) :
    inv ctx (add ctx st p dep) ∧ floating ctx (add ctx st p dep) e ∧
    (add ctx st p dep).find? e = st.find? e ∧
    (add ctx st p dep).processedQ = st.processedQ ∧
    (add ctx st p dep).stats.m_compute_steps = st.stats.m_compute_steps := by
  obtain ⟨⟨q1, q2, q3, nv1, nv2, sv, hp⟩, hW, hL, hG⟩ := hI
  obtain ⟨fs, fts, fpr, fsv, fw⟩ := hFl
  obtain ⟨re, hre, hres⟩ := stOf_some_elim st e .to_simplify fs
  have helt : e < st.next := find?_lt_next st e re hre hp
  have hene : ¬ e = st.next := by omega
  have hQs : ∀ s, queueOk st s := by
    intro s
    cases s
    exacts [q1, q2, q3]
  have hnq : ∀ s, st.next ∉ st.getQueue s := by
    intro s hc
    have := mem_queue_lt_next st s (hQs s) hp st.next hc
    omega
  have hnw : ∀ v, v < st.watch.length → st.next ∉ st.watch.getD v [] := by
    intro v hv hc
    exact hnq .to_simplify (hW.1 v hv st.next hc).2.2
  cases hz : ctx.isZero p with
  | true =>
    rw [add_zero ctx st p dep hz]
    exact ⟨⟨⟨q1, q2, q3, nv1, nv2, sv, hp⟩, hW, hL, hG⟩,
      ⟨fs, fts, fpr, fsv, fw⟩, rfl, rfl, rfl⟩
  | false =>
    cases hv : ctx.isVal p with
    | true =>
      obtain ⟨a1, a2, a3, a4, a5, a6, a7, a8, a9, a10, a11, a12, a13, a14,
        a15, a16, a17⟩ := add_conflict_spec ctx st p dep hz hv hp
      refine ⟨⟨⟨?_, ?_, ?_, ?_, ?_, ?_, a17 hp⟩, ?_, ?_, ?_⟩,
        ⟨?_, ?_, ?_, ?_, ?_⟩, a7 e hene, a2, a14⟩
      · exact a16 .to_simplify (by intro hc; cases hc) (hnq .solved) q1
          (hnq .to_simplify)
      · exact a16 .processed (by intro hc; cases hc) (hnq .solved) q2
          (hnq .processed)
      · exact a15 (hnq .solved) q3
      · rw [a1]
        exact nonValQ_frame ctx st _ st.toSimplifyQ st.next (hnq .to_simplify)
          a7 nv1
      · rw [a2]
        exact nonValQ_frame ctx st _ st.processedQ st.next (hnq .processed)
          a7 nv2
      · intro i hi
        rw [a3, List.mem_append] at hi
        cases hi with
        | inl hio =>
          have hine : ¬ i = st.next := by
            have := mem_queue_lt_next st .solved q3 hp i hio
            omega
          rw [valOf_congr ctx st _ i (a7 i hine), hiValOf_congr ctx st _ i (a7 i hine),
            zeroOf_congr ctx st _ i (a7 i hine)]
          exact sv i hio
        | inr hin =>
          rw [List.mem_singleton] at hin
          subst hin
          exact Or.inr ⟨a5, a6⟩
      · exact watchOk_frame ctx st _ st.next a8 a1 (hnq .to_simplify) hnw a7 hW
      · exact levelOk_frame ctx st _ st.next a1 a9 a11 (hnq .to_simplify) a7 hL
      · exact geomOk_frame ctx st _ a12 a11 (by rw [a8]) a9 hG
      · rw [stOf_congr st _ e (a7 e hene)]
        exact fs
      · rw [a1]
        exact fts
      · rw [a2]
        exact fpr
      · rw [a3]
        intro hc
        rw [List.mem_append] at hc
        cases hc with
        | inl h1 => exact fsv h1
        | inr h2 =>
          rw [List.mem_singleton] at h2
          exact hene h2
      · intro v hv'
        rw [a8] at hv' ⊢
        exact fw v hv'
    | false =>
      have hplt' : ctx.pvar p < ctx.level2var.length := hC.var_lt p hv
      have hwl : st.watch.length = ctx.level2var.length := hG.2.2.2.1
      have hplt : ctx.pvar p < st.watch.length := by rw [hwl]; exact hplt'
      have hwlen : 0 < st.watch.length := by omega
      obtain ⟨a1, a2, a3, a4, a5, a6, a7, a8, a9, a10, a11, a12, a13⟩ :=
        add_spec ctx st p dep hz hv hp q1 hwlen hplt
      have hstN : stOf (add ctx st p dep) st.next = some .to_simplify := by
        unfold stOf
        rw [a4]
        rfl
      have hpvN : pvOf ctx (add ctx st p dep) st.next = ctx.pvar p := by
        unfold pvOf
        rw [a4]
        rfl
      have hvalN : valOf ctx (add ctx st p dep) st.next = false := by
        unfold valOf
        rw [a4]
        exact hv
      have hixN : ixOf (add ctx st p dep) st.next = st.toSimplifyQ.length := by
        unfold ixOf
        rw [a4]
        rfl
      have hwatch_lt : ctx.pvar p < (add ctx st p dep).watch.length := by
        rw [a6, List.length_set]
        exact hplt
      have hmemw_lt : ∀ j ∈ st.watch.getD (ctx.pvar p) [], j < st.next := by
        intro j hj
        have hjts : j ∈ st.toSimplifyQ := (hW.1 _ hplt j hj).2.2
        exact mem_queue_lt_next st .to_simplify q1 hp j hjts
      refine ⟨⟨⟨?_, ?_, ?_, ?_, ?_, ?_, a13⟩, ⟨?_, ?_⟩, ?_, ?_⟩,
        ⟨?_, ?_, ?_, ?_, ?_⟩, a5 e hene, a2, a12⟩
      · -- queueOk to_simplify, extended by the fresh equation
        constructor
        · show ((add ctx st p dep).toSimplifyQ).Nodup
          rw [a1]
          refine q1.1.append (List.nodup_singleton st.next) ?_
          intro a ha hb
          rw [List.mem_singleton] at hb
          subst hb
          exact hnq .to_simplify ha
        · intro j hj
          have hj' : j ∈ (add ctx st p dep).toSimplifyQ := hj
          rw [a1, List.mem_append] at hj'
          cases hj' with
          | inl hjo =>
            have hjne : ¬ j = st.next := by
              have := mem_queue_lt_next st .to_simplify q1 hp j hjo
              omega
            obtain ⟨hjs, hjpos⟩ := q1.2 j hjo
            have hjpos' : (st.toSimplifyQ)[ixOf st j]? = some j := hjpos
            have hix : ixOf (add ctx st p dep) j = ixOf st j :=
              ixOf_congr st _ j (a5 j hjne)
            refine ⟨by rw [stOf_congr st _ j (a5 j hjne)]; exact hjs, ?_⟩
            show ((add ctx st p dep).getQueue .to_simplify)[ixOf (add ctx st p dep) j]?
              = some j
            rw [hix]
            show ((add ctx st p dep).toSimplifyQ)[ixOf st j]? = some j
            rw [a1, List.getElem?_append_left (getElem?_some_lt _ _ _ hjpos')]
            exact hjpos'
          | inr hjn =>
            rw [List.mem_singleton] at hjn
            subst hjn
            refine ⟨hstN, ?_⟩
            show ((add ctx st p dep).toSimplifyQ)[ixOf (add ctx st p dep) st.next]?
              = some st.next
            rw [hixN, a1, List.getElem?_append_right (Nat.le_refl _)]
            simp
      · exact queueOk_frame st _ .processed st.next a2 (hnq .processed)
          a5 q2
      · exact queueOk_frame st _ .solved st.next a3 (hnq .solved) a5 q3
      · -- nonValQ to_simplify
        intro i hi
        rw [a1, List.mem_append] at hi
        cases hi with
        | inl hio =>
          have hine : ¬ i = st.next := by
            have := mem_queue_lt_next st .to_simplify q1 hp i hio
            omega
          rw [valOf_congr ctx st _ i (a5 i hine)]
          exact nv1 i hio
        | inr hin =>
          rw [List.mem_singleton] at hin
          subst hin
          exact hvalN
      · rw [a2]
        exact nonValQ_frame ctx st _ st.processedQ st.next (hnq .processed) a5 nv2
      · exact solvedOk_frame ctx st _ st.next a3 (hnq .solved) a5 sv
      · -- watchOk part 1
        intro v hv' i hi
        rw [a6, List.length_set] at hv'
        rw [a6] at hi
        by_cases hvp : v = ctx.pvar p
        · subst hvp
          rw [getD_set_self _ _ _ hplt] at hi
          rw [List.mem_append] at hi
          cases hi with
          | inl hio =>
            have hine : ¬ i = st.next := by
              have := hmemw_lt i hio
              omega
            obtain ⟨hs, hpv, hm⟩ := hW.1 _ hplt i hio
            refine ⟨by rw [stOf_congr st _ i (a5 i hine)]; exact hs,
              by rw [pvOf_congr ctx st _ i (a5 i hine)]; exact hpv, ?_⟩
            show i ∈ (add ctx st p dep).toSimplifyQ
            rw [a1]
            exact List.mem_append_left _ hm
          | inr hin =>
            rw [List.mem_singleton] at hin
            subst hin
            refine ⟨hstN, hpvN, ?_⟩
            show st.next ∈ (add ctx st p dep).toSimplifyQ
            rw [a1]
            exact List.mem_append_right _ (List.mem_singleton.mpr rfl)
        · rw [getD_set_ne _ _ _ _ hvp] at hi
          have hvlt2 : v < st.watch.length := hv'
          obtain ⟨hs, hpv, hm⟩ := hW.1 v hvlt2 i hi
          have hine : ¬ i = st.next := by
            intro hc
            subst hc
            exact hnw v hvlt2 hi
          refine ⟨by rw [stOf_congr st _ i (a5 i hine)]; exact hs,
            by rw [pvOf_congr ctx st _ i (a5 i hine)]; exact hpv, ?_⟩
          show i ∈ (add ctx st p dep).toSimplifyQ
          rw [a1]
          exact List.mem_append_left _ hm
      · -- watchOk part 2
        intro i hi
        rw [a1, List.mem_append] at hi
        cases hi with
        | inl hio =>
          have hine : ¬ i = st.next := by
            have := mem_queue_lt_next st .to_simplify q1 hp i hio
            omega
          rw [pvOf_congr ctx st _ i (a5 i hine), a6]
          by_cases hvp : pvOf ctx st i = ctx.pvar p
          · rw [hvp, getD_set_self _ _ _ hplt, List.count_append]
            have h0 : (st.watch.getD (ctx.pvar p) []).count i = 1 := by
              have := hW.2 i hio
              rw [hvp] at this
              exact this
            have h1 : ([st.next] : List Nat).count i = 0 := by
              rw [List.count_eq_zero]
              intro hc
              rw [List.mem_singleton] at hc
              exact hine hc
            omega
          · rw [getD_set_ne _ _ _ _ hvp]
            exact hW.2 i hio
        | inr hin =>
          rw [List.mem_singleton] at hin
          subst hin
          rw [hpvN, a6, getD_set_self _ _ _ hplt, List.count_append]
          have h0 : (st.watch.getD (ctx.pvar p) []).count st.next = 0 := by
            rw [List.count_eq_zero]
            exact hnw _ hplt
          have h1 : ([st.next] : List Nat).count st.next = 1 := by simp
          omega
      · -- levelOk
        intro i hi
        rw [a1, List.mem_append] at hi
        rw [a9, a7]
        cases hi with
        | inl hio =>
          have hine : ¬ i = st.next := by
            have := mem_queue_lt_next st .to_simplify q1 hp i hio
            omega
          rw [pvOf_congr ctx st _ i (a5 i hine)]
          have h1 := hL i hio
          have h2 : st.levelp1 ≤
              max (st.var2level.getD (ctx.pvar p) 0 + 1) st.levelp1 :=
            le_max_right _ _
          omega
        | inr hin =>
          rw [List.mem_singleton] at hin
          subst hin
          rw [hpvN]
          have := le_max_left (st.var2level.getD (ctx.pvar p) 0 + 1) st.levelp1
          omega
      · -- geomOk
        refine ⟨by rw [a10]; exact hG.1, by rw [a9]; exact hG.2.1,
          fun v hv' => by rw [a9]; exact hG.2.2.1 v hv', ?_, ?_⟩
        · rw [a6, List.length_set]
          exact hG.2.2.2.1
        · have h1 : st.var2level.getD (ctx.pvar p) 0 = lvl ctx (ctx.pvar p) :=
            hG.2.2.1 _ hplt'
          obtain ⟨h2, _⟩ := lvl_lt ctx hC (ctx.pvar p) hplt'
          have h3 := hG.2.2.2.2
          rw [a7, h1]
          exact Nat.max_le.mpr ⟨by omega, h3⟩
      · rw [stOf_congr st _ e (a5 e hene)]
        exact fs
      · rw [a1]
        intro hc
        rw [List.mem_append] at hc
        cases hc with
        | inl h1 => exact fts h1
        | inr h2 =>
          rw [List.mem_singleton] at h2
          exact hene h2
      · rw [a2]
        exact fpr
      · rw [a3]
        exact fsv
      · intro v hv'
        rw [a6, List.length_set] at hv'
        rw [a6]
        by_cases hvp : v = ctx.pvar p
        · subst hvp
          rw [getD_set_self _ _ _ hplt]
          intro hc
          rw [List.mem_append] at hc
          cases hc with
          | inl h1 => exact fw _ hplt h1
          | inr h2 =>
            rw [List.mem_singleton] at h2
            exact hene h2
        · rw [getD_set_ne _ _ _ _ hvp]
          exact fw v hv'

/-- One superposition preserves the invariant and the floating picked
equation; a mem-out from `try_spoly` carries the state unchanged. -/
theorem superpose2_inv (ctx : Ctx P D) (hC : CtxOk ctx) (st : St P D) (e t : Nat)
    (hI : inv ctx st) (hFl : floating ctx st e) (hval : valOf ctx st e = false) :
    (∀ s, superpose2 ctx st e t = .error s → s = st) ∧
    (∀ s, superpose2 ctx st e t = .ok s →
      inv ctx s ∧ floating ctx s e ∧ valOf ctx s e = false ∧
      s.stats.m_compute_steps = st.stats.m_compute_steps) := by
  unfold superpose2
  cases hf1 : st.find? e with
  | none =>
    refine ⟨?_, ?_⟩
    · intro s hs
      cases hs
    · intro s hs
      cases hs
      exact ⟨hI, hFl, hval, rfl⟩
  | some r1 =>
    cases hf2 : st.find? t with
    | none =>
      refine ⟨?_, ?_⟩
      · intro s hs
        cases hs
      · intro s hs
        cases hs
        exact ⟨hI, hFl, hval, rfl⟩
    | some r2 =>
      cases hsp : ctx.trySpoly r1.poly r2.poly with
      | error u =>
        simp only [hsp]
        refine ⟨?_, ?_⟩
        · intro s hs
          cases hs
          rfl
        · intro s hs
          cases hs
      | ok o =>
        cases o with
        | none =>
          simp only [hsp]
          refine ⟨?_, ?_⟩
          · intro s hs
            cases hs
          · intro s hs
            cases hs
            exact ⟨hI, hFl, hval, rfl⟩
        | some r =>
          simp only [hsp]
          by_cases hz : ctx.isZero r = true
          · simp only [hz]
            refine ⟨?_, ?_⟩
            · intro s hs
              cases hs
            · intro s hs
              cases hs
              exact ⟨hI, hFl, hval, rfl⟩
          · simp only [Bool.not_eq_true] at hz
            simp only [hz]
            by_cases htc : ctx.tooComplex r = true
            · simp only [htc]
              refine ⟨?_, ?_⟩
              · intro s hs
                cases hs
              · intro s hs
                cases hs
                exact ⟨hI, hFl, hval, rfl⟩
            · simp only [Bool.not_eq_true] at htc
              simp only [htc]
              refine ⟨?_, ?_⟩
              · intro s hs
                cases hs
              · intro s hs
                cases hs
                have hIb : inv ctx ({ st with stats :=
                    { st.stats with m_superposed := st.stats.m_superposed + 1 } }) := hI
                have hFlb : floating ctx ({ st with stats :=
                    { st.stats with m_superposed := st.stats.m_superposed + 1 } }) e := hFl
                obtain ⟨b1, b2, b3, b4, b5⟩ := add_inv ctx hC
                  ({ st with stats :=
                    { st.stats with m_superposed := st.stats.m_superposed + 1 } })
                  e r (ctx.join r1.dep r2.dep) hIb hFlb
                refine ⟨b1, b2, ?_, ?_⟩
                · rw [valOf_congr ctx _ _ e b3]
                  exact hval
                · rw [b5]

/-- The walk of `superpose(eq)` over the processed queue preserves the
invariant and the floating picked equation. -/
theorem superpose_all_inv (ctx : Ctx P D) (hC : CtxOk ctx) (e : Nat) :
    ∀ (l : List Nat) (st : St P D), inv ctx st → floating ctx st e →
      valOf ctx st e = false →
      (∀ s, superpose_all ctx e l st = .error s →
        inv ctx s ∧ floating ctx s e ∧ valOf ctx s e = false ∧
        s.stats.m_compute_steps = st.stats.m_compute_steps) ∧
      (∀ s, superpose_all ctx e l st = .ok s →
        inv ctx s ∧ floating ctx s e ∧ valOf ctx s e = false ∧
        s.stats.m_compute_steps = st.stats.m_compute_steps)
  | [], st, hI, hFl, hval => by
    unfold superpose_all
    refine ⟨?_, ?_⟩
    · intro s hs
      cases hs
    · intro s hs
      cases hs
      exact ⟨hI, hFl, hval, rfl⟩
  | t :: ts, st, hI, hFl, hval => by
    unfold superpose_all
    have hsp := superpose2_inv ctx hC st e t hI hFl hval
    cases hres : superpose2 ctx st e t with
    | error s0 =>
      have hs0 : s0 = st := hsp.1 s0 hres
      subst hs0
      refine ⟨?_, ?_⟩
      · intro s hs
        cases hs
        exact ⟨hI, hFl, hval, rfl⟩
      · intro s hs
        cases hs
    | ok st1 =>
      obtain ⟨hI1, hFl1, hval1, hst1⟩ := hsp.2 st1 hres
      have IH := superpose_all_inv ctx hC e ts st1 hI1 hFl1 hval1
      refine ⟨?_, ?_⟩
      · intro s hs
        obtain ⟨a1, a2, a3, a4⟩ := IH.1 s hs
        exact ⟨a1, a2, a3, by rw [a4, hst1]⟩
      · intro s hs
        obtain ⟨a1, a2, a3, a4⟩ := IH.2 s hs
        exact ⟨a1, a2, a3, by rw [a4, hst1]⟩

/-- Retiring the floating picked equation (it reduced to zero) preserves
the invariant. -/
theorem retire_float_inv (ctx : Ctx P D) (st : St P D) (e : Nat)
    (hI : inv ctx st) (hFl : floating ctx st e) :
    inv ctx (retire st e) ∧ (retire st e).find? e = none ∧
    (retire st e).stats.m_compute_steps = st.stats.m_compute_steps := by
  obtain ⟨⟨q1, q2, q3, nv1, nv2, sv, hp⟩, hW, hL, hG⟩ := hI
  obtain ⟨fs, fts, fpr, fsv, fw⟩ := hFl
  have hfne : ∀ j, ¬ j = e → (retire st e).find? j = st.find? j :=
    fun j hj => find?_retire_ne st e j hj
  refine ⟨⟨⟨?_, ?_, ?_, ?_, ?_, ?_, heapFresh_retire st e hp⟩, ?_, ?_, ?_⟩,
    find?_retire_self st e, rfl⟩
  · exact queueOk_frame st _ .to_simplify e rfl fts hfne q1
  · exact queueOk_frame st _ .processed e rfl fpr hfne q2
  · exact queueOk_frame st _ .solved e rfl fsv hfne q3
  · exact nonValQ_frame ctx st _ st.toSimplifyQ e fts hfne nv1
  · exact nonValQ_frame ctx st _ st.processedQ e fpr hfne nv2
  · exact solvedOk_frame ctx st _ e rfl fsv hfne sv
  · exact watchOk_frame ctx st _ e rfl rfl fts fw hfne hW
  · exact levelOk_frame ctx st _ e rfl rfl rfl fts hfne hL
  · exact geomOk_frame ctx st _ rfl rfl rfl rfl hG

/-- Setting the floating picked equation as the conflict preserves the
invariant (it joins *solved* as the recorded constant non-zero witness). -/
theorem set_conflict_float_inv (ctx : Ctx P D) (st : St P D) (e : Nat)
    (hI : inv ctx st) (hFl : floating ctx st e)
    (hval : valOf ctx st e = true) (hzero : zeroOf ctx st e = false) :
    inv ctx (set_conflict ctx st e) ∧
    stOf (set_conflict ctx st e) e = some .solved ∧
    e ∈ (set_conflict ctx st e).solvedQ ∧
    (set_conflict ctx st e).conflict = some e ∧
    (set_conflict ctx st e).stats.m_compute_steps = st.stats.m_compute_steps := by
  obtain ⟨⟨q1, q2, q3, nv1, nv2, sv, hp⟩, hW, hL, hG⟩ := hI
  obtain ⟨fs, fts, fpr, fsv, fw⟩ := hFl
  obtain ⟨re, hre, hres⟩ := stOf_some_elim st e .to_simplify fs
  obtain ⟨s1, s2, s3, s4, s5, s6, s7, s8, s9, s10, s11, s12, s13, s14, s15,
    s16, s17, s18, s19⟩ := set_conflict_spec ctx st e re hre
  refine ⟨⟨⟨?_, ?_, ?_, ?_, ?_, ?_, s19 hp⟩, ?_, ?_, ?_⟩, s5, ?_, s10, by rw [s13]⟩
  · exact s18 .to_simplify (by intro hc; cases hc) fsv q1 fts
  · exact s18 .processed (by intro hc; cases hc) fsv q2 fpr
  · exact s17 fsv q3
  · rw [s2]
    exact nonValQ_frame ctx st _ st.toSimplifyQ e fts s4 nv1
  · rw [s3]
    exact nonValQ_frame ctx st _ st.processedQ e fpr s4 nv2
  · intro i hi
    rw [s1, List.mem_append] at hi
    cases hi with
    | inl hio =>
      have hine : ¬ i = e := fun hc => fsv (hc ▸ hio)
      rw [valOf_congr ctx st _ i (s4 i hine), hiValOf_congr ctx st _ i (s4 i hine),
        zeroOf_congr ctx st _ i (s4 i hine)]
      exact sv i hio
    | inr hin =>
      rw [List.mem_singleton] at hin
      subst hin
      exact Or.inr ⟨by rw [s6]; exact hval, by rw [s7]; exact hzero⟩
  · exact watchOk_frame ctx st _ e s11 s2 fts fw s4 hW
  · exact levelOk_frame ctx st _ e s2 s12 s15 fts s4 hL
  · exact geomOk_frame ctx st _ s16 s15 (by rw [s11]) s12 hG
  · rw [s1]
    exact List.mem_append_right _ (List.mem_singleton.mpr rfl)

/-! ### The `scoped_update` traversal of `simplify_using(m_processed, eq)` -/

theorem queueOk_members (st st' : St P D) (s : EqState)
    (hq : st'.getQueue s = st.getQueue s)
    (hf : ∀ j ∈ st.getQueue s, st'.find? j = st.find? j)
    (h : queueOk st s) : queueOk st' s := by
  obtain ⟨hNd, hPos⟩ := h
  refine ⟨by rw [hq]; exact hNd, ?_⟩
  intro i hi
  rw [hq] at hi
  obtain ⟨h1, h2⟩ := hPos i hi
  exact ⟨by rw [stOf_congr st st' i (hf i hi)]; exact h1,
    by rw [hq, ixOf_congr st st' i (hf i hi)]; exact h2⟩

theorem nonValQ_members (ctx : Ctx P D) (st st' : St P D) (q : List Nat)
    (hf : ∀ j ∈ q, st'.find? j = st.find? j)
    (h : nonValQ ctx st q) : nonValQ ctx st' q := by
  intro i hi
  rw [valOf_congr ctx st st' i (hf i hi)]
  exact h i hi

theorem solvedOk_members (ctx : Ctx P D) (st st' : St P D)
    (hq : st'.solvedQ = st.solvedQ)
    (hf : ∀ j ∈ st.solvedQ, st'.find? j = st.find? j)
    (h : solvedOk ctx st) : solvedOk ctx st' := by
  intro i hi
  rw [hq] at hi
  rw [valOf_congr ctx st st' i (hf i hi), hiValOf_congr ctx st st' i (hf i hi),
    zeroOf_congr ctx st st' i (hf i hi)]
  exact h i hi

/-- Specification of the `scoped_update` destructor run (`append_fix`):
it renumbers and appends the unvisited targets after the kept prefix,
touching nothing but those stored indices. -/
theorem append_fix_spec (st : St P D) : ∀ (rs kept : List Nat),
    rs.Nodup → (∀ r ∈ rs, stOf st r = some .processed) →
    (∀ r ∈ rs, r ∉ kept) → kept.Nodup →
    (∀ j ∈ kept, stOf st j = some .processed ∧ kept[ixOf st j]? = some j) →
    (append_fix st kept rs).2 = kept ++ rs ∧
    (∀ j, ¬ j ∈ rs → (append_fix st kept rs).1.find? j = st.find? j) ∧
    (∀ j, stOf (append_fix st kept rs).1 j = stOf st j) ∧
    (∀ ctx : Ctx P D, ∀ j, valOf ctx (append_fix st kept rs).1 j = valOf ctx st j ∧
      zeroOf ctx (append_fix st kept rs).1 j = zeroOf ctx st j ∧
      hiValOf ctx (append_fix st kept rs).1 j = hiValOf ctx st j) ∧
    (∀ j ∈ kept ++ rs, ((append_fix st kept rs).2)[ixOf (append_fix st kept rs).1 j]?
      = some j) ∧
    (append_fix st kept rs).1.toSimplifyQ = st.toSimplifyQ ∧
    (append_fix st kept rs).1.processedQ = st.processedQ ∧
    (append_fix st kept rs).1.solvedQ = st.solvedQ ∧
    (append_fix st kept rs).1.watch = st.watch ∧
    (append_fix st kept rs).1.levelp1 = st.levelp1 ∧
    (append_fix st kept rs).1.next = st.next ∧
    (append_fix st kept rs).1.stats = st.stats ∧
    (heapFresh st → heapFresh (append_fix st kept rs).1)
  | [], kept, hNd, hst, hdisj, hkNd, hkpos => by
    unfold append_fix
    refine ⟨by rw [List.append_nil], fun j _ => rfl, fun j => rfl,
      fun ctx j => ⟨rfl, rfl, rfl⟩, ?_, rfl, rfl, rfl, rfl, rfl, rfl, rfl,
      fun h => h⟩
    intro j hj
    rw [List.append_nil] at hj
    show (kept)[ixOf st j]? = some j
    exact (hkpos j hj).2
  | r :: rs, kept, hNd, hst, hdisj, hkNd, hkpos => by
    have hrP : stOf st r = some .processed := hst r (List.mem_cons_self r rs)
    obtain ⟨rr, hrr, _⟩ := stOf_some_elim st r .processed hrP
    have hrk : r ∉ kept := hdisj r (List.mem_cons_self r rs)
    have hNd' : rs.Nodup := (List.nodup_cons.mp hNd).2
    have hrnrs : r ∉ rs := (List.nodup_cons.mp hNd).1
    have hst' : ∀ x ∈ rs, stOf (setIdx st r kept.length) x = some .processed := by
      intro x hx
      rw [stOf_setIdx]
      exact hst x (List.mem_cons_of_mem r hx)
    have hdisj' : ∀ x ∈ rs, x ∉ kept ++ [r] := by
      intro x hx hc
      rw [List.mem_append] at hc
      cases hc with
      | inl h1 => exact hdisj x (List.mem_cons_of_mem r hx) h1
      | inr h2 =>
        rw [List.mem_singleton] at h2
        subst h2
        exact hrnrs hx
    have hkNd' : (kept ++ [r]).Nodup := by
      refine hkNd.append (List.nodup_singleton r) ?_
      intro a ha hb
      rw [List.mem_singleton] at hb
      subst hb
      exact hrk ha
    have hkpos' : ∀ j ∈ kept ++ [r],
        stOf (setIdx st r kept.length) j = some .processed ∧
        (kept ++ [r])[ixOf (setIdx st r kept.length) j]? = some j := by
      intro j hj
      rw [List.mem_append] at hj
      cases hj with
      | inl hjk =>
        have hjr : ¬ j = r := fun hc => hrk (hc ▸ hjk)
        obtain ⟨h1, h2⟩ := hkpos j hjk
        have hfj : (setIdx st r kept.length).find? j = st.find? j :=
          find?_setIdx_ne st r kept.length j hjr
        refine ⟨by rw [stOf_congr st _ j hfj]; exact h1, ?_⟩
        rw [ixOf_congr st _ j hfj,
          List.getElem?_append_left (getElem?_some_lt _ _ _ h2)]
        exact h2
      | inr hjr =>
        rw [List.mem_singleton] at hjr
        subst hjr
        have hfr : (setIdx st j kept.length).find? j =
            some { rr with idx := kept.length } :=
          find?_setIdx_self st j kept.length rr hrr
        refine ⟨?_, ?_⟩
        · unfold stOf
          rw [hfr]
          have : rr.state = .processed := by
            unfold stOf at hrP
            rw [hrr] at hrP
            exact Option.some.inj hrP
          rw [show ({ rr with idx := kept.length } : EqRec P D).state = rr.state
            from rfl, this]
          rfl
        · have hix : ixOf (setIdx st j kept.length) j = kept.length := by
            unfold ixOf
            rw [hfr]
            rfl
          rw [hix, List.getElem?_append_right (Nat.le_refl _)]
          simp
    have IH := append_fix_spec (setIdx st r kept.length) rs (kept ++ [r])
      hNd' hst' hdisj' hkNd' hkpos'
    obtain ⟨c1, c2, c3, c4, c5, c6, c7, c8, c9, c10, c11, c12, c13⟩ := IH
    have hrw : append_fix st kept (r :: rs) =
        append_fix (setIdx st r kept.length) (kept ++ [r]) rs := rfl
    rw [hrw]
    have hpj := setIdx_proj st r kept.length
    refine ⟨by rw [c1, List.append_assoc]; rfl, ?_, ?_, ?_, ?_, ?_, ?_, ?_,
      ?_, ?_, ?_, ?_, ?_⟩
    · intro j hj
      have hjr : ¬ j = r := fun hc => hj (hc ▸ List.mem_cons_self r rs)
      have hjrs : ¬ j ∈ rs := fun hc => hj (List.mem_cons_of_mem r hc)
      rw [c2 j hjrs]
      exact find?_setIdx_ne st r kept.length j hjr
    · intro j
      rw [c3 j, stOf_setIdx]
    · intro ctx j
      obtain ⟨d1, d2, d3⟩ := c4 ctx j
      exact ⟨by rw [d1, valOf_setIdx], by rw [d2, zeroOf_setIdx],
        by rw [d3, hiValOf_setIdx]⟩
    · intro j hj
      refine c5 j ?_
      rw [List.append_assoc]
      exact hj
    · rw [c6]
      exact getQueue_setIdx st r kept.length .to_simplify
    · rw [c7]
      exact getQueue_setIdx st r kept.length .processed
    · rw [c8]
      exact getQueue_setIdx st r kept.length .solved
    · rw [c9, hpj.1]
    · rw [c10, hpj.2.1]
    · rw [c11, hpj.2.2.2.2.1]
    · rw [c12, hpj.2.2.2.1]
    · intro hF
      exact c13 (heapFresh_setIdx st r kept.length hF)

theorem proc_notins (ctx : Ctx P D) (st : St P D) (t : Nat) (hI : invS ctx st)
    (htP : stOf st t = some .processed) :
    t ∉ st.toSimplifyQ ∧ t ∉ st.solvedQ ∧
    (∀ v, v < st.watch.length → t ∉ st.watch.getD v []) := by
  obtain ⟨q1, q3, nv1, sv, hp, hW, hL, hG⟩ := hI
  refine ⟨?_, ?_, ?_⟩
  · intro hc
    have := (q1.2 t hc).1
    rw [htP] at this
    cases this
  · intro hc
    have := (q3.2 t hc).1
    rw [htP] at this
    cases this
  · intro v hv hc
    have := (hW.1 v hv t hc).1
    rw [htP] at this
    cases this

/-- `nextj`: keeping a target renumbers its index to the next compaction
slot; every invariant survives. -/
theorem keep_transition (ctx : Ctx P D) (st : St P D) (t : Nat) (kept : List Nat)
    (htP : stOf st t = some .processed) (htV : valOf ctx st t = false)
    (htk : t ∉ kept) (hkNd : kept.Nodup)
    (hkpos : ∀ j ∈ kept, stOf st j = some .processed ∧ valOf ctx st j = false ∧
      kept[ixOf st j]? = some j)
    (hI : invS ctx st) :
    invS ctx (setIdx st t kept.length) ∧
    (kept ++ [t]).Nodup ∧
    (∀ j ∈ kept ++ [t], stOf (setIdx st t kept.length) j = some .processed ∧
      valOf ctx (setIdx st t kept.length) j = false ∧
      (kept ++ [t])[ixOf (setIdx st t kept.length) j]? = some j) ∧
    (∀ j, stOf (setIdx st t kept.length) j = stOf st j) ∧
    (∀ j, valOf ctx (setIdx st t kept.length) j = valOf ctx st j) ∧
    (setIdx st t kept.length).processedQ = st.processedQ ∧
    (setIdx st t kept.length).stats = st.stats ∧
    (setIdx st t kept.length).toSimplifyQ = st.toSimplifyQ ∧
    (setIdx st t kept.length).solvedQ = st.solvedQ ∧
    (setIdx st t kept.length).watch = st.watch := by
  obtain ⟨q1, q3, nv1, sv, hp, hW, hL, hG⟩ := hI
  obtain ⟨hnts, hnsv, hnw⟩ := proc_notins ctx st t
    ⟨q1, q3, nv1, sv, hp, hW, hL, hG⟩ htP
  obtain ⟨rt, hrt, hrts⟩ := stOf_some_elim st t .processed htP
  have hpj := setIdx_proj st t kept.length
  have hfne : ∀ j, ¬ j = t → (setIdx st t kept.length).find? j = st.find? j :=
    fun j hj => find?_setIdx_ne st t kept.length j hj
  have hself : (setIdx st t kept.length).find? t = some { rt with idx := kept.length } :=
    find?_setIdx_self st t kept.length rt hrt
  have hqts : (setIdx st t kept.length).toSimplifyQ = st.toSimplifyQ :=
    getQueue_setIdx st t kept.length .to_simplify
  have hqpr : (setIdx st t kept.length).processedQ = st.processedQ :=
    getQueue_setIdx st t kept.length .processed
  have hqsv : (setIdx st t kept.length).solvedQ = st.solvedQ :=
    getQueue_setIdx st t kept.length .solved
  refine ⟨⟨?_, ?_, ?_, ?_, heapFresh_setIdx st t kept.length hp, ?_, ?_, ?_⟩,
    ?_, ?_, fun j => stOf_setIdx st t kept.length j,
    fun j => valOf_setIdx ctx st t kept.length j,
    hqpr, hpj.2.2.2.1, hqts, hqsv, hpj.1⟩
  · exact queueOk_frame st _ .to_simplify t hqts hnts hfne q1
  · exact queueOk_frame st _ .solved t hqsv hnsv hfne q3
  · rw [hqts]
    intro i hi
    rw [valOf_setIdx]
    exact nv1 i hi
  · intro i hi
    rw [hqsv] at hi
    rw [valOf_setIdx, hiValOf_setIdx, zeroOf_setIdx]
    exact sv i hi
  · exact watchOk_frame ctx st _ t hpj.1 hqts hnts hnw hfne hW
  · exact levelOk_frame ctx st _ t hqts hpj.2.1 hpj.2.2.2.2.2.1 hnts hfne hL
  · exact geomOk_frame ctx st _ hpj.2.2.2.2.2.2.1 hpj.2.2.2.2.2.1
      (by rw [hpj.1]) hpj.2.1 hG
  · refine hkNd.append (List.nodup_singleton t) ?_
    intro a ha hb
    rw [List.mem_singleton] at hb
    subst hb
    exact htk ha
  · intro j hj
    rw [List.mem_append] at hj
    cases hj with
    | inl hjk =>
      have hjt : ¬ j = t := fun hc => htk (hc ▸ hjk)
      obtain ⟨h1, h2, h3⟩ := hkpos j hjk
      refine ⟨by rw [stOf_setIdx]; exact h1, by rw [valOf_setIdx]; exact h2, ?_⟩
      rw [ixOf_congr st _ j (hfne j hjt),
        List.getElem?_append_left (getElem?_some_lt _ _ _ h3)]
      exact h3
    | inr hjt =>
      rw [List.mem_singleton] at hjt
      subst hjt
      refine ⟨by rw [stOf_setIdx]; exact htP, by rw [valOf_setIdx]; exact htV, ?_⟩
      have hix : ixOf (setIdx st j kept.length) j = kept.length := by
        unfold ixOf
        rw [hself]
        rfl
      rw [hix, List.getElem?_append_right (Nat.le_refl _)]
      simp

/-- Frame of `try_simplify_using` at a *processed* target, as used by the
`scoped_update` traversal: the invariant (minus the stale processed
vector), the floating equation and the bookkeeping of the visited and
unvisited targets all survive, whatever the outcome. -/
theorem tsu_proc_inv (ctx : Ctx P D) (st : St P D) (t e : Nat) (clt : Bool)
    (kept ts : List Nat) (hI : invS ctx st)
    (htP : stOf st t = some .processed)
    (hfs : stOf st e = some .to_simplify) (hets : e ∉ st.toSimplifyQ)
    (hesv : e ∉ st.solvedQ)
    (hew : ∀ v, v < st.watch.length → e ∉ st.watch.getD v [])
    (hve : valOf ctx st e = false)
    (hts : ∀ x ∈ ts, stOf st x = some .processed ∧ valOf ctx st x = false)
    (hkpos : ∀ j ∈ kept, stOf st j = some .processed ∧ valOf ctx st j = false ∧
      kept[ixOf st j]? = some j)
    (hte : ¬ t = e) (htk : t ∉ kept) (htts : t ∉ ts) :
    invS ctx (tsuState (try_simplify_using ctx st t e clt)) ∧
    stOf (tsuState (try_simplify_using ctx st t e clt)) e = some .to_simplify ∧
    e ∉ (tsuState (try_simplify_using ctx st t e clt)).toSimplifyQ ∧
    e ∉ (tsuState (try_simplify_using ctx st t e clt)).solvedQ ∧
    (∀ v, v < (tsuState (try_simplify_using ctx st t e clt)).watch.length →
      e ∉ (tsuState (try_simplify_using ctx st t e clt)).watch.getD v []) ∧
    valOf ctx (tsuState (try_simplify_using ctx st t e clt)) e = false ∧
    (∀ x ∈ ts, stOf (tsuState (try_simplify_using ctx st t e clt)) x =
        some .processed ∧
      valOf ctx (tsuState (try_simplify_using ctx st t e clt)) x = false) ∧
    (∀ j ∈ kept, stOf (tsuState (try_simplify_using ctx st t e clt)) j =
        some .processed ∧
      valOf ctx (tsuState (try_simplify_using ctx st t e clt)) j = false ∧
      kept[ixOf (tsuState (try_simplify_using ctx st t e clt)) j]? = some j) ∧
    stOf (tsuState (try_simplify_using ctx st t e clt)) t = some .processed ∧
    (tsuState (try_simplify_using ctx st t e clt)).processedQ = st.processedQ ∧
    (tsuState (try_simplify_using ctx st t e clt)).stats.m_compute_steps =
      st.stats.m_compute_steps ∧
    (tsuState (try_simplify_using ctx st t e clt)).toSimplifyQ = st.toSimplifyQ ∧
    (tsuState (try_simplify_using ctx st t e clt)).solvedQ = st.solvedQ ∧
    (tsuState (try_simplify_using ctx st t e clt)).watch = st.watch := by
  obtain ⟨f1, f2, f3, f4, f5, f6, f7, f8, f9, f10, f11, f12, f13, f14, f15⟩ :=
    tsu_pres ctx st t e clt
  obtain ⟨q1, q3, nv1, sv, hp, hW, hL, hG⟩ := hI
  obtain ⟨hnts, hnsv, hnw⟩ := proc_notins ctx st t
    ⟨q1, q3, nv1, sv, hp, hW, hL, hG⟩ htP
  refine ⟨⟨?_, ?_, ?_, ?_, f12 hp, ?_, ?_, ?_⟩, ?_, ?_, ?_, ?_, ?_, ?_, ?_,
    ?_, f2, f10, f1, f3, f4⟩
  · exact queueOk_frame st _ .to_simplify t f1 hnts f11 q1
  · exact queueOk_frame st _ .solved t f3 hnsv f11 q3
  · rw [f1]
    exact nonValQ_frame ctx st _ st.toSimplifyQ t hnts f11 nv1
  · exact solvedOk_frame ctx st _ t f3 hnsv f11 sv
  · exact watchOk_frame ctx st _ t f4 f1 hnts hnw f11 hW
  · exact levelOk_frame ctx st _ t f1 f5 f8 hnts f11 hL
  · exact geomOk_frame ctx st _ f9 f8 (by rw [f4]) f5 hG
  · rw [stOf_congr st _ e (f11 e (fun hc => hte hc.symm))]
    exact hfs
  · rw [f1]
    exact hets
  · rw [f3]
    exact hesv
  · intro v hv
    rw [f4] at hv ⊢
    exact hew v hv
  · rw [valOf_congr ctx st _ e (f11 e (fun hc => hte hc.symm))]
    exact hve
  · intro x hx
    have hxt : ¬ x = t := fun hc => htts (hc ▸ hx)
    obtain ⟨h1, h2⟩ := hts x hx
    exact ⟨by rw [stOf_congr st _ x (f11 x hxt)]; exact h1,
      by rw [valOf_congr ctx st _ x (f11 x hxt)]; exact h2⟩
  · intro j hj
    have hjt : ¬ j = t := fun hc => htk (hc ▸ hj)
    obtain ⟨h1, h2, h3⟩ := hkpos j hj
    exact ⟨by rw [stOf_congr st _ j (f11 j hjt)]; exact h1,
      by rw [valOf_congr ctx st _ j (f11 j hjt)]; exact h2,
      by rw [ixOf_congr st _ j (f11 j hjt)]; exact h3⟩
  · rw [f14]
    exact htP

/-- The `m_levelp1 = std::max(m_var2level[target.poly().var()]+1, m_levelp1)`
assignment of the migrate branch, as a named state transformer. -/
def bump_level (ctx : Ctx P D) (st : St P D) (t : Nat) : St P D :=
  { st with levelp1 := max (st.var2level.getD (pvOf ctx st t) 0 + 1) st.levelp1 }

/-- The migrate branch of the `scoped_update` traversal: a processed
target whose leading term changed goes back to *to-simplify*, is watched
under its (new) leading variable and `m_levelp1` is raised; every
invariant survives. -/
theorem migrate_transition (ctx : Ctx P D) (hC : CtxOk ctx) (st1 : St P D)
    (t e : Nat) (kept ts : List Nat) (hI : invS ctx st1)
    (htP : stOf st1 t = some .processed) (htV : valOf ctx st1 t = false)
    (hfs : stOf st1 e = some .to_simplify) (hets : e ∉ st1.toSimplifyQ)
    (hesv : e ∉ st1.solvedQ)
    (hew : ∀ v, v < st1.watch.length → e ∉ st1.watch.getD v [])
    (hve : valOf ctx st1 e = false)
    (hts : ∀ x ∈ ts, stOf st1 x = some .processed ∧ valOf ctx st1 x = false)
    (hkpos : ∀ j ∈ kept, stOf st1 j = some .processed ∧ valOf ctx st1 j = false ∧
      kept[ixOf st1 j]? = some j)
    (hte : ¬ t = e) (htk : t ∉ kept) (htts : t ∉ ts) :
    invS ctx (add_to_watch ctx
      (bump_level ctx (push_equation st1 .to_simplify t) t) t) ∧
    stOf (add_to_watch ctx
      (bump_level ctx (push_equation st1 .to_simplify t) t) t) e = some .to_simplify ∧
    e ∉ (add_to_watch ctx
      (bump_level ctx (push_equation st1 .to_simplify t) t) t).toSimplifyQ ∧
    e ∉ (add_to_watch ctx
      (bump_level ctx (push_equation st1 .to_simplify t) t) t).solvedQ ∧
    (∀ v, v < (add_to_watch ctx
      (bump_level ctx (push_equation st1 .to_simplify t) t) t).watch.length →
      e ∉ (add_to_watch ctx
      (bump_level ctx (push_equation st1 .to_simplify t) t) t).watch.getD v []) ∧
    valOf ctx (add_to_watch ctx
      (bump_level ctx (push_equation st1 .to_simplify t) t) t) e = false ∧
    (∀ x ∈ ts, stOf (add_to_watch ctx
      (bump_level ctx (push_equation st1 .to_simplify t) t) t) x = some .processed ∧
      valOf ctx (add_to_watch ctx
      (bump_level ctx (push_equation st1 .to_simplify t) t) t) x = false) ∧
    (∀ j ∈ kept, stOf (add_to_watch ctx
      (bump_level ctx (push_equation st1 .to_simplify t) t) t) j = some .processed ∧
      valOf ctx (add_to_watch ctx
      (bump_level ctx (push_equation st1 .to_simplify t) t) t) j = false ∧
      kept[ixOf (add_to_watch ctx
      (bump_level ctx (push_equation st1 .to_simplify t) t) t) j]? = some j) ∧
    (add_to_watch ctx
      (bump_level ctx (push_equation st1 .to_simplify t) t) t).processedQ =
      st1.processedQ ∧
    (add_to_watch ctx
      (bump_level ctx (push_equation st1 .to_simplify t) t) t).stats.m_compute_steps =
      st1.stats.m_compute_steps := by
  obtain ⟨q1, q3, nv1, sv, hp, hW, hL, hG⟩ := hI
  obtain ⟨hnts, hnsv, hnw⟩ := proc_notins ctx st1 t
    ⟨q1, q3, nv1, sv, hp, hW, hL, hG⟩ htP
  obtain ⟨r1, hr1, hr1s⟩ := stOf_some_elim st1 t .processed htP
  have hv1 : ctx.isVal r1.poly = false := by
    unfold valOf at htV
    rw [hr1] at htV
    exact htV
  have hpv1 : pvOf ctx st1 t = ctx.pvar r1.poly := by
    unfold pvOf
    rw [hr1]
    rfl
  have hvn : ctx.pvar r1.poly < ctx.level2var.length := by
    rw [← hpv1]
    exact pv_lt ctx hC st1 t htV
  have hwlen : st1.watch.length = ctx.level2var.length := hG.2.2.2.1
  have hvlt : ctx.pvar r1.poly < st1.watch.length := by
    rw [hwlen]
    exact hvn
  obtain ⟨p1, p2, p3, p4, p5, p6, p7, p8, p9, p10, p11, p12, p13, p14⟩ :=
    push_spec st1 .to_simplify t r1 hr1 hnts
  have hpv3 : pvOf ctx (push_equation st1 .to_simplify t) t = ctx.pvar r1.poly := by
    rw [pvOf_push]
    exact hpv1
  -- the record of t in the bumped-level state
  have hfind' : (bump_level ctx (push_equation st1 .to_simplify t) t).find? t =
      some { r1 with state := .to_simplify, idx := (st1.getQueue .to_simplify).length } := by
    show (push_equation st1 .to_simplify t).find? t = _
    exact p4
  have hwm := add_to_watch_watch ctx
    (bump_level ctx (push_equation st1 .to_simplify t) t) t
    { r1 with state := .to_simplify, idx := (st1.getQueue .to_simplify).length }
    hfind' hv1
  have hproj := add_to_watch_proj ctx
    (bump_level ctx (push_equation st1 .to_simplify t) t) t
  -- shorthand facts about the final state
  have hfMG : ∀ j, ¬ j = t → (add_to_watch ctx
      (bump_level ctx (push_equation st1 .to_simplify t) t) t).find? j = st1.find? j := by
    intro j hj
    rw [find?_add_to_watch]
    show (push_equation st1 .to_simplify t).find? j = st1.find? j
    exact p3 j hj
  have hfMGt : (add_to_watch ctx
      (bump_level ctx (push_equation st1 .to_simplify t) t) t).find? t =
      some { r1 with state := .to_simplify, idx := (st1.getQueue .to_simplify).length } := by
    rw [find?_add_to_watch]
    exact hfind'
  have hMGts : (add_to_watch ctx
      (bump_level ctx (push_equation st1 .to_simplify t) t) t).toSimplifyQ =
      st1.toSimplifyQ ++ [t] := by
    rw [hproj.2.1]
    show (push_equation st1 .to_simplify t).getQueue .to_simplify = _
    rw [p1]
    rfl
  have hMGpr : (add_to_watch ctx
      (bump_level ctx (push_equation st1 .to_simplify t) t) t).processedQ =
      st1.processedQ := by
    rw [hproj.2.2.1]
    show (push_equation st1 .to_simplify t).getQueue .processed = _
    rw [p2 .processed (by intro hc; cases hc)]
    rfl
  have hMGsv : (add_to_watch ctx
      (bump_level ctx (push_equation st1 .to_simplify t) t) t).solvedQ =
      st1.solvedQ := by
    rw [hproj.2.2.2.1]
    show (push_equation st1 .to_simplify t).getQueue .solved = _
    rw [p2 .solved (by intro hc; cases hc)]
    rfl
  have hbw : (bump_level ctx (push_equation st1 .to_simplify t) t).watch =
      st1.watch := by
    show (push_equation st1 .to_simplify t).watch = st1.watch
    exact p7
  have hMGw : (add_to_watch ctx
      (bump_level ctx (push_equation st1 .to_simplify t) t) t).watch =
      st1.watch.set (ctx.pvar r1.poly)
        ((st1.watch.getD (ctx.pvar r1.poly) []) ++ [t]) := by
    rw [hwm, hbw]
  have hMGlp : (add_to_watch ctx
      (bump_level ctx (push_equation st1 .to_simplify t) t) t).levelp1 =
      max (st1.var2level.getD (ctx.pvar r1.poly) 0 + 1) st1.levelp1 := by
    rw [hproj.2.2.2.2.1]
    show max ((push_equation st1 .to_simplify t).var2level.getD
      (pvOf ctx (push_equation st1 .to_simplify t) t) 0 + 1)
      (push_equation st1 .to_simplify t).levelp1 = _
    rw [hpv3, p12, p8]
  have hMGv2 : (add_to_watch ctx
      (bump_level ctx (push_equation st1 .to_simplify t) t) t).var2level =
      st1.var2level := by
    rw [hproj.2.2.2.2.2.2.2.2.1]
    show (push_equation st1 .to_simplify t).var2level = _
    exact p12
  have hMGl2 : (add_to_watch ctx
      (bump_level ctx (push_equation st1 .to_simplify t) t) t).level2var =
      st1.level2var := by
    rw [hproj.2.2.2.2.2.2.2.2.2.1]
    show (push_equation st1 .to_simplify t).level2var = _
    exact p13
  have hstMGt : stOf (add_to_watch ctx
      (bump_level ctx (push_equation st1 .to_simplify t) t) t) t =
      some .to_simplify := by
    unfold stOf
    rw [hfMGt]
    rfl
  have hpvMGt : pvOf ctx (add_to_watch ctx
      (bump_level ctx (push_equation st1 .to_simplify t) t) t) t =
      ctx.pvar r1.poly := by
    unfold pvOf
    rw [hfMGt]
    rfl
  have hvalMGt : valOf ctx (add_to_watch ctx
      (bump_level ctx (push_equation st1 .to_simplify t) t) t) t = false := by
    unfold valOf
    rw [hfMGt]
    exact hv1
  have hixMGt : ixOf (add_to_watch ctx
      (bump_level ctx (push_equation st1 .to_simplify t) t) t) t =
      st1.toSimplifyQ.length := by
    unfold ixOf
    rw [hfMGt]
    rfl
  have htnw : t ∉ st1.watch.getD (ctx.pvar r1.poly) [] := hnw _ hvlt
  have hmem_lt : ∀ j ∈ st1.watch.getD (ctx.pvar r1.poly) [], j ∈ st1.toSimplifyQ :=
    fun j hj => (hW.1 _ hvlt j hj).2.2
  refine ⟨⟨?_, ?_, ?_, ?_, ?_, ⟨?_, ?_⟩, ?_, ?_⟩, ?_, ?_, ?_, ?_, ?_, ?_, ?_,
    hMGpr, ?_⟩
  · -- queueOk to_simplify
    refine queueOk_congr _ _ .to_simplify ?_ ?_ (p5 q1)
    · exact hproj.2.1
    · intro j
      rw [find?_add_to_watch]
      rfl
  · -- queueOk solved
    refine queueOk_congr _ _ .solved ?_ ?_ (p6 .solved (by intro hc; cases hc) q3 hnsv)
    · exact hproj.2.2.2.1
    · intro j
      rw [find?_add_to_watch]
      rfl
  · -- nonValQ to_simplify
    intro i hi
    rw [hMGts, List.mem_append] at hi
    cases hi with
    | inl hio =>
      have hit : ¬ i = t := fun hc => hnts (hc ▸ hio)
      rw [valOf_congr ctx st1 _ i (hfMG i hit)]
      exact nv1 i hio
    | inr hin =>
      rw [List.mem_singleton] at hin
      subst hin
      exact hvalMGt
  · -- solvedOk
    intro i hi
    rw [hMGsv] at hi
    have hit : ¬ i = t := fun hc => hnsv (hc ▸ hi)
    rw [valOf_congr ctx st1 _ i (hfMG i hit), hiValOf_congr ctx st1 _ i (hfMG i hit),
      zeroOf_congr ctx st1 _ i (hfMG i hit)]
    exact sv i hi
  · -- heapFresh
    refine heapFresh_congr _ _ hproj.1 hproj.2.2.2.2.2.2.2.1 ?_
    refine heapFresh_congr _ _ rfl rfl ?_
    exact heapFresh_push st1 .to_simplify t hp
  · -- watchOk part 1
    intro v hv' i hi
    rw [hMGw, List.length_set] at hv'
    rw [hMGw] at hi
    by_cases hvp : v = ctx.pvar r1.poly
    · subst hvp
      rw [getD_set_self _ _ _ hvlt] at hi
      rw [List.mem_append] at hi
      cases hi with
      | inl hio =>
        have hit : ¬ i = t := fun hc => htnw (hc ▸ hio)
        obtain ⟨hs, hpv, hm⟩ := hW.1 _ hvlt i hio
        refine ⟨by rw [stOf_congr st1 _ i (hfMG i hit)]; exact hs,
          by rw [pvOf_congr ctx st1 _ i (hfMG i hit)]; exact hpv, ?_⟩
        rw [hMGts]
        exact List.mem_append_left _ hm
      | inr hin =>
        rw [List.mem_singleton] at hin
        subst hin
        refine ⟨hstMGt, hpvMGt, ?_⟩
        rw [hMGts]
        exact List.mem_append_right _ (List.mem_singleton.mpr rfl)
    · rw [getD_set_ne _ _ _ _ hvp] at hi
      have hvlt2 : v < st1.watch.length := hv'
      obtain ⟨hs, hpv, hm⟩ := hW.1 v hvlt2 i hi
      have hit : ¬ i = t := fun hc => hnw v hvlt2 (hc ▸ hi)
      refine ⟨by rw [stOf_congr st1 _ i (hfMG i hit)]; exact hs,
        by rw [pvOf_congr ctx st1 _ i (hfMG i hit)]; exact hpv, ?_⟩
      rw [hMGts]
      exact List.mem_append_left _ hm
  · -- watchOk part 2
    intro i hi
    rw [hMGts, List.mem_append] at hi
    cases hi with
    | inl hio =>
      have hit : ¬ i = t := fun hc => hnts (hc ▸ hio)
      rw [pvOf_congr ctx st1 _ i (hfMG i hit), hMGw]
      by_cases hvp : pvOf ctx st1 i = ctx.pvar r1.poly
      · rw [hvp, getD_set_self _ _ _ hvlt, List.count_append]
        have h0 : (st1.watch.getD (ctx.pvar r1.poly) []).count i = 1 := by
          have := hW.2 i hio
          rw [hvp] at this
          exact this
        have h1 : ([t] : List Nat).count i = 0 := by
          rw [List.count_eq_zero]
          intro hc
          rw [List.mem_singleton] at hc
          exact hit hc
        omega
      · rw [getD_set_ne _ _ _ _ hvp]
        exact hW.2 i hio
    | inr hin =>
      rw [List.mem_singleton] at hin
      rw [hin, hpvMGt, hMGw, getD_set_self _ _ _ hvlt, List.count_append]
      have h0 : (st1.watch.getD (ctx.pvar r1.poly) []).count t = 0 := by
        rw [List.count_eq_zero]
        exact htnw
      have h1 : ([t] : List Nat).count t = 1 := by simp
      omega
  · -- levelOk
    intro i hi
    rw [hMGts, List.mem_append] at hi
    rw [hMGv2, hMGlp]
    cases hi with
    | inl hio =>
      have hit : ¬ i = t := fun hc => hnts (hc ▸ hio)
      rw [pvOf_congr ctx st1 _ i (hfMG i hit)]
      have h1 := hL i hio
      have h2 : st1.levelp1 ≤
          max (st1.var2level.getD (ctx.pvar r1.poly) 0 + 1) st1.levelp1 :=
        le_max_right _ _
      omega
    | inr hin =>
      rw [List.mem_singleton] at hin
      subst hin
      rw [hpvMGt]
      have := le_max_left (st1.var2level.getD (ctx.pvar r1.poly) 0 + 1) st1.levelp1
      omega
  · -- geomOk
    refine ⟨by rw [hMGl2]; exact hG.1, by rw [hMGv2]; exact hG.2.1,
      fun v hv' => by rw [hMGv2]; exact hG.2.2.1 v hv', ?_, ?_⟩
    · rw [hMGw, List.length_set]
      exact hG.2.2.2.1
    · have h1 : st1.var2level.getD (ctx.pvar r1.poly) 0 = lvl ctx (ctx.pvar r1.poly) :=
        hG.2.2.1 _ hvn
      obtain ⟨h2, _⟩ := lvl_lt ctx hC (ctx.pvar r1.poly) hvn
      have h3 := hG.2.2.2.2
      rw [hMGlp, h1]
      exact Nat.max_le.mpr ⟨by omega, h3⟩
  · rw [stOf_congr st1 _ e (hfMG e (fun hc => hte hc.symm))]
    exact hfs
  · rw [hMGts]
    intro hc
    rw [List.mem_append] at hc
    cases hc with
    | inl h1 => exact hets h1
    | inr h2 =>
      rw [List.mem_singleton] at h2
      exact hte h2.symm
  · rw [hMGsv]
    exact hesv
  · intro v hv'
    rw [hMGw, List.length_set] at hv'
    rw [hMGw]
    by_cases hvp : v = ctx.pvar r1.poly
    · subst hvp
      rw [getD_set_self _ _ _ hvlt]
      intro hc
      rw [List.mem_append] at hc
      cases hc with
      | inl h1 => exact hew _ hvlt h1
      | inr h2 =>
        rw [List.mem_singleton] at h2
        exact hte h2.symm
    · rw [getD_set_ne _ _ _ _ hvp]
      exact hew v hv'
  · rw [valOf_congr ctx st1 _ e (hfMG e (fun hc => hte hc.symm))]
    exact hve
  · intro x hx
    have hxt : ¬ x = t := fun hc => htts (hc ▸ hx)
    obtain ⟨h1, h2⟩ := hts x hx
    exact ⟨by rw [stOf_congr st1 _ x (hfMG x hxt)]; exact h1,
      by rw [valOf_congr ctx st1 _ x (hfMG x hxt)]; exact h2⟩
  · intro j hj
    have hjt : ¬ j = t := fun hc => htk (hc ▸ hj)
    obtain ⟨h1, h2, h3⟩ := hkpos j hj
    exact ⟨by rw [stOf_congr st1 _ j (hfMG j hjt)]; exact h1,
      by rw [valOf_congr ctx st1 _ j (hfMG j hjt)]; exact h2,
      by rw [ixOf_congr st1 _ j (hfMG j hjt)]; exact h3⟩
  · rw [hproj.2.2.2.2.2.2.1]
    show (push_equation st1 .to_simplify t).stats.m_compute_steps = _
    rw [p10]

/-- Retiring a processed target that reduced to zero: every invariant of
the traversal survives. -/
theorem retire_proc_transition (ctx : Ctx P D) (st1 : St P D)
    (t e : Nat) (kept ts : List Nat) (hI : invS ctx st1)
    (htP : stOf st1 t = some .processed)
    (hfs : stOf st1 e = some .to_simplify) (hets : e ∉ st1.toSimplifyQ)
    (hesv : e ∉ st1.solvedQ)
    (hew : ∀ v, v < st1.watch.length → e ∉ st1.watch.getD v [])
    (hve : valOf ctx st1 e = false)
    (hts : ∀ x ∈ ts, stOf st1 x = some .processed ∧ valOf ctx st1 x = false)
    (hkpos : ∀ j ∈ kept, stOf st1 j = some .processed ∧ valOf ctx st1 j = false ∧
      kept[ixOf st1 j]? = some j)
    (hte : ¬ t = e) (htk : t ∉ kept) (htts : t ∉ ts) :
    invS ctx (retire st1 t) ∧
    stOf (retire st1 t) e = some .to_simplify ∧
    e ∉ (retire st1 t).toSimplifyQ ∧ e ∉ (retire st1 t).solvedQ ∧
    (∀ v, v < (retire st1 t).watch.length → e ∉ (retire st1 t).watch.getD v []) ∧
    valOf ctx (retire st1 t) e = false ∧
    (∀ x ∈ ts, stOf (retire st1 t) x = some .processed ∧
      valOf ctx (retire st1 t) x = false) ∧
    (∀ j ∈ kept, stOf (retire st1 t) j = some .processed ∧
      valOf ctx (retire st1 t) j = false ∧
      kept[ixOf (retire st1 t) j]? = some j) ∧
    (retire st1 t).processedQ = st1.processedQ ∧
    (retire st1 t).stats.m_compute_steps = st1.stats.m_compute_steps := by
  obtain ⟨q1, q3, nv1, sv, hp, hW, hL, hG⟩ := hI
  obtain ⟨hnts, hnsv, hnw⟩ := proc_notins ctx st1 t
    ⟨q1, q3, nv1, sv, hp, hW, hL, hG⟩ htP
  have hfne : ∀ j, ¬ j = t → (retire st1 t).find? j = st1.find? j :=
    fun j hj => find?_retire_ne st1 t j hj
  refine ⟨⟨?_, ?_, ?_, ?_, heapFresh_retire st1 t hp, ?_, ?_, ?_⟩,
    ?_, ?_, ?_, ?_, ?_, ?_, ?_, rfl, rfl⟩
  · exact queueOk_frame st1 _ .to_simplify t rfl hnts hfne q1
  · exact queueOk_frame st1 _ .solved t rfl hnsv hfne q3
  · exact nonValQ_frame ctx st1 _ st1.toSimplifyQ t hnts hfne nv1
  · exact solvedOk_frame ctx st1 _ t rfl hnsv hfne sv
  · exact watchOk_frame ctx st1 _ t rfl rfl hnts hnw hfne hW
  · exact levelOk_frame ctx st1 _ t rfl rfl rfl hnts hfne hL
  · exact geomOk_frame ctx st1 _ rfl rfl rfl rfl hG
  · rw [stOf_congr st1 _ e (hfne e (fun hc => hte hc.symm))]
    exact hfs
  · exact hets
  · exact hesv
  · exact hew
  · rw [valOf_congr ctx st1 _ e (hfne e (fun hc => hte hc.symm))]
    exact hve
  · intro x hx
    have hxt : ¬ x = t := fun hc => htts (hc ▸ hx)
    obtain ⟨h1, h2⟩ := hts x hx
    exact ⟨by rw [stOf_congr st1 _ x (hfne x hxt)]; exact h1,
      by rw [valOf_congr ctx st1 _ x (hfne x hxt)]; exact h2⟩
  · intro j hj
    have hjt : ¬ j = t := fun hc => htk (hc ▸ hj)
    obtain ⟨h1, h2, h3⟩ := hkpos j hj
    exact ⟨by rw [stOf_congr st1 _ j (hfne j hjt)]; exact h1,
      by rw [valOf_congr ctx st1 _ j (hfne j hjt)]; exact h2,
      by rw [ixOf_congr st1 _ j (hfne j hjt)]; exact h3⟩

/-- A processed target that became a constant non-zero conflict: it is
recorded and moved to *solved*; every invariant of the traversal
survives. -/
theorem conflict_proc_transition (ctx : Ctx P D) (st1 : St P D)
    (t e : Nat) (kept ts : List Nat) (hI : invS ctx st1)
    (htP : stOf st1 t = some .processed)
    (hvalt : valOf ctx st1 t = true) (hzerot : zeroOf ctx st1 t = false)
    (hfs : stOf st1 e = some .to_simplify) (hets : e ∉ st1.toSimplifyQ)
    (hesv : e ∉ st1.solvedQ)
    (hew : ∀ v, v < st1.watch.length → e ∉ st1.watch.getD v [])
    (hve : valOf ctx st1 e = false)
    (hts : ∀ x ∈ ts, stOf st1 x = some .processed ∧ valOf ctx st1 x = false)
    (hkpos : ∀ j ∈ kept, stOf st1 j = some .processed ∧ valOf ctx st1 j = false ∧
      kept[ixOf st1 j]? = some j)
    (hte : ¬ t = e) (htk : t ∉ kept) (htts : t ∉ ts) :
    invS ctx (set_conflict ctx st1 t) ∧
    stOf (set_conflict ctx st1 t) e = some .to_simplify ∧
    e ∉ (set_conflict ctx st1 t).toSimplifyQ ∧
    e ∉ (set_conflict ctx st1 t).solvedQ ∧
    (∀ v, v < (set_conflict ctx st1 t).watch.length →
      e ∉ (set_conflict ctx st1 t).watch.getD v []) ∧
    valOf ctx (set_conflict ctx st1 t) e = false ∧
    (∀ x ∈ ts, stOf (set_conflict ctx st1 t) x = some .processed ∧
      valOf ctx (set_conflict ctx st1 t) x = false) ∧
    (∀ j ∈ kept, stOf (set_conflict ctx st1 t) j = some .processed ∧
      valOf ctx (set_conflict ctx st1 t) j = false ∧
      kept[ixOf (set_conflict ctx st1 t) j]? = some j) ∧
    (set_conflict ctx st1 t).processedQ = st1.processedQ ∧
    (set_conflict ctx st1 t).stats.m_compute_steps = st1.stats.m_compute_steps := by
  obtain ⟨q1, q3, nv1, sv, hp, hW, hL, hG⟩ := hI
  obtain ⟨hnts, hnsv, hnw⟩ := proc_notins ctx st1 t
    ⟨q1, q3, nv1, sv, hp, hW, hL, hG⟩ htP
  obtain ⟨r1, hr1, hr1s⟩ := stOf_some_elim st1 t .processed htP
  obtain ⟨s1, s2, s3, s4, s5, s6, s7, s8, s9, s10, s11, s12, s13, s14, s15,
    s16, s17, s18, s19⟩ := set_conflict_spec ctx st1 t r1 hr1
  refine ⟨⟨?_, ?_, ?_, ?_, s19 hp, ?_, ?_, ?_⟩,
    ?_, ?_, ?_, ?_, ?_, ?_, ?_, s3, by rw [s13]⟩
  · exact s18 .to_simplify (by intro hc; cases hc) hnsv q1 hnts
  · exact s17 hnsv q3
  · rw [s2]
    exact nonValQ_frame ctx st1 _ st1.toSimplifyQ t hnts s4 nv1
  · intro i hi
    rw [s1, List.mem_append] at hi
    cases hi with
    | inl hio =>
      have hit : ¬ i = t := fun hc => hnsv (hc ▸ hio)
      rw [valOf_congr ctx st1 _ i (s4 i hit), hiValOf_congr ctx st1 _ i (s4 i hit),
        zeroOf_congr ctx st1 _ i (s4 i hit)]
      exact sv i hio
    | inr hin =>
      rw [List.mem_singleton] at hin
      subst hin
      exact Or.inr ⟨by rw [s6]; exact hvalt, by rw [s7]; exact hzerot⟩
  · exact watchOk_frame ctx st1 _ t s11 s2 hnts hnw s4 hW
  · exact levelOk_frame ctx st1 _ t s2 s12 s15 hnts s4 hL
  · exact geomOk_frame ctx st1 _ s16 s15 (by rw [s11]) s12 hG
  · rw [stOf_congr st1 _ e (s4 e (fun hc => hte hc.symm))]
    exact hfs
  · rw [s2]
    exact hets
  · rw [s1]
    intro hc
    rw [List.mem_append] at hc
    cases hc with
    | inl h1 => exact hesv h1
    | inr h2 =>
      rw [List.mem_singleton] at h2
      exact hte h2.symm
  · intro v hv'
    rw [s11] at hv' ⊢
    exact hew v hv'
  · rw [valOf_congr ctx st1 _ e (s4 e (fun hc => hte hc.symm))]
    exact hve
  · intro x hx
    have hxt : ¬ x = t := fun hc => htts (hc ▸ hx)
    obtain ⟨h1, h2⟩ := hts x hx
    exact ⟨by rw [stOf_congr st1 _ x (s4 x hxt)]; exact h1,
      by rw [valOf_congr ctx st1 _ x (s4 x hxt)]; exact h2⟩
  · intro j hj
    have hjt : ¬ j = t := fun hc => htk (hc ▸ hj)
    obtain ⟨h1, h2, h3⟩ := hkpos j hj
    exact ⟨by rw [stOf_congr st1 _ j (s4 j hjt)]; exact h1,
      by rw [valOf_congr ctx st1 _ j (s4 j hjt)]; exact h2,
      by rw [ixOf_congr st1 _ j (s4 j hjt)]; exact h3⟩

theorem watch_push (st : St P D) (s : EqState) (i : Nat) :
    (push_equation st s i).watch = st.watch := by
  unfold push_equation
  cases st.find? i with
  | none => rfl
  | some r =>
    rw [watch_setQueue]
    rfl

theorem set_loop_cons (ctx : Ctx P D) (e t : Nat) (ts : List Nat) (st : St P D)
    (kept : List Nat) :
    simplify_set_loop ctx e (t :: ts) st kept =
      if done ctx st then
        simplify_set_loop ctx e ts (setIdx st t kept.length) (kept ++ [t])
      else
        match try_simplify_using ctx st t e false with
        | .error s =>
          let (s2, ks) := append_fix s kept (t :: ts)
          .error { s2 with processedQ := ks }
        | .ok (st, simplified, clt) =>
          if simplified && is_trivial ctx st t then
            simplify_set_loop ctx e ts (retire st t) kept
          else
            let (st, confl) := if simplified then check_conflict ctx st t else (st, false)
            if confl then
              simplify_set_loop ctx e ts st kept
            else if simplified && clt then
              let st := push_equation st .to_simplify t
              let st :=
                if st.watch.isEmpty then st
                else
                  let lp := max (st.var2level.getD (pvOf ctx st t) 0 + 1) st.levelp1
                  add_to_watch ctx { st with levelp1 := lp } t
              simplify_set_loop ctx e ts st kept
            else
              simplify_set_loop ctx e ts (setIdx st t kept.length) (kept ++ [t]) := rfl

/-- Invariant preservation of the whole `scoped_update` traversal of
`simplify_using(m_processed, eq)`: on normal completion the kept prefix is
a well-formed compacted processed vector; on mem-out the destructor has
already compacted, and the carried state is structurally well-formed. -/
theorem set_loop_inv (ctx : Ctx P D) (hC : CtxOk ctx) (e : Nat) :
    ∀ (ts : List Nat) (st : St P D) (kept : List Nat),
      invS ctx st →
      stOf st e = some .to_simplify →
      e ∉ st.toSimplifyQ → e ∉ st.solvedQ →
      (∀ v, v < st.watch.length → e ∉ st.watch.getD v []) →
      valOf ctx st e = false →
      (∀ t ∈ ts, stOf st t = some .processed ∧ valOf ctx st t = false) →
      ts.Nodup → (∀ t ∈ ts, t ∉ kept) → e ∉ ts → e ∉ kept → kept.Nodup →
      (∀ j ∈ kept, stOf st j = some .processed ∧ valOf ctx st j = false ∧
        kept[ixOf st j]? = some j) →
      (∀ s kept', simplify_set_loop ctx e ts st kept = .ok (s, kept') →
        invS ctx s ∧ stOf s e = some .to_simplify ∧ e ∉ s.toSimplifyQ ∧
        e ∉ s.solvedQ ∧ (∀ v, v < s.watch.length → e ∉ s.watch.getD v []) ∧
        valOf ctx s e = false ∧ kept'.Nodup ∧ e ∉ kept' ∧
        (∀ j ∈ kept', stOf s j = some .processed ∧ valOf ctx s j = false ∧
          kept'[ixOf s j]? = some j) ∧
        s.processedQ = st.processedQ ∧
        s.stats.m_compute_steps = st.stats.m_compute_steps) ∧
      (∀ s, simplify_set_loop ctx e ts st kept = .error s →
        queueOk s .to_simplify ∧ queueOk s .processed ∧ queueOk s .solved ∧
        nonValQ ctx s s.toSimplifyQ ∧ solvedOk ctx s ∧ heapFresh s ∧
        stOf s e = some .to_simplify ∧ e ∉ s.toSimplifyQ ∧ e ∉ s.processedQ ∧
        e ∉ s.solvedQ ∧ s.stats.m_compute_steps = st.stats.m_compute_steps)
  | [], st, kept, hI, hfs, hets, hesv, hew, hve, hts, hNd, hdisj, hets2, hek,
      hkNd, hkpos => by
    refine ⟨?_, ?_⟩
    · intro s kept' hs
      cases hs
      exact ⟨hI, hfs, hets, hesv, hew, hve, hkNd, hek, hkpos, rfl, rfl⟩
    · intro s hs
      cases hs
  | t :: ts, st, kept, hI, hfs, hets, hesv, hew, hve, hts, hNd, hdisj, hets2,
      hek, hkNd, hkpos => by
    have htP : stOf st t = some .processed := (hts t (List.mem_cons_self t ts)).1
    have htV : valOf ctx st t = false := (hts t (List.mem_cons_self t ts)).2
    have hte : ¬ t = e := fun hc => hets2 (hc ▸ List.mem_cons_self t ts)
    have htk : t ∉ kept := hdisj t (List.mem_cons_self t ts)
    have htts : t ∉ ts := (List.nodup_cons.mp hNd).1
    have hNd' : ts.Nodup := (List.nodup_cons.mp hNd).2
    have hts' : ∀ x ∈ ts, stOf st x = some .processed ∧ valOf ctx st x = false :=
      fun x hx => hts x (List.mem_cons_of_mem t hx)
    have hets2' : e ∉ ts := fun hc => hets2 (List.mem_cons_of_mem t hc)
    rw [set_loop_cons]
    by_cases hdone : done ctx st = true
    · simp only [hdone, if_true]
      obtain ⟨kI, kNd, kpos, kst, kval, kpr, kstats, kts, ksv, kw⟩ :=
        keep_transition ctx st t kept htP htV htk hkNd hkpos hI
      have hdisj' : ∀ x ∈ ts, x ∉ kept ++ [t] := by
        intro x hx hc
        rw [List.mem_append] at hc
        cases hc with
        | inl h1 => exact hdisj x (List.mem_cons_of_mem t hx) h1
        | inr h2 =>
          rw [List.mem_singleton] at h2
          exact htts (h2 ▸ hx)
      have hek' : e ∉ kept ++ [t] := by
        intro hc
        rw [List.mem_append] at hc
        cases hc with
        | inl h1 => exact hek h1
        | inr h2 =>
          rw [List.mem_singleton] at h2
          exact hte h2.symm
      have IH := set_loop_inv ctx hC e ts (setIdx st t kept.length) (kept ++ [t])
        kI (by rw [kst e]; exact hfs) (by rw [kts]; exact hets)
        (by rw [ksv]; exact hesv) (by rw [kw]; exact hew)
        (by rw [kval e]; exact hve)
        (fun x hx => ⟨by rw [kst x]; exact (hts' x hx).1,
          by rw [kval x]; exact (hts' x hx).2⟩)
        hNd' hdisj' hets2' hek' kNd kpos
      refine ⟨?_, ?_⟩
      · intro s kept' hs
        obtain ⟨a1, a2, a3, a4, a5, a6, a7, a8, a9, a10, a11⟩ := IH.1 s kept' hs
        exact ⟨a1, a2, a3, a4, a5, a6, a7, a8, a9, by rw [a10, kpr],
          by rw [a11]; rw [show (setIdx st t kept.length).stats = st.stats from kstats]⟩
      · intro s hs
        obtain ⟨a1, a2, a3, a4, a5, a6, a7, a8, a9, a10, a11⟩ := IH.2 s hs
        exact ⟨a1, a2, a3, a4, a5, a6, a7, a8, a9, a10,
          by rw [a11]; rw [show (setIdx st t kept.length).stats = st.stats from kstats]⟩
    · simp only [Bool.not_eq_true] at hdone
      simp only [hdone]
      obtain ⟨herrshape, hokshape⟩ := tsu_cases ctx st t e false
      have tsuB := tsu_proc_inv ctx st t e false kept ts hI htP hfs hets hesv hew
        hve hts' hkpos hte htk htts
      cases htsu : try_simplify_using ctx st t e false with
      | error s0 =>
        simp only [htsu]
        have hs0 : s0 = bump_simplified st := herrshape s0 htsu
        subst hs0
        refine ⟨?_, ?_⟩
        · intro s kept' hs
          cases hs
        · intro s hs
          -- the destructor has compacted: the carried state
          have hafs := append_fix_spec (bump_simplified st) (t :: ts) kept hNd
            (fun r hr => (hts r hr).1) (fun r hr => hdisj r hr) hkNd
            (fun j hj => ⟨(hkpos j hj).1, (hkpos j hj).2.2⟩)
          obtain ⟨c1, c2, c3, c4, c5, c6, c7, c8, c9, c10, c11, c12, c13⟩ := hafs
          have hs' : (Except.error
              ({ (append_fix (bump_simplified st) kept (t :: ts)).1 with
                processedQ := (append_fix (bump_simplified st) kept (t :: ts)).2 } :
                St P D) :
              Except (St P D) (St P D × List Nat)) = .error s := hs
          cases hs'
          have hdisj2 : ∀ j ∈ st.toSimplifyQ, ¬ j ∈ t :: ts := by
            intro j hj hc
            have h1 := (hts j hc).1
            have h2 := (hI.1.2 j hj).1
            rw [h1] at h2
            cases h2
          have hdisj3 : ∀ j ∈ st.solvedQ, ¬ j ∈ t :: ts := by
            intro j hj hc
            have h1 := (hts j hc).1
            have h2 := (hI.2.1.2 j hj).1
            rw [h1] at h2
            cases h2
          refine ⟨?_, ?_, ?_, ?_, ?_, ?_, ?_, ?_, ?_, ?_, ?_⟩
          · -- queueOk to_simplify of the error state
            refine queueOk_members st _ .to_simplify ?_ ?_ hI.1
            · show (append_fix (bump_simplified st) kept (t :: ts)).1.toSimplifyQ
                = st.toSimplifyQ
              rw [c6]
              rfl
            · intro j hj
              show (append_fix (bump_simplified st) kept (t :: ts)).1.find? j
                = st.find? j
              rw [c2 j (hdisj2 j hj)]
              rfl
          · -- queueOk processed of the error state: the compacted vector
            constructor
            · show ((append_fix (bump_simplified st) kept (t :: ts)).2).Nodup
              rw [c1]
              refine hkNd.append hNd ?_
              intro a ha hb
              exact hdisj a hb ha
            · intro j hj
              have hj' : j ∈ kept ++ (t :: ts) := by
                have : j ∈ (append_fix (bump_simplified st) kept (t :: ts)).2 := hj
                rw [c1] at this
                exact this
              have hjp : stOf st j = some .processed := by
                rw [List.mem_append] at hj'
                cases hj' with
                | inl h1 => exact (hkpos j h1).1
                | inr h2 => exact (hts j h2).1
              refine ⟨?_, ?_⟩
              · show stOf (append_fix (bump_simplified st) kept (t :: ts)).1 j
                  = some .processed
                rw [c3 j]
                exact hjp
              · show ((append_fix (bump_simplified st) kept (t :: ts)).2)[ixOf
                  (append_fix (bump_simplified st) kept (t :: ts)).1 j]? = some j
                exact c5 j hj'
          · refine queueOk_members st _ .solved ?_ ?_ hI.2.1
            · show (append_fix (bump_simplified st) kept (t :: ts)).1.solvedQ
                = st.solvedQ
              rw [c8]
              rfl
            · intro j hj
              show (append_fix (bump_simplified st) kept (t :: ts)).1.find? j
                = st.find? j
              rw [c2 j (hdisj3 j hj)]
              rfl
          · intro i hi
            have hi' : i ∈ st.toSimplifyQ := by
              have : i ∈ (append_fix (bump_simplified st) kept (t :: ts)).1.toSimplifyQ := hi
              rw [c6] at this
              exact this
            have := (c4 ctx i).1
            show valOf ctx (append_fix (bump_simplified st) kept (t :: ts)).1 i = false
            rw [this]
            exact hI.2.2.1 i hi'
          · intro i hi
            have hi' : i ∈ st.solvedQ := by
              have : i ∈ (append_fix (bump_simplified st) kept (t :: ts)).1.solvedQ := hi
              rw [c8] at this
              exact this
            obtain ⟨d1, d2, d3⟩ := c4 ctx i
            show (valOf ctx (append_fix (bump_simplified st) kept (t :: ts)).1 i
                = false ∧
                hiValOf ctx (append_fix (bump_simplified st) kept (t :: ts)).1 i
                = true) ∨
              (valOf ctx (append_fix (bump_simplified st) kept (t :: ts)).1 i
                = true ∧
                zeroOf ctx (append_fix (bump_simplified st) kept (t :: ts)).1 i
                = false)
            rw [d1, d2, d3]
            exact hI.2.2.2.1 i hi'
          · refine heapFresh_congr _ _ rfl rfl ?_
            exact c13 hI.2.2.2.2.1
          · show stOf (append_fix (bump_simplified st) kept (t :: ts)).1 e
              = some .to_simplify
            rw [c3 e]
            exact hfs
          · show e ∉ (append_fix (bump_simplified st) kept (t :: ts)).1.toSimplifyQ
            rw [c6]
            exact hets
          · show e ∉ (append_fix (bump_simplified st) kept (t :: ts)).2
            rw [c1]
            intro hc
            rw [List.mem_append] at hc
            cases hc with
            | inl h1 => exact hek h1
            | inr h2 => exact hets2 h2
          · show e ∉ (append_fix (bump_simplified st) kept (t :: ts)).1.solvedQ
            rw [c8]
            exact hesv
          · show (append_fix (bump_simplified st) kept (t :: ts)).1.stats.m_compute_steps
              = st.stats.m_compute_steps
            rw [c12]
            rfl
      | ok out =>
        obtain ⟨st1, simplified, clt⟩ := out
        simp only [htsu]
        rw [htsu] at tsuB
        simp only [tsuState] at tsuB
        obtain ⟨bI, bfs, bets, besv, bew, bve, bts, bkpos, btP, bpr, bsteps,
          bqts, bqsv, bw⟩ := tsuB
        by_cases htriv : (simplified && is_trivial ctx st1 t) = true
        · simp only [htriv, if_true]
          obtain ⟨rI, rst, rts, rsv, rw', rval, rtsF, rkpos, rpr, rsteps⟩ :=
            retire_proc_transition ctx st1 t e kept ts bI btP bfs bets besv bew
              bve bts bkpos hte htk htts
          have IH := set_loop_inv ctx hC e ts (retire st1 t) kept
            rI rst rts rsv rw' rval rtsF hNd'
            (fun x hx => hdisj x (List.mem_cons_of_mem t hx)) hets2' hek hkNd rkpos
          refine ⟨?_, ?_⟩
          · intro s kept' hs
            obtain ⟨a1, a2, a3, a4, a5, a6, a7, a8, a9, a10, a11⟩ := IH.1 s kept' hs
            exact ⟨a1, a2, a3, a4, a5, a6, a7, a8, a9,
              by rw [a10, rpr, bpr], by rw [a11, rsteps, bsteps]⟩
          · intro s hs
            obtain ⟨a1, a2, a3, a4, a5, a6, a7, a8, a9, a10, a11⟩ := IH.2 s hs
            exact ⟨a1, a2, a3, a4, a5, a6, a7, a8, a9, a10,
              by rw [a11, rsteps, bsteps]⟩
        · simp only [Bool.not_eq_true] at htriv
          simp only [htriv]
          cases hsimp : simplified with
          | false =>
            -- the target was not simplified: its record is untouched
            have hval1 : valOf ctx st1 t = false := by
              have hcase := hokshape st1 simplified clt htsu
              cases hcase with
              | inl hfa =>
                obtain ⟨_, hshape⟩ := hfa
                obtain h | h | h := hshape <;> subst h
                · exact htV
                · exact htV
                · exact htV
              | inr htr =>
                obtain ⟨hb, _⟩ := htr
                rw [hsimp] at hb
                cases hb
            obtain ⟨kI, kNd, kpos, kst, kval, kpr, kstats, kts, ksv, kw⟩ :=
              keep_transition ctx st1 t kept btP hval1 htk hkNd bkpos bI
            have hdisj' : ∀ x ∈ ts, x ∉ kept ++ [t] := by
              intro x hx hc
              rw [List.mem_append] at hc
              cases hc with
              | inl h1 => exact hdisj x (List.mem_cons_of_mem t hx) h1
              | inr h2 =>
                rw [List.mem_singleton] at h2
                exact htts (h2 ▸ hx)
            have hek' : e ∉ kept ++ [t] := by
              intro hc
              rw [List.mem_append] at hc
              cases hc with
              | inl h1 => exact hek h1
              | inr h2 =>
                rw [List.mem_singleton] at h2
                exact hte h2.symm
            have IH := set_loop_inv ctx hC e ts (setIdx st1 t kept.length)
              (kept ++ [t]) kI (by rw [kst e]; exact bfs) (by rw [kts]; exact bets)
              (by rw [ksv]; exact besv) (by rw [kw]; exact bew)
              (by rw [kval e]; exact bve)
              (fun x hx => ⟨by rw [kst x]; exact (bts x hx).1,
                by rw [kval x]; exact (bts x hx).2⟩)
              hNd' hdisj' hets2' hek' kNd kpos
            refine ⟨?_, ?_⟩
            · intro s kept' hs
              obtain ⟨a1, a2, a3, a4, a5, a6, a7, a8, a9, a10, a11⟩ := IH.1 s kept' hs
              refine ⟨a1, a2, a3, a4, a5, a6, a7, a8, a9, ?_, ?_⟩
              · rw [a10, kpr, bpr]
              · rw [a11]
                rw [show (setIdx st1 t kept.length).stats = st1.stats from kstats,
                  bsteps]
            · intro s hs
              obtain ⟨a1, a2, a3, a4, a5, a6, a7, a8, a9, a10, a11⟩ := IH.2 s hs
              refine ⟨a1, a2, a3, a4, a5, a6, a7, a8, a9, a10, ?_⟩
              rw [a11]
              rw [show (setIdx st1 t kept.length).stats = st1.stats from kstats,
                bsteps]
          | true =>
            by_cases hconf : is_conflict ctx st1 t = true
            · rw [check_conflict_true ctx st1 t hconf]
              obtain ⟨hvalt, hzerot⟩ := (is_conflict_iff ctx st1 t).mp hconf
              obtain ⟨cI, cst, cts, csv, cw, cval, ctsF, ckpos, cpr, csteps⟩ :=
                conflict_proc_transition ctx st1 t e kept ts bI btP hvalt hzerot
                  bfs bets besv bew bve bts bkpos hte htk htts
              have IH := set_loop_inv ctx hC e ts (set_conflict ctx st1 t) kept
                cI cst cts csv cw cval ctsF hNd'
                (fun x hx => hdisj x (List.mem_cons_of_mem t hx)) hets2' hek hkNd
                ckpos
              refine ⟨?_, ?_⟩
              · intro s kept' hs
                obtain ⟨a1, a2, a3, a4, a5, a6, a7, a8, a9, a10, a11⟩ := IH.1 s kept' hs
                exact ⟨a1, a2, a3, a4, a5, a6, a7, a8, a9,
                  by rw [a10, cpr, bpr], by rw [a11, csteps, bsteps]⟩
              · intro s hs
                obtain ⟨a1, a2, a3, a4, a5, a6, a7, a8, a9, a10, a11⟩ := IH.2 s hs
                exact ⟨a1, a2, a3, a4, a5, a6, a7, a8, a9, a10,
                  by rw [a11, csteps, bsteps]⟩
            · simp only [Bool.not_eq_true] at hconf
              rw [check_conflict_false ctx st1 t hconf]
              have hval1 : valOf ctx st1 t = false := by
                cases hv1 : valOf ctx st1 t with
                | false => rfl
                | true =>
                  cases hz1 : zeroOf ctx st1 t with
                  | true =>
                    exfalso
                    have : (simplified && is_trivial ctx st1 t) = true := by
                      rw [hsimp]
                      show (true && zeroOf ctx st1 t) = true
                      rw [hz1]
                      rfl
                    rw [htriv] at this
                    cases this
                  | false =>
                    exfalso
                    have : is_conflict ctx st1 t = true := by
                      unfold is_conflict
                      rw [hv1, hz1]
                      rfl
                    rw [hconf] at this
                    cases this
              cases hclt : clt with
              | true =>
                have hwne : (push_equation st1 .to_simplify t).watch.isEmpty
                    = false := by
                  rw [watch_push]
                  refine isEmpty_false_of_length_pos st1.watch ?_
                  have h1 : pvOf ctx st1 t < ctx.level2var.length :=
                    pv_lt ctx hC st1 t hval1
                  have h2 : st1.watch.length = ctx.level2var.length :=
                    bI.2.2.2.2.2.2.2.2.2.2.1
                  omega
                obtain ⟨mI, mst, mts, msv, mw, mval, mtsF, mkpos, mpr, msteps⟩ :=
                  migrate_transition ctx hC st1 t e kept ts bI btP hval1
                    bfs bets besv bew bve bts bkpos hte htk htts
                have IH := set_loop_inv ctx hC e ts
                  (add_to_watch ctx (bump_level ctx (push_equation st1 .to_simplify t) t) t)
                  kept mI mst mts msv mw mval mtsF hNd'
                  (fun x hx => hdisj x (List.mem_cons_of_mem t hx)) hets2' hek hkNd
                  mkpos
                refine ⟨?_, ?_⟩
                · intro s kept' hs
                  have hs2 : simplify_set_loop ctx e ts
                      (if (push_equation st1 .to_simplify t).watch.isEmpty
                       then push_equation st1 .to_simplify t
                       else add_to_watch ctx
                         (bump_level ctx (push_equation st1 .to_simplify t) t) t)
                      kept = .ok (s, kept') := hs
                  rw [hwne] at hs2
                  have hs3 : simplify_set_loop ctx e ts
                      (add_to_watch ctx
                        (bump_level ctx (push_equation st1 .to_simplify t) t) t)
                      kept = .ok (s, kept') := hs2
                  obtain ⟨a1, a2, a3, a4, a5, a6, a7, a8, a9, a10, a11⟩ :=
                    IH.1 s kept' hs3
                  exact ⟨a1, a2, a3, a4, a5, a6, a7, a8, a9,
                    by rw [a10, mpr, bpr], by rw [a11, msteps, bsteps]⟩
                · intro s hs
                  have hs2 : simplify_set_loop ctx e ts
                      (if (push_equation st1 .to_simplify t).watch.isEmpty
                       then push_equation st1 .to_simplify t
                       else add_to_watch ctx
                         (bump_level ctx (push_equation st1 .to_simplify t) t) t)
                      kept = .error s := hs
                  rw [hwne] at hs2
                  have hs3 : simplify_set_loop ctx e ts
                      (add_to_watch ctx
                        (bump_level ctx (push_equation st1 .to_simplify t) t) t)
                      kept = .error s := hs2
                  obtain ⟨a1, a2, a3, a4, a5, a6, a7, a8, a9, a10, a11⟩ := IH.2 s hs3
                  exact ⟨a1, a2, a3, a4, a5, a6, a7, a8, a9, a10,
                    by rw [a11, msteps, bsteps]⟩
              | false =>
                obtain ⟨kI, kNd, kpos, kst, kval, kpr, kstats, kts, ksv, kw⟩ :=
                  keep_transition ctx st1 t kept btP hval1 htk hkNd bkpos bI
                have hdisj' : ∀ x ∈ ts, x ∉ kept ++ [t] := by
                  intro x hx hc
                  rw [List.mem_append] at hc
                  cases hc with
                  | inl h1 => exact hdisj x (List.mem_cons_of_mem t hx) h1
                  | inr h2 =>
                    rw [List.mem_singleton] at h2
                    exact htts (h2 ▸ hx)
                have hek' : e ∉ kept ++ [t] := by
                  intro hc
                  rw [List.mem_append] at hc
                  cases hc with
                  | inl h1 => exact hek h1
                  | inr h2 =>
                    rw [List.mem_singleton] at h2
                    exact hte h2.symm
                have IH := set_loop_inv ctx hC e ts (setIdx st1 t kept.length)
                  (kept ++ [t]) kI (by rw [kst e]; exact bfs)
                  (by rw [kts]; exact bets) (by rw [ksv]; exact besv)
                  (by rw [kw]; exact bew) (by rw [kval e]; exact bve)
                  (fun x hx => ⟨by rw [kst x]; exact (bts x hx).1,
                    by rw [kval x]; exact (bts x hx).2⟩)
                  hNd' hdisj' hets2' hek' kNd kpos
                refine ⟨?_, ?_⟩
                · intro s kept' hs
                  obtain ⟨a1, a2, a3, a4, a5, a6, a7, a8, a9, a10, a11⟩ :=
                    IH.1 s kept' hs
                  refine ⟨a1, a2, a3, a4, a5, a6, a7, a8, a9, ?_, ?_⟩
                  · rw [a10, kpr, bpr]
                  · rw [a11]
                    rw [show (setIdx st1 t kept.length).stats = st1.stats from kstats,
                      bsteps]
                · intro s hs
                  obtain ⟨a1, a2, a3, a4, a5, a6, a7, a8, a9, a10, a11⟩ := IH.2 s hs
                  refine ⟨a1, a2, a3, a4, a5, a6, a7, a8, a9, a10, ?_⟩
                  rw [a11]
                  rw [show (setIdx st1 t kept.length).stats = st1.stats from kstats,
                    bsteps]

/-- `simplify_using(m_processed, eq)` preserves the invariant and the
floating picked equation; on mem-out the carried state keeps structurally
well-formed queues with the picked equation still floating. -/
theorem sus_inv (ctx : Ctx P D) (hC : CtxOk ctx) (st : St P D) (e : Nat)
    (hI : inv ctx st) (hFl : floating ctx st e) (hve : valOf ctx st e = false) :
    (∀ s, simplify_using_set ctx st e = .ok s →
      inv ctx s ∧ floating ctx s e ∧ valOf ctx s e = false ∧
      s.stats.m_compute_steps = st.stats.m_compute_steps) ∧
    (∀ s, simplify_using_set ctx st e = .error s →
      queueOk s .to_simplify ∧ queueOk s .processed ∧ queueOk s .solved ∧
      nonValQ ctx s s.toSimplifyQ ∧ solvedOk ctx s ∧ heapFresh s ∧
      stOf s e = some .to_simplify ∧ e ∉ s.toSimplifyQ ∧ e ∉ s.processedQ ∧
      e ∉ s.solvedQ ∧ s.stats.m_compute_steps = st.stats.m_compute_steps) := by
  obtain ⟨fs, fts, fpr, fsv, fw⟩ := hFl
  have hqp : queueOk st .processed := hI.1.2.1
  have hnvp : nonValQ ctx st st.processedQ := hI.1.2.2.2.2.1
  have hloop := set_loop_inv ctx hC e st.processedQ st []
    (inv_invS ctx st hI) fs fts fsv fw hve
    (fun t ht => ⟨(hqp.2 t ht).1, hnvp t ht⟩)
    hqp.1 (fun t _ hc => by cases hc) fpr (by intro hc; cases hc)
    List.nodup_nil (fun j hj => by cases hj)
  unfold simplify_using_set
  cases hres : simplify_set_loop ctx e st.processedQ st [] with
  | error s0 =>
    obtain ⟨a1, a2, a3, a4, a5, a6, a7, a8, a9, a10, a11⟩ := hloop.2 s0 hres
    refine ⟨?_, ?_⟩
    · intro s hs
      cases hs
    · intro s hs
      cases hs
      exact ⟨a1, a2, a3, a4, a5, a6, a7, a8, a9, a10, a11⟩
  | ok out =>
    obtain ⟨s0, kept'⟩ := out
    obtain ⟨aI, afs, ats, asv, aw, ave, akNd, aek, akpos, apr, asteps⟩ :=
      hloop.1 s0 kept' hres
    refine ⟨?_, ?_⟩
    · intro s hs
      cases hs
      obtain ⟨q1, q3, nv1, sv, hp, hW, hL, hG⟩ := aI
      refine ⟨⟨⟨q1, ?_, q3, nv1, ?_, sv, hp⟩, hW, hL, hG⟩,
        ⟨afs, ats, aek, asv, aw⟩, ave, asteps⟩
      · -- queueOk processed of the committed state
        refine ⟨akNd, ?_⟩
        intro j hj
        exact ⟨(akpos j hj).1, (akpos j hj).2.2⟩
      · -- nonValQ of the committed processed vector
        intro j hj
        exact (akpos j hj).2.1
    · intro s hs
      cases hs

end PddSolver
